import Mathlib

/-!
# HashTable: a separate-chaining hash table with a bidirectional cursor

A shallow embedding of `HashTable/HashTable/HashTable.h`.

* `std::vector<Bucket>` is a `List` of buckets, `std::list<std::pair<K, V>>` a
  `List (K × V)` whose head is the front of the list (`push_front` is cons).
* The hash function is any `K → Nat`.
* The development has two layers. In `HashTable` the counters `size` and `listCount` are
  natural numbers and the threshold test is a function of `size` and `listCount`
  (`Threshold.exact t` is the test on exact ratios against the rational `t`,
  `Threshold.binary32 t` the test the source performs in `float`): the class as it behaves
  while the bucket count stays in the range of `int`. The contract of the operations, the
  traversal and the invariants of the stored pairs are stated on this layer.
* In `Machine` the members have the types the source declares: `int listCount`, taken as a
  32-bit two's complement integer that the constructor narrows from the 64-bit `size_t`
  argument and that `Rehash()` doubles, a signed overflow being undefined; and
  `float loadFactorThreshold`, taken as IEEE 754 binary32 with round to nearest, ties to
  even, the quotient `(float)size / listCount` being computed in `float`. A call with
  undefined behaviour, or one that leaves by an exception, has no result. The statements on
  the load factor and on the bucket count are made on this layer; `run_toMachine` relates the
  layers: from a well-formed table whose bucket count fits in an `int`, a sequence of calls
  on `Machine` returns exactly when no doubling leaves the range of `int`, and then it leaves
  the counters and buckets of the same calls on `HashTable`.
* Allocation is assumed to succeed, and `size` does not wrap: a table of `2 ^ 64` pairs does
  not fit in the address space.
* An iterator is the pair (index of the bucket, offset inside the bucket); the
  offset equal to the bucket length is that bucket's `end()`.
* Reading `hashTable[i]` outside the vector is undefined in the source; the
  `HashTable` layer reads an empty bucket there and a write there changes nothing,
  and on the `Machine` layer the call has no result.
-/

namespace HashTableModel

/-- The outcome of the source's test `(float)size / listCount >= loadFactorThreshold`
as a function of `size` and `listCount`, for the threshold fixed at construction. -/
abbrev Threshold := Nat → Nat → Bool

/-- The threshold test carried out on exact ratios: `size / listCount >= t`. -/
def Threshold.exact (t : ℚ) : Threshold :=
  fun size listCount => decide (t ≤ (size : ℚ) / (listCount : ℚ))

/-- The data members of `class HashTable`. -/
structure HashTable (K V : Type) where
  hashTable : List (List (K × V))
  hashFunction : K → Nat
  size : Nat
  listCount : Nat
  loadFactorThreshold : Threshold

/-- The bucket `hashTable[i]`. -/
def bucketAt {K V : Type} (table : List (List (K × V))) (i : Nat) : List (K × V) :=
  table.getD i []

/-- The statement `table[i].push_front(pair)`. -/
def pushFront {K V : Type} (table : List (List (K × V))) (i : Nat) (pair : K × V) :
    List (List (K × V)) :=
  table.set i (pair :: bucketAt table i)

/-- The loop of `insert` over one bucket: the first pair whose key equals `key`
gets the new value and the loop returns; `none` when the loop runs to the end. -/
def overwrite {K V : Type} [DecidableEq K] (key : K) (value : V) :
    List (K × V) → Option (List (K × V))
  | [] => none
  | pair :: rest =>
    if pair.1 = key then some ((pair.1, value) :: rest)
    else (overwrite key value rest).map (fun r => pair :: r)

/-- The loop of `erase` over one bucket: the first pair whose key equals `key`
is unlinked and the loop returns; `none` when the loop runs to the end. -/
def unlink {K V : Type} [DecidableEq K] (key : K) : List (K × V) → Option (List (K × V))
  | [] => none
  | pair :: rest =>
    if pair.1 = key then some rest
    else (unlink key rest).map (fun r => pair :: r)

namespace HashTable

variable {K V : Type}

/-- The constructor `HashTable(loadFactor, hashFunc, initialSize)`. -/
def new (loadFactor : Threshold) (hashFunc : K → Nat) (initialSize : Nat) : HashTable K V :=
  { hashTable := List.replicate initialSize []
    hashFunction := hashFunc
    size := 0
    listCount := initialSize
    loadFactorThreshold := loadFactor }

/-- The private member `Rehash()`. -/
def Rehash (t : HashTable K V) : HashTable K V :=
  let listCount := t.listCount * 2
  let newHashTable : List (List (K × V)) := List.replicate listCount []
  let newHashTable := t.hashTable.foldl
    (fun acc list => list.foldl
      (fun acc pair => pushFront acc (t.hashFunction pair.1 % listCount) (pair.1, pair.2)) acc)
    newHashTable
  { t with hashTable := newHashTable, listCount := listCount }

variable [DecidableEq K]

/-- The member `find(key)`: the pair the returned pointer points to, `none` for `nullptr`. -/
def find (t : HashTable K V) (key : K) : Option (K × V) :=
  let listIndex := t.hashFunction key % t.listCount
  (bucketAt t.hashTable listIndex).find? (fun pair => pair.1 = key)

/-- The member `insert(key, value)`. -/
def insert (t : HashTable K V) (key : K) (value : V) : HashTable K V :=
  let listIndex := t.hashFunction key % t.listCount
  match overwrite key value (bucketAt t.hashTable listIndex) with
  | some bucket => { t with hashTable := t.hashTable.set listIndex bucket }
  | none =>
    let t1 := { t with hashTable := pushFront t.hashTable listIndex (key, value),
                       size := t.size + 1 }
    if t1.loadFactorThreshold t1.size t1.listCount then Rehash t1 else t1

/-- The member `erase(key)`. -/
def erase (t : HashTable K V) (key : K) : HashTable K V :=
  let listIndex := t.hashFunction key % t.listCount
  match unlink key (bucketAt t.hashTable listIndex) with
  | some bucket => { t with hashTable := t.hashTable.set listIndex bucket, size := t.size - 1 }
  | none => t

/-- The member `empty()`. -/
def empty (t : HashTable K V) : Bool := t.size == 0

/-- The member `getLoadFactor()`, as an exact ratio. -/
def getLoadFactor (t : HashTable K V) : ℚ := (t.size : ℚ) / (t.listCount : ℚ)

/-- The member `contains(key)`. -/
def contains (t : HashTable K V) (key : K) : Bool :=
  if (t.find key).isSome then true else false

/-- The member `clear()`. -/
def clear (t : HashTable K V) : HashTable K V :=
  { t with hashTable := t.hashTable.map (fun _ => []), size := 0 }

/-- The address of a stored pair: the index of its bucket and its offset in the bucket. -/
structure Slot where
  listIndex : Nat
  offset : Nat
  deriving DecidableEq

/-- The offset of the first pair of a bucket whose key equals `key`. -/
def offsetOf (key : K) : List (K × V) → Option Nat
  | [] => none
  | pair :: rest => if pair.1 = key then some 0 else (offsetOf key rest).map (fun i => i + 1)

/-- The pair stored at an address. -/
def pairAt (t : HashTable K V) (s : Slot) : Option (K × V) :=
  (bucketAt t.hashTable s.listIndex)[s.offset]?

/-- The pointer returned by `find(key)`, as an address; `none` for `nullptr`. -/
def findSlot (t : HashTable K V) (key : K) : Option Slot :=
  let listIndex := t.hashFunction key % t.listCount
  (offsetOf key (bucketAt t.hashTable listIndex)).map (fun i => ⟨listIndex, i⟩)

/-- The member `operator[](key)`: the table afterwards and the address of the pair whose
`second` the returned reference denotes (`none` when `find(key)` is `nullptr`). -/
def index [Inhabited V] (t : HashTable K V) (key : K) : HashTable K V × Option Slot :=
  let listIndex := t.hashFunction key % t.listCount
  match offsetOf key (bucketAt t.hashTable listIndex) with
  | some i => (t, some ⟨listIndex, i⟩)
  | none =>
    let t1 := t.insert key default
    (t1, t1.findSlot key)

/-- An assignment `ref = value` through a reference to the `second` of the pair at `s`. -/
def assign (t : HashTable K V) (s : Slot) (value : V) : HashTable K V :=
  let bucket := (bucketAt t.hashTable s.listIndex).modify (fun pair => (pair.1, value)) s.offset
  { t with hashTable := t.hashTable.set s.listIndex bucket }

/-- The statement `table[key] = value`. -/
def indexAssign [Inhabited V] (t : HashTable K V) (key : K) (value : V) : HashTable K V :=
  match (t.index key).2 with
  | some s => (t.index key).1.assign s value
  | none => (t.index key).1

/-- The members `tableIterator` and `listIterator` of `class Iterator`. -/
structure Iterator where
  tableIterator : Nat
  listIterator : Nat
  deriving DecidableEq

/-- The member `end()`. -/
def end_ (t : HashTable K V) : Iterator :=
  let tableIterator := t.hashTable.length - 1
  ⟨tableIterator, (bucketAt t.hashTable tableIterator).length⟩

/-- The loop `while (tableIterator->empty()) ++tableIterator` of `begin()`. -/
def skipEmpty (table : List (List (K × V))) : Nat → Nat → Nat
  | 0, tableIterator => tableIterator
  | fuel + 1, tableIterator =>
    if (bucketAt table tableIterator).isEmpty then skipEmpty table fuel (tableIterator + 1)
    else tableIterator

/-- The member `begin()`. -/
def begin (t : HashTable K V) : Iterator :=
  if t.empty then t.end_
  else ⟨skipEmpty t.hashTable t.hashTable.length 0, 0⟩

/-- The loop `while (tableIterator != lastList && tableIterator->empty()) ++tableIterator`
of `operator++`. -/
def skipForward (table : List (List (K × V))) (lastList : Nat) : Nat → Nat → Nat
  | 0, tableIterator => tableIterator
  | fuel + 1, tableIterator =>
    if tableIterator ≠ lastList ∧ (bucketAt table tableIterator).isEmpty then
      skipForward table lastList fuel (tableIterator + 1)
    else tableIterator

/-- The loop `while (tableIterator != hashTable.hashTable.begin() && tableIterator->empty())
--tableIterator` of `operator--`. -/
def skipBackward (table : List (List (K × V))) : Nat → Nat
  | 0 => 0
  | tableIterator + 1 =>
    if (bucketAt table (tableIterator + 1)).isEmpty then skipBackward table tableIterator
    else tableIterator + 1

/-- The pre-increment `Iterator::operator++()`. -/
def advance (t : HashTable K V) (it : Iterator) : Iterator :=
  let lastList := t.hashTable.length - 1
  if it.listIterator + 1 ≠ (bucketAt t.hashTable it.tableIterator).length then
    ⟨it.tableIterator, it.listIterator + 1⟩
  else if it.tableIterator = lastList then
    ⟨it.tableIterator, (bucketAt t.hashTable it.tableIterator).length⟩
  else
    let tableIterator := skipForward t.hashTable lastList t.hashTable.length (it.tableIterator + 1)
    if tableIterator = lastList ∧ (bucketAt t.hashTable tableIterator).isEmpty then
      ⟨tableIterator, (bucketAt t.hashTable tableIterator).length⟩
    else ⟨tableIterator, 0⟩

/-- The pre-decrement `Iterator::operator--()`. -/
def retreat (t : HashTable K V) (it : Iterator) : Iterator :=
  if it.listIterator ≠ 0 then ⟨it.tableIterator, it.listIterator - 1⟩
  else if it.tableIterator = 0 then ⟨it.tableIterator, 0⟩
  else
    let tableIterator := skipBackward t.hashTable (it.tableIterator - 1)
    if tableIterator = 0 ∧ (bucketAt t.hashTable tableIterator).isEmpty then t.begin
    else ⟨tableIterator, (bucketAt t.hashTable tableIterator).length - 1⟩

/-- The dereference `Iterator::operator*()`. -/
def deref (t : HashTable K V) (it : Iterator) : Option (K × V) :=
  (bucketAt t.hashTable it.tableIterator)[it.listIterator]?

end HashTable

/-- The table after the calls `insert(p.first, p.second)` for the pairs `p` of `xs`, in order. -/
def insertAll {K V : Type} [DecidableEq K] (t : HashTable K V) (xs : List (K × V)) :
    HashTable K V :=
  xs.foldl (fun t p => t.insert p.1 p.2) t

/-- Whether the call `insert(key, value)` reaches its call of `Rehash()`. -/
def rehashesOnInsert {K V : Type} [DecidableEq K] (t : HashTable K V) (key : K) (value : V) :
    Bool :=
  match overwrite key value (bucketAt t.hashTable (t.hashFunction key % t.listCount)) with
  | some _ => false
  | none => t.loadFactorThreshold (t.size + 1) t.listCount

/-- The number of calls of `Rehash()` made by the calls `insert(p.first, p.second)` for the
pairs `p` of `xs`, in order. -/
def rehashCount {K V : Type} [DecidableEq K] (t : HashTable K V) : List (K × V) → Nat
  | [] => 0
  | p :: xs =>
    (if rehashesOnInsert t p.1 p.2 then 1 else 0) + rehashCount (t.insert p.1 p.2) xs

/-- The representation invariant of the table: the cached bucket count is the length of the
bucket vector and is positive, `size` counts the stored pairs, every pair is in the bucket
its key hashes to, and no key is stored twice. -/
structure WF {K V : Type} (t : HashTable K V) : Prop where
  length_eq : t.hashTable.length = t.listCount
  pos : 1 ≤ t.listCount
  size_eq : t.size = t.hashTable.flatten.length
  placed : ∀ i e, e ∈ bucketAt t.hashTable i → t.hashFunction e.1 % t.listCount = i
  nodup : (t.hashTable.flatten.map Prod.fst).Nodup

/-- The tables a caller can obtain: constructed with at least one bucket, then changed by
`insert`, `erase`, `operator[]` (read, or assigned through) and `clear`. -/
inductive Reachable {K V : Type} [DecidableEq K] [Inhabited V] : HashTable K V → Prop
  | new (loadFactor : Threshold) (hashFunc : K → Nat) (initialSize : Nat) :
      1 ≤ initialSize → Reachable (HashTable.new loadFactor hashFunc initialSize)
  | insert {t : HashTable K V} (key : K) (value : V) :
      Reachable t → Reachable (t.insert key value)
  | erase {t : HashTable K V} (key : K) : Reachable t → Reachable (t.erase key)
  | index {t : HashTable K V} (key : K) : Reachable t → Reachable (t.index key).1
  | indexAssign {t : HashTable K V} (key : K) (value : V) :
      Reachable t → Reachable (t.indexAssign key value)
  | clear {t : HashTable K V} : Reachable t → Reachable t.clear

/-- An iterator that denotes a stored pair. -/
def Dereferenceable {K V : Type} (t : HashTable K V) (it : HashTable.Iterator) : Prop :=
  it.tableIterator < t.hashTable.length ∧
    it.listIterator < (bucketAt t.hashTable it.tableIterator).length

/-- The number of stored pairs that come before an iterator in bucket order. -/
def rank {K V : Type} (t : HashTable K V) (it : HashTable.Iterator) : Nat :=
  (t.hashTable.take it.tableIterator).flatten.length + it.listIterator

/-- A call of a public member function that can change the table. -/
inductive Op (K V : Type) where
  | insert (key : K) (value : V)
  | erase (key : K)
  | index (key : K)
  | indexAssign (key : K) (value : V)
  | clear

/-- The table after one call. -/
def Op.apply {K V : Type} [DecidableEq K] [Inhabited V] (t : HashTable K V) :
    Op K V → HashTable K V
  | Op.insert key value => t.insert key value
  | Op.erase key => t.erase key
  | Op.index key => (t.index key).1
  | Op.indexAssign key value => t.indexAssign key value
  | Op.clear => t.clear

/-- The number of calls of `Rehash()` that one call makes: `insert` makes at most one,
`operator[]` makes the ones of its call of `insert` when the key is not found, and `erase`
and `clear` make none. -/
def Op.rehashes {K V : Type} [DecidableEq K] [Inhabited V] (t : HashTable K V) :
    Op K V → Nat
  | Op.insert key value => if rehashesOnInsert t key value then 1 else 0
  | Op.erase _ => 0
  | Op.index key =>
    match HashTable.offsetOf key (bucketAt t.hashTable (t.hashFunction key % t.listCount)) with
    | some _ => 0
    | none => if rehashesOnInsert t key default then 1 else 0
  | Op.indexAssign key _ =>
    match HashTable.offsetOf key (bucketAt t.hashTable (t.hashFunction key % t.listCount)) with
    | some _ => 0
    | none => if rehashesOnInsert t key default then 1 else 0
  | Op.clear => 0

/-- The table after a sequence of calls, in order. -/
def run {K V : Type} [DecidableEq K] [Inhabited V] (t : HashTable K V) (ops : List (Op K V)) :
    HashTable K V :=
  ops.foldl Op.apply t

/-- The number of calls of `Rehash()` made during a sequence of calls. -/
def rehashesDuring {K V : Type} [DecidableEq K] [Inhabited V] (t : HashTable K V) :
    List (Op K V) → Nat
  | [] => 0
  | op :: ops => Op.rehashes t op + rehashesDuring (Op.apply t op) ops

/-! # The machine representation of the counters

The definitions above keep `listCount` as a natural number and the threshold test abstract.
The definitions below keep what the source declares: `int listCount`, stored from a `size_t`
and doubled as an `int`, and `float loadFactorThreshold`, compared with the binary32 quotient
`(float)size / listCount`. A call that has undefined behaviour (a remainder by zero, an index
outside the bucket vector, a signed overflow, a null pointer) or leaves by an exception
(`std::length_error`) has no result. -/

/-- A value of the type `float` (IEEE 754 binary32), by its sign bit, its biased exponent and
its fraction bits. -/
structure Binary32 where
  sign : Bool
  exponent : Fin 256
  fraction : Fin 8388608

/-- Whether a `float` is a NaN. -/
def Binary32.isNaN (x : Binary32) : Bool := x.exponent.val == 255 && x.fraction.val != 0

/-- Whether a `float` is an infinity. -/
def Binary32.isInf (x : Binary32) : Bool := x.exponent.val == 255 && x.fraction.val == 0

/-- The number that a finite `float` stands for. -/
def Binary32.toRat (x : Binary32) : ℚ :=
  let magnitude : ℚ :=
    if x.exponent.val = 0 then (x.fraction.val : ℚ) * 2 ^ (-149 : ℤ)
    else ((8388608 + x.fraction.val : ℕ) : ℚ) * 2 ^ ((x.exponent.val : ℤ) - 150)
  if x.sign then -magnitude else magnitude

/-- The relation `q < x` between a number and a `float`: false when `x` is a NaN, and for an
infinite `x` true exactly for `+inf`. -/
def Binary32.exceeds (x : Binary32) (q : ℚ) : Prop :=
  x.isNaN = false ∧ (if x.isInf then x.sign = false else q < x.toRat)

/-- The `float` 0.8f, to which the default argument `loadFactor = 0.8` is converted. -/
def Binary32.defaultLoadFactor : Binary32 := ⟨false, 126, 5033165⟩

/-- The conversion of a nonnegative integer to `float`, `(float)n`, as the integer it yields:
`n` rounded to 24 significant bits, to nearest and ties to even. -/
def roundNat (n : Nat) : Nat :=
  if n < 16777216 then n
  else
    let shift := Nat.size n - 24
    let kept := n / 2 ^ shift
    let dropped := n % 2 ^ shift
    let half := 2 ^ (shift - 1)
    if dropped > half ∨ (dropped = half ∧ kept % 2 = 1) then (kept + 1) * 2 ^ shift
    else kept * 2 ^ shift

/-- The `float` division `a / b` of two `float`s with positive integer values, as the number
it yields: the quotient rounded to 24 significant bits, to nearest and ties to even. (For a
`size_t` over an `int` the quotient lies in the normal range of binary32.) -/
def roundDiv (a b : Nat) : ℚ :=
  let scale := Nat.size b + 24
  let quotient := a * 2 ^ scale / b
  let remainder := a * 2 ^ scale % b
  let shift := Nat.size quotient - 24
  let kept := quotient / 2 ^ shift
  let dropped := quotient % 2 ^ shift
  let half := 2 ^ (shift - 1)
  let mantissa :=
    if dropped > half ∨ (dropped = half ∧ (remainder > 0 ∨ kept % 2 = 1)) then kept + 1
    else kept
  (mantissa : ℚ) * 2 ^ ((shift : ℤ) - (scale : ℤ))

/-- The test `(float)size / listCount >= loadFactorThreshold` of `insert`, evaluated in
binary32: both operands are converted to `float`, the quotient is rounded, and the comparison
is the one of IEEE 754 (false against a NaN; a division by zero gives `+inf`, or a NaN for
`0 / 0`). -/
def loadFactorReached (loadFactorThreshold : Binary32) (size : Nat) (listCount : Int) : Bool :=
  if listCount = 0 then decide (size ≠ 0) && !loadFactorThreshold.isNaN
  else
    let magnitude := roundDiv (roundNat size) (roundNat listCount.natAbs)
    let quotient : ℚ := if listCount < 0 then -magnitude else magnitude
    if loadFactorThreshold.isNaN then false
    else if loadFactorThreshold.isInf then loadFactorThreshold.sign
    else decide (loadFactorThreshold.toRat ≤ quotient)

/-- The binary32 test as a threshold test on natural numbers. -/
def Threshold.binary32 (loadFactorThreshold : Binary32) : Threshold :=
  fun size listCount => loadFactorReached loadFactorThreshold size (listCount : Int)

/-- The conversion of a `size_t` to `int` in the constructor's `listCount(initialSize)`: the
value modulo 2^32, read as a signed 32-bit integer. -/
def narrowToInt (n : Nat) : Int :=
  if n % 4294967296 < 2147483648 then ((n % 4294967296 : Nat) : Int)
  else ((n % 4294967296 : Nat) : Int) - 4294967296

/-- The conversion of an `int` to `size_t` in `hashFunction(key) % listCount`: the value
modulo 2^64. -/
def widenToSize (i : Int) : Nat := (i % 18446744073709551616).toNat

/-- The data members of `class HashTable` with the types the source gives them. -/
structure Machine (K V : Type) where
  hashTable : List (List (K × V))
  hashFunction : K → Nat
  size : Nat
  listCount : Int
  loadFactorThreshold : Binary32

namespace Machine

variable {K V : Type}

/-- The constructor `HashTable(loadFactor, hashFunc, initialSize)`. -/
def construct (loadFactor : Binary32) (hashFunc : K → Nat) (initialSize : Nat) : Machine K V :=
  { hashTable := List.replicate initialSize []
    hashFunction := hashFunc
    size := 0
    listCount := narrowToInt initialSize
    loadFactorThreshold := loadFactor }

/-- The index `hashFunction(key) % listCount` as used in `hashTable[listIndex]`: no result
for a remainder by zero and for an index outside the bucket vector. -/
def listIndex (m : Machine K V) (key : K) : Option Nat :=
  if widenToSize m.listCount = 0 then none
  else if m.hashFunction key % widenToSize m.listCount < m.hashTable.length then
    some (m.hashFunction key % widenToSize m.listCount)
  else none

/-- The private member `Rehash()`: no result when `listCount *= 2` overflows the `int`, when
the constructor of the new vector throws for a negative count, and when a pair is to be
placed modulo zero. -/
def Rehash (m : Machine K V) : Option (Machine K V) :=
  let listCount := m.listCount * 2
  if listCount < -2147483648 ∨ 2147483647 < listCount then none
  else if listCount < 0 then none
  else if listCount = 0 ∧ m.hashTable.flatten.isEmpty = false then none
  else
    let newHashTable : List (List (K × V)) := List.replicate listCount.toNat []
    let newHashTable := m.hashTable.foldl
      (fun acc list => list.foldl
        (fun acc pair =>
          pushFront acc (m.hashFunction pair.1 % widenToSize listCount) (pair.1, pair.2)) acc)
      newHashTable
    some { m with hashTable := newHashTable, listCount := listCount }

variable [DecidableEq K]

/-- The member `find(key)`: the pair pointed to, or `none` for `nullptr`. -/
def find (m : Machine K V) (key : K) : Option (Option (K × V)) :=
  match m.listIndex key with
  | none => none
  | some listIndex => some ((bucketAt m.hashTable listIndex).find? (fun pair => pair.1 = key))

/-- The member `insert(key, value)`. -/
def insert (m : Machine K V) (key : K) (value : V) : Option (Machine K V) :=
  match m.listIndex key with
  | none => none
  | some listIndex =>
    match overwrite key value (bucketAt m.hashTable listIndex) with
    | some bucket => some { m with hashTable := m.hashTable.set listIndex bucket }
    | none =>
      let m1 := { m with hashTable := pushFront m.hashTable listIndex (key, value),
                         size := m.size + 1 }
      if loadFactorReached m1.loadFactorThreshold m1.size m1.listCount then Rehash m1
      else some m1

/-- The member `erase(key)`. -/
def erase (m : Machine K V) (key : K) : Option (Machine K V) :=
  match m.listIndex key with
  | none => none
  | some listIndex =>
    match unlink key (bucketAt m.hashTable listIndex) with
    | some bucket =>
      some { m with hashTable := m.hashTable.set listIndex bucket, size := m.size - 1 }
    | none => some m

/-- The member `clear()`. -/
def clear (m : Machine K V) : Machine K V :=
  { m with hashTable := m.hashTable.map (fun _ => []), size := 0 }

/-- The ratio `size / listCount` that the member `getLoadFactor()` returns rounded to
`float`, as an exact ratio. -/
def getLoadFactor (m : Machine K V) : ℚ := (m.size : ℚ) / (m.listCount : ℚ)

/-- The member `operator[](key)`: the table afterwards and the address of the pair whose
`second` the returned reference denotes. -/
def index [Inhabited V] (m : Machine K V) (key : K) :
    Option (Machine K V × HashTable.Slot) :=
  match m.listIndex key with
  | none => none
  | some listIndex =>
    match HashTable.offsetOf key (bucketAt m.hashTable listIndex) with
    | some i => some (m, ⟨listIndex, i⟩)
    | none =>
      match m.insert key default with
      | none => none
      | some m1 =>
        match m1.listIndex key with
        | none => none
        | some foundIndex =>
          match HashTable.offsetOf key (bucketAt m1.hashTable foundIndex) with
          | none => none
          | some i => some (m1, ⟨foundIndex, i⟩)

/-- An assignment `ref = value` through a reference to the `second` of the pair at `s`. -/
def assign (m : Machine K V) (s : HashTable.Slot) (value : V) : Machine K V :=
  let bucket := (bucketAt m.hashTable s.listIndex).modify (fun pair => (pair.1, value)) s.offset
  { m with hashTable := m.hashTable.set s.listIndex bucket }

/-- The statement `table[key] = value`. -/
def indexAssign [Inhabited V] (m : Machine K V) (key : K) (value : V) :
    Option (Machine K V) :=
  match m.index key with
  | none => none
  | some r => some (r.1.assign r.2 value)

/-- The table after one call, when the call returns. -/
def apply [Inhabited V] (m : Machine K V) : Op K V → Option (Machine K V)
  | Op.insert key value => m.insert key value
  | Op.erase key => m.erase key
  | Op.index key => (m.index key).map Prod.fst
  | Op.indexAssign key value => m.indexAssign key value
  | Op.clear => some m.clear

/-- The table after a sequence of calls, in order, when all of them return. -/
def run [Inhabited V] (m : Machine K V) : List (Op K V) → Option (Machine K V)
  | [] => some m
  | op :: ops =>
    match m.apply op with
    | none => none
    | some m1 => run m1 ops

/-- The table after the calls `insert(key, value)` for the pairs of a list, in order, when
all of them return. -/
def insertAll (m : Machine K V) : List (K × V) → Option (Machine K V)
  | [] => some m
  | pair :: pairs =>
    match m.insert pair.1 pair.2 with
    | none => none
    | some m1 => insertAll m1 pairs

end Machine

/-- The machine table whose counters have the values of a table with natural-number
counters, with the `float` threshold `loadFactorThreshold`. -/
def HashTable.toMachine {K V : Type} (loadFactorThreshold : Binary32) (t : HashTable K V) :
    Machine K V :=
  { hashTable := t.hashTable
    hashFunction := t.hashFunction
    size := t.size
    listCount := (t.listCount : Int)
    loadFactorThreshold := loadFactorThreshold }

/-! # Theorems -/

section Lemmas

open HashTable

variable {K V : Type}

/-! ## Buckets of a table -/

theorem bucketAt_of_lt (T : List (List (K × V))) {i : Nat} (h : i < T.length) :
    bucketAt T i = T[i] := by
  simp [bucketAt, List.getD_eq_getElem?_getD, List.getElem?_eq_getElem h]

theorem bucketAt_of_le (T : List (List (K × V))) {i : Nat} (h : T.length ≤ i) :
    bucketAt T i = [] := by
  simp [bucketAt, List.getD_eq_getElem?_getD, List.getElem?_eq_none h]

theorem bucketAt_set (T : List (List (K × V))) (i j : Nat) (b : List (K × V)) :
    bucketAt (T.set i b) j = if i = j ∧ i < T.length then b else bucketAt T j := by
  unfold bucketAt
  simp only [List.getD_eq_getElem?_getD, List.getElem?_set]
  by_cases hij : i = j
  · subst hij
    by_cases hi : i < T.length
    · simp [hi]
    · simp [hi, List.getElem?_eq_none (Nat.le_of_not_lt hi)]
  · simp [hij]

theorem bucketAt_replicate (n i : Nat) : bucketAt (List.replicate n ([] : List (K × V))) i = [] := by
  unfold bucketAt
  simp only [List.getD_eq_getElem?_getD, List.getElem?_replicate]
  split <;> rfl

theorem mem_flatten_iff (T : List (List (K × V))) (e : K × V) :
    e ∈ T.flatten ↔ ∃ i, e ∈ bucketAt T i := by
  rw [List.mem_flatten]
  constructor
  · rintro ⟨l, hl, he⟩
    obtain ⟨i, hi, rfl⟩ := List.getElem_of_mem hl
    exact ⟨i, by rw [bucketAt_of_lt T hi]; exact he⟩
  · rintro ⟨i, he⟩
    by_cases hi : i < T.length
    · rw [bucketAt_of_lt T hi] at he
      exact ⟨T[i], List.getElem_mem hi, he⟩
    · rw [bucketAt_of_le T (Nat.le_of_not_lt hi)] at he
      cases he

theorem flatten_split (T : List (List (K × V))) {i : Nat} (h : i < T.length) :
    T.flatten = (T.take i).flatten ++ (bucketAt T i ++ (T.drop (i + 1)).flatten) := by
  conv_lhs => rw [← List.take_append_drop i T, List.drop_eq_getElem_cons h]
  rw [List.flatten_append, List.flatten_cons, bucketAt_of_lt T h]

theorem flatten_set (T : List (List (K × V))) {i : Nat} (h : i < T.length) (b : List (K × V)) :
    (T.set i b).flatten = (T.take i).flatten ++ (b ++ (T.drop (i + 1)).flatten) := by
  rw [List.set_eq_take_append_cons_drop, if_pos h, List.flatten_append, List.flatten_cons]

theorem flatten_set_perm (T : List (List (K × V))) {i : Nat} (h : i < T.length) (b : List (K × V)) :
    ∃ rest, List.Perm T.flatten (bucketAt T i ++ rest) ∧ List.Perm (T.set i b).flatten (b ++ rest) := by
  refine ⟨(T.take i).flatten ++ (T.drop (i + 1)).flatten, ?_, ?_⟩
  · rw [flatten_split T h, ← List.append_assoc, ← List.append_assoc]
    exact List.Perm.append_right _ List.perm_append_comm
  · rw [flatten_set T h, ← List.append_assoc, ← List.append_assoc]
    exact List.Perm.append_right _ List.perm_append_comm

theorem pushFront_perm (T : List (List (K × V))) {i : Nat} (h : i < T.length) (p : K × V) :
    List.Perm (pushFront T i p).flatten (p :: T.flatten) := by
  obtain ⟨rest, h1, h2⟩ := flatten_set_perm T h (p :: bucketAt T i)
  exact h2.trans (List.Perm.cons p h1.symm)

theorem length_pushFront (T : List (List (K × V))) (i : Nat) (p : K × V) :
    (pushFront T i p).length = T.length := by
  simp [pushFront]

/-! ## Rehash -/

/-- The inner loop of `Rehash`: the pairs of one bucket are pushed into the new table. -/
theorem rehash_bucket (h : K → Nat) (n : Nat) (hn : 0 < n) (list : List (K × V)) :
    ∀ acc : List (List (K × V)), acc.length = n →
      (∀ i e, e ∈ bucketAt acc i → h e.1 % n = i) →
      (list.foldl (fun acc pair => pushFront acc (h pair.1 % n) (pair.1, pair.2)) acc).length = n ∧
      List.Perm (list.foldl (fun acc pair => pushFront acc (h pair.1 % n) (pair.1, pair.2))
        acc).flatten (list ++ acc.flatten) ∧
      (∀ i e, e ∈ bucketAt (list.foldl
        (fun acc pair => pushFront acc (h pair.1 % n) (pair.1, pair.2)) acc) i → h e.1 % n = i) := by
  induction list with
  | nil => intro acc hlen hpl; exact ⟨hlen, List.Perm.refl _, hpl⟩
  | cons p rest ih =>
    intro acc hlen hpl
    have hlt : h p.1 % n < acc.length := by rw [hlen]; exact Nat.mod_lt _ hn
    have hlen1 : (pushFront acc (h p.1 % n) (p.1, p.2)).length = n := by
      rw [length_pushFront, hlen]
    have hpl1 : ∀ i e, e ∈ bucketAt (pushFront acc (h p.1 % n) (p.1, p.2)) i → h e.1 % n = i := by
      intro i e he
      unfold pushFront at he
      rw [bucketAt_set] at he
      split at he
      · rename_i hc
        rcases List.mem_cons.1 he with h1 | h1
        · rw [h1]; exact hc.1
        · rw [← hc.1]; exact hpl _ e h1
      · exact hpl i e he
    obtain ⟨h1, h2, h3⟩ := ih _ hlen1 hpl1
    refine ⟨h1, ?_, h3⟩
    simp only [List.foldl_cons]
    refine h2.trans ?_
    have hp := pushFront_perm acc hlt (p.1, p.2)
    refine (List.Perm.append_left rest hp).trans ?_
    simp only [Prod.mk.eta, List.cons_append]
    exact List.perm_middle

/-- The outer loop of `Rehash`. -/
theorem rehash_table (h : K → Nat) (n : Nat) (hn : 0 < n) (T : List (List (K × V))) :
    ∀ acc : List (List (K × V)), acc.length = n →
      (∀ i e, e ∈ bucketAt acc i → h e.1 % n = i) →
      (T.foldl (fun acc list => list.foldl
        (fun acc pair => pushFront acc (h pair.1 % n) (pair.1, pair.2)) acc) acc).length = n ∧
      List.Perm (T.foldl (fun acc list => list.foldl
        (fun acc pair => pushFront acc (h pair.1 % n) (pair.1, pair.2)) acc) acc).flatten
        (T.flatten ++ acc.flatten) ∧
      (∀ i e, e ∈ bucketAt (T.foldl (fun acc list => list.foldl
        (fun acc pair => pushFront acc (h pair.1 % n) (pair.1, pair.2)) acc) acc) i →
          h e.1 % n = i) := by
  induction T with
  | nil => intro acc hlen hpl; exact ⟨hlen, by simp, hpl⟩
  | cons b rest ih =>
    intro acc hlen hpl
    obtain ⟨h1, h2, h3⟩ := rehash_bucket h n hn b acc hlen hpl
    obtain ⟨h4, h5, h6⟩ := ih _ h1 h3
    refine ⟨h4, ?_, h6⟩
    simp only [List.foldl_cons, List.flatten_cons]
    refine h5.trans ?_
    refine (List.Perm.append_left _ h2).trans ?_
    rw [← List.append_assoc]
    exact List.Perm.append_right _ List.perm_append_comm

theorem Rehash_listCount (t : HashTable K V) : (Rehash t).listCount = t.listCount * 2 := rfl

theorem Rehash_size (t : HashTable K V) : (Rehash t).size = t.size := rfl

theorem Rehash_hashFunction (t : HashTable K V) : (Rehash t).hashFunction = t.hashFunction := rfl

theorem Rehash_threshold (t : HashTable K V) :
    (Rehash t).loadFactorThreshold = t.loadFactorThreshold := rfl

theorem Rehash_spec (t : HashTable K V) (hpos : 1 ≤ t.listCount) :
    (Rehash t).hashTable.length = t.listCount * 2 ∧
    List.Perm (Rehash t).hashTable.flatten t.hashTable.flatten ∧
    (∀ i e, e ∈ bucketAt (Rehash t).hashTable i →
      t.hashFunction e.1 % (t.listCount * 2) = i) := by
  have hn : 0 < t.listCount * 2 := by omega
  obtain ⟨h1, h2, h3⟩ := rehash_table t.hashFunction (t.listCount * 2) hn t.hashTable
    (List.replicate (t.listCount * 2) []) (by simp)
    (by intro i e he; rw [bucketAt_replicate] at he; cases he)
  refine ⟨h1, ?_, h3⟩
  have : (List.replicate (t.listCount * 2) ([] : List (K × V))).flatten = [] :=
    List.flatten_replicate_nil
  rw [this, List.append_nil] at h2
  exact h2

theorem WF_Rehash {t : HashTable K V} (h : WF t) : WF (Rehash t) := by
  obtain ⟨h1, h2, h3⟩ := Rehash_spec t h.pos
  refine ⟨h1, ?_, ?_, h3, ?_⟩
  · rw [Rehash_listCount]; have := h.pos; omega
  · rw [Rehash_size, h.size_eq]; exact h2.length_eq.symm
  · exact ((h2.map Prod.fst).nodup_iff).2 h.nodup

theorem WF_new (loadFactor : Threshold) (hashFunc : K → Nat) {initialSize : Nat}
    (h : 1 ≤ initialSize) : WF (HashTable.new loadFactor hashFunc initialSize : HashTable K V) := by
  refine ⟨by simp [HashTable.new], h, ?_, ?_, ?_⟩
  · simp [HashTable.new, List.flatten_replicate_nil]
  · intro i e he
    simp only [HashTable.new] at he
    rw [bucketAt_replicate] at he
    cases he
  · simp [HashTable.new, List.flatten_replicate_nil]

/-! ## Well-formed tables -/

theorem eq_of_key_eq {l : List (K × V)} (hnd : (l.map Prod.fst).Nodup) {e e' : K × V}
    (he : e ∈ l) (he' : e' ∈ l) (hk : e.1 = e'.1) : e = e' :=
  List.inj_on_of_nodup_map hnd he he' hk

theorem WF.index_lt {t : HashTable K V} (h : WF t) (key : K) :
    t.hashFunction key % t.listCount < t.hashTable.length := by
  rw [h.length_eq]
  exact Nat.mod_lt _ h.pos

theorem WF.mem_bucket {t : HashTable K V} (h : WF t) {e : K × V}
    (he : e ∈ t.hashTable.flatten) :
    e ∈ bucketAt t.hashTable (t.hashFunction e.1 % t.listCount) := by
  obtain ⟨i, hi⟩ := (mem_flatten_iff _ _).1 he
  rw [h.placed i e hi]
  exact hi

/-! ## The scanning loops of the iterator -/

theorem skipForward_spec (T : List (List (K × V))) (lastList : Nat) :
    ∀ fuel a, a ≤ lastList → lastList - a ≤ fuel →
      a ≤ skipForward T lastList fuel a ∧ skipForward T lastList fuel a ≤ lastList ∧
      (∀ m, a ≤ m → m < skipForward T lastList fuel a → bucketAt T m = []) ∧
      (skipForward T lastList fuel a = lastList ∨
        bucketAt T (skipForward T lastList fuel a) ≠ []) := by
  intro fuel
  induction fuel with
  | zero =>
    intro a h1 h2
    have : a = lastList := by omega
    simp only [skipForward]
    exact ⟨le_refl _, h1, fun m h3 h4 => absurd h3 (by omega), Or.inl this⟩
  | succ fuel ih =>
    intro a h1 h2
    by_cases hc : a ≠ lastList ∧ (bucketAt T a).isEmpty
    · simp only [skipForward, if_pos hc]
      obtain ⟨h3, h4, h5, h6⟩ := ih (a + 1) (by omega) (by omega)
      refine ⟨by omega, h4, ?_, h6⟩
      intro m hm1 hm2
      by_cases hma : m = a
      · rw [hma]; exact List.isEmpty_iff.1 hc.2
      · exact h5 m (by omega) hm2
    · simp only [skipForward, if_neg hc]
      refine ⟨le_refl _, h1, fun m h3 h4 => absurd h3 (by omega), ?_⟩
      by_cases hal : a = lastList
      · exact Or.inl hal
      · right
        intro hemp
        exact hc ⟨hal, List.isEmpty_iff.2 hemp⟩

theorem skipBackward_eq (T : List (List (K × V))) (i : Nat) (hi : bucketAt T i ≠ []) :
    ∀ s, i ≤ s → (∀ m, i < m → m ≤ s → bucketAt T m = []) → skipBackward T s = i := by
  intro s
  induction s with
  | zero =>
    intro h1 _
    have : i = 0 := by omega
    simp [skipBackward, this]
  | succ s ih =>
    intro h1 h2
    by_cases his : i = s + 1
    · have hne : (bucketAt T (s + 1)).isEmpty = false := by
        rw [← his]
        cases hb : bucketAt T i with
        | nil => exact absurd hb hi
        | cons _ _ => rfl
      simp only [skipBackward, hne, Bool.false_eq_true, if_false]
      exact his.symm
    · have hemp : (bucketAt T (s + 1)).isEmpty = true :=
        List.isEmpty_iff.2 (h2 (s + 1) (by omega) (le_refl _))
      simp only [skipBackward, hemp, if_true]
      exact ih (by omega) (fun m hm1 hm2 => h2 m hm1 (by omega))

theorem skipEmpty_eq (T : List (List (K × V))) (r : Nat) (hr : bucketAt T r ≠ []) :
    ∀ fuel a, a ≤ r → r < a + fuel → (∀ m, a ≤ m → m < r → bucketAt T m = []) →
      skipEmpty T fuel a = r := by
  intro fuel
  induction fuel with
  | zero => intro a h1 h2 _; omega
  | succ fuel ih =>
    intro a h1 h2 h3
    by_cases har : a = r
    · have hne : (bucketAt T a).isEmpty = false := by
        rw [har]
        cases hb : bucketAt T r with
        | nil => exact absurd hb hr
        | cons _ _ => rfl
      simp only [skipEmpty, hne, Bool.false_eq_true, if_false]
      exact har
    · have hemp : (bucketAt T a).isEmpty = true :=
        List.isEmpty_iff.2 (h3 a (le_refl _) (by omega))
      simp only [skipEmpty, hemp, if_true]
      exact ih (a + 1) (by omega) (by omega) (fun m hm1 hm2 => h3 m (by omega) hm2)

/-! ## Counting the pairs before a bucket -/

theorem take_succ_flatten_length (T : List (List (K × V))) (i : Nat) :
    ((T.take (i + 1)).flatten).length = (T.take i).flatten.length + (bucketAt T i).length := by
  rw [List.take_succ, List.flatten_append, List.length_append]
  unfold bucketAt
  rw [List.getD_eq_getElem?_getD]
  cases T[i]? <;> simp

theorem take_flatten_length_of_empty (T : List (List (K × V))) (a : Nat) :
    ∀ b, a ≤ b → (∀ m, a ≤ m → m < b → bucketAt T m = []) →
      (T.take b).flatten.length = (T.take a).flatten.length := by
  intro b
  induction b with
  | zero => intro h1 _; have : a = 0 := by omega
            rw [this]
  | succ b ih =>
    intro h1 h2
    by_cases hab : a = b + 1
    · rw [hab]
    · rw [take_succ_flatten_length, h2 b (by omega) (by omega),
        ih (by omega) (fun m hm1 hm2 => h2 m hm1 (by omega))]
      rfl

theorem take_length_flatten (T : List (List (K × V))) :
    (T.take T.length).flatten.length = T.flatten.length := by
  rw [List.take_length]

/-! ## One step of the iterator -/

theorem not_dereferenceable_end (t : HashTable K V) : ¬ Dereferenceable t t.end_ := by
  intro h
  exact Nat.lt_irrefl _ h.2

theorem rank_lt (t : HashTable K V) (it : HashTable.Iterator) (hd : Dereferenceable t it) :
    rank t it < t.hashTable.flatten.length := by
  obtain ⟨h1, h2⟩ := hd
  have h3 := take_succ_flatten_length t.hashTable it.tableIterator
  have h4 := take_flatten_length_of_empty t.hashTable t.hashTable.length
    t.hashTable.length (le_refl _) (fun m hm1 hm2 => absurd hm1 (by omega))
  have h5 : ((t.hashTable.take (it.tableIterator + 1)).flatten).length ≤
      t.hashTable.flatten.length := by
    conv_rhs => rw [← List.take_append_drop (it.tableIterator + 1) t.hashTable]
    rw [List.flatten_append, List.length_append]
    exact Nat.le_add_right _ _
  unfold rank
  omega

theorem deref_eq (t : HashTable K V) (it : HashTable.Iterator) (hd : Dereferenceable t it) :
    t.deref it = t.hashTable.flatten[rank t it]? := by
  obtain ⟨h1, h2⟩ := hd
  unfold HashTable.deref rank
  rw [flatten_split t.hashTable h1, List.getElem?_append_right (Nat.le_add_right _ _),
    Nat.add_sub_cancel_left, List.getElem?_append_left h2]

theorem advance_step (t : HashTable K V) (hlen : 1 ≤ t.hashTable.length)
    (it : HashTable.Iterator) (hd : Dereferenceable t it) :
    (Dereferenceable t (t.advance it) ∧ rank t (t.advance it) = rank t it + 1) ∨
    (t.advance it = t.end_ ∧ rank t it + 1 = t.hashTable.flatten.length) := by
  obtain ⟨i, j⟩ := it
  obtain ⟨h1, h2⟩ := hd
  simp only at h1 h2
  have hsucc := take_succ_flatten_length t.hashTable i
  by_cases hA : j + 1 ≠ (bucketAt t.hashTable i).length
  · left
    have : t.advance ⟨i, j + 0⟩ = ⟨i, j + 1⟩ := by
      simp only [HashTable.advance, Nat.add_zero, if_pos hA]
    rw [Nat.add_zero] at this
    rw [this]
    refine ⟨⟨h1, ?_⟩, ?_⟩
    · show j + 1 < (bucketAt t.hashTable i).length
      omega
    · dsimp only [rank]
      omega
  · have hA' : j + 1 = (bucketAt t.hashTable i).length := not_not.1 hA
    by_cases hB : i = t.hashTable.length - 1
    · right
      have : t.advance ⟨i, j⟩ = ⟨i, (bucketAt t.hashTable i).length⟩ := by
        simp only [HashTable.advance, if_neg hA, if_pos hB]
      rw [this]
      refine ⟨?_, ?_⟩
      · simp only [HashTable.end_, ← hB]
      · have h3 : i + 1 = t.hashTable.length := by omega
        rw [h3, List.take_length] at hsucc
        dsimp only [rank]
        omega
    · have hi : i + 1 ≤ t.hashTable.length - 1 := by omega
      obtain ⟨s1, s2, s3, s4⟩ := skipForward_spec t.hashTable (t.hashTable.length - 1)
        t.hashTable.length (i + 1) hi (by omega)
      have hempt := take_flatten_length_of_empty t.hashTable (i + 1) _ s1 s3
      by_cases hC : skipForward t.hashTable (t.hashTable.length - 1) t.hashTable.length (i + 1)
          = t.hashTable.length - 1 ∧
          (bucketAt t.hashTable (skipForward t.hashTable (t.hashTable.length - 1)
            t.hashTable.length (i + 1))).isEmpty
      · right
        have : t.advance ⟨i, j⟩ = ⟨skipForward t.hashTable (t.hashTable.length - 1)
            t.hashTable.length (i + 1), (bucketAt t.hashTable (skipForward t.hashTable
            (t.hashTable.length - 1) t.hashTable.length (i + 1))).length⟩ := by
          simp only [HashTable.advance, if_neg hA, if_neg hB, if_pos hC]
        rw [this]
        refine ⟨?_, ?_⟩
        · simp only [HashTable.end_, hC.1]
        · have h4 := take_succ_flatten_length t.hashTable
            (skipForward t.hashTable (t.hashTable.length - 1) t.hashTable.length (i + 1))
          have h5 : skipForward t.hashTable (t.hashTable.length - 1) t.hashTable.length (i + 1)
              + 1 = t.hashTable.length := by rw [hC.1]; omega
          rw [h5, List.take_length, List.isEmpty_iff.1 hC.2, List.length_nil] at h4
          dsimp only [rank]
          omega
      · left
        have : t.advance ⟨i, j⟩ = ⟨skipForward t.hashTable (t.hashTable.length - 1)
            t.hashTable.length (i + 1), 0⟩ := by
          simp only [HashTable.advance, if_neg hA, if_neg hB, if_neg hC]
        rw [this]
        have hne : bucketAt t.hashTable (skipForward t.hashTable (t.hashTable.length - 1)
            t.hashTable.length (i + 1)) ≠ [] := by
          rcases s4 with s4 | s4
          · intro hemp
            exact hC ⟨s4, List.isEmpty_iff.2 hemp⟩
          · exact s4
        refine ⟨⟨?_, ?_⟩, ?_⟩
        · show skipForward _ _ _ _ < _
          omega
        · exact List.length_pos.2 hne
        · dsimp only [rank]
          omega

theorem begin_spec (t : HashTable K V) (hsize : t.size = t.hashTable.flatten.length) :
    (t.size = 0 → t.begin = t.end_) ∧
    (t.size ≠ 0 → Dereferenceable t t.begin ∧ rank t t.begin = 0 ∧
      (∀ m, m < t.begin.tableIterator → bucketAt t.hashTable m = [])) := by
  constructor
  · intro h0
    simp [HashTable.begin, HashTable.empty, h0]
  · intro h0
    have hex : ∃ r, bucketAt t.hashTable r ≠ [] := by
      have hpos : 0 < t.hashTable.flatten.length := by omega
      obtain ⟨e, he⟩ := List.exists_mem_of_length_pos hpos
      obtain ⟨r, hr⟩ := (mem_flatten_iff _ _).1 he
      exact ⟨r, List.ne_nil_of_mem hr⟩
    classical
    have hr := Nat.find_spec hex
    have hmin : ∀ m, m < Nat.find hex → bucketAt t.hashTable m = [] := by
      intro m hm
      exact not_not.1 (Nat.find_min hex hm)
    have hlt : Nat.find hex < t.hashTable.length := by
      by_contra hge
      exact hr (bucketAt_of_le _ (Nat.le_of_not_lt hge))
    have hskip := skipEmpty_eq t.hashTable (Nat.find hex) hr t.hashTable.length 0
      (Nat.zero_le _) (by omega) (fun m _ hm => hmin m hm)
    have hb : t.begin = ⟨Nat.find hex, 0⟩ := by
      have : t.empty = false := by simp [HashTable.empty, h0]
      simp only [HashTable.begin, this, hskip, Bool.false_eq_true, if_false]
    rw [hb]
    refine ⟨⟨hlt, List.length_pos.2 hr⟩, ?_, hmin⟩
    simp only [rank, Nat.add_zero]
    rw [take_flatten_length_of_empty t.hashTable 0 (Nat.find hex) (Nat.zero_le _)
      (fun m _ hm => hmin m hm)]
    rfl

/-! ## Traversal -/

theorem traversal_step (t : HashTable K V) (hlen : 1 ≤ t.hashTable.length)
    (hsize : t.size = t.hashTable.flatten.length) :
    ∀ k, k ≤ t.size →
      (k < t.size → Dereferenceable t ((t.advance)^[k] t.begin) ∧
        rank t ((t.advance)^[k] t.begin) = k) ∧
      (k = t.size → (t.advance)^[k] t.begin = t.end_) := by
  intro k
  induction k with
  | zero =>
    intro _
    obtain ⟨hb0, hb1⟩ := begin_spec t hsize
    refine ⟨fun h => ?_, fun h => ?_⟩
    · obtain ⟨h1, h2, _⟩ := hb1 (by omega)
      exact ⟨h1, h2⟩
    · exact hb0 h.symm
  | succ k ih =>
    intro hk
    obtain ⟨hd, hr⟩ := (ih (by omega)).1 (by omega)
    rw [Function.iterate_succ_apply']
    rcases advance_step t hlen _ hd with ⟨h1, h2⟩ | ⟨h1, h2⟩
    · refine ⟨fun _ => ⟨h1, by rw [h2, hr]⟩, fun h => ?_⟩
      have := rank_lt t _ h1
      omega
    · refine ⟨fun h => ?_, fun _ => h1⟩
      omega

theorem retreat_cross (t : HashTable K V) (i r : Nat) (hir : i < r)
    (hi : bucketAt t.hashTable i ≠ [])
    (hemp : ∀ m, i + 1 ≤ m → m < r → bucketAt t.hashTable m = []) :
    t.retreat ⟨r, 0⟩ = ⟨i, (bucketAt t.hashTable i).length - 1⟩ := by
  have hr0 : ¬ r = 0 := by omega
  have hsk : skipBackward t.hashTable (r - 1) = i :=
    skipBackward_eq t.hashTable i hi (r - 1) (by omega)
      (fun m hm1 hm2 => hemp m (by omega) (by omega))
  have hne : (bucketAt t.hashTable i).isEmpty = false := by
    cases hb : bucketAt t.hashTable i with
    | nil => exact absurd hb hi
    | cons _ _ => rfl
  simp only [HashTable.retreat, ne_eq, not_true_eq_false, if_false, hr0, hsk, hne,
    Bool.false_eq_true, and_false]

theorem retreat_advance_of_dereferenceable (t : HashTable K V) (it : HashTable.Iterator)
    (hd : Dereferenceable t it) : t.retreat (t.advance it) = it := by
  obtain ⟨i, j⟩ := it
  obtain ⟨h1, h2⟩ := hd
  simp only at h1 h2
  have hi : bucketAt t.hashTable i ≠ [] := List.length_pos.1 (by omega)
  by_cases hA : j + 1 ≠ (bucketAt t.hashTable i).length
  · have : t.advance ⟨i, j⟩ = ⟨i, j + 1⟩ := by
      simp only [HashTable.advance, if_pos hA]
    rw [this]
    simp [HashTable.retreat]
  · have hA' : j + 1 = (bucketAt t.hashTable i).length := not_not.1 hA
    by_cases hB : i = t.hashTable.length - 1
    · have : t.advance ⟨i, j⟩ = ⟨i, (bucketAt t.hashTable i).length⟩ := by
        simp only [HashTable.advance, if_neg hA, if_pos hB]
      rw [this, ← hA']
      simp [HashTable.retreat]
    · have hi1 : i + 1 ≤ t.hashTable.length - 1 := by omega
      obtain ⟨s1, s2, s3, s4⟩ := skipForward_spec t.hashTable (t.hashTable.length - 1)
        t.hashTable.length (i + 1) hi1 (by omega)
      have hgoal : t.retreat ⟨skipForward t.hashTable (t.hashTable.length - 1)
          t.hashTable.length (i + 1), 0⟩ = ⟨i, j⟩ := by
        rw [retreat_cross t i _ (by omega) hi s3]
        have : (bucketAt t.hashTable i).length - 1 = j := by omega
        rw [this]
      by_cases hC : skipForward t.hashTable (t.hashTable.length - 1) t.hashTable.length (i + 1)
          = t.hashTable.length - 1 ∧
          (bucketAt t.hashTable (skipForward t.hashTable (t.hashTable.length - 1)
            t.hashTable.length (i + 1))).isEmpty
      · have : t.advance ⟨i, j⟩ = ⟨skipForward t.hashTable (t.hashTable.length - 1)
            t.hashTable.length (i + 1), (bucketAt t.hashTable (skipForward t.hashTable
            (t.hashTable.length - 1) t.hashTable.length (i + 1))).length⟩ := by
          simp only [HashTable.advance, if_neg hA, if_neg hB, if_pos hC]
        rw [this, List.isEmpty_iff.1 hC.2, List.length_nil]
        exact hgoal
      · have : t.advance ⟨i, j⟩ = ⟨skipForward t.hashTable (t.hashTable.length - 1)
            t.hashTable.length (i + 1), 0⟩ := by
          simp only [HashTable.advance, if_neg hA, if_neg hB, if_neg hC]
        rw [this]
        exact hgoal

variable [DecidableEq K]

/-! ## The loops over one bucket -/

theorem overwrite_eq_none_iff (key : K) (value : V) (l : List (K × V)) :
    overwrite key value l = none ↔ ∀ e ∈ l, e.1 ≠ key := by
  induction l with
  | nil => simp [overwrite]
  | cons p rest ih =>
    by_cases h : p.1 = key
    · simp [overwrite, h]
    · simp [overwrite, h, ih]

theorem overwrite_keys {key : K} {value : V} {l l' : List (K × V)}
    (h : overwrite key value l = some l') : l'.map Prod.fst = l.map Prod.fst := by
  induction l generalizing l' with
  | nil => simp [overwrite] at h
  | cons p rest ih =>
    by_cases hp : p.1 = key
    · simp [overwrite, hp] at h
      subst h
      simp [hp]
    · simp only [overwrite, hp, if_false, Option.map_eq_some'] at h
      obtain ⟨r, hr, rfl⟩ := h
      simp [ih hr]

theorem overwrite_length {key : K} {value : V} {l l' : List (K × V)}
    (h : overwrite key value l = some l') : l'.length = l.length := by
  have := congrArg List.length (overwrite_keys h)
  simpa using this

theorem overwrite_mem {key : K} {value : V} {l l' : List (K × V)}
    (h : overwrite key value l = some l') (hnd : (l.map Prod.fst).Nodup) (e : K × V) :
    e ∈ l' ↔ e = (key, value) ∨ (e ∈ l ∧ e.1 ≠ key) := by
  induction l generalizing l' with
  | nil => simp [overwrite] at h
  | cons p rest ih =>
    rw [List.map_cons, List.nodup_cons] at hnd
    by_cases hp : p.1 = key
    · simp only [overwrite, hp, if_true, Option.some.injEq] at h
      subst h
      have hrest : ∀ x ∈ rest, x.1 ≠ key := by
        intro x hx hk
        exact hnd.1 (List.mem_map.2 ⟨x, hx, by rw [hk, hp]⟩)
      simp only [List.mem_cons]
      constructor
      · rintro (h1 | h1)
        · exact Or.inl h1
        · exact Or.inr ⟨Or.inr h1, hrest e h1⟩
      · rintro (h1 | ⟨h1 | h1, h2⟩)
        · exact Or.inl h1
        · exact absurd (by rw [h1, hp]) h2
        · exact Or.inr h1
    · simp only [overwrite, hp, if_false, Option.map_eq_some'] at h
      obtain ⟨r, hr, rfl⟩ := h
      simp only [List.mem_cons, ih hr hnd.2]
      constructor
      · rintro (h1 | h1 | h1)
        · exact Or.inr ⟨Or.inl h1, by rw [h1]; exact hp⟩
        · exact Or.inl h1
        · exact Or.inr ⟨Or.inr h1.1, h1.2⟩
      · rintro (h1 | ⟨h1 | h1, h2⟩)
        · exact Or.inr (Or.inl h1)
        · exact Or.inl h1
        · exact Or.inr (Or.inr ⟨h1, h2⟩)

theorem unlink_eq_none_iff (key : K) (l : List (K × V)) :
    unlink key l = none ↔ ∀ e ∈ l, e.1 ≠ key := by
  induction l with
  | nil => simp [unlink]
  | cons p rest ih =>
    by_cases h : p.1 = key
    · simp [unlink, h]
    · simp [unlink, h, ih]

theorem unlink_length {key : K} {l l' : List (K × V)} (h : unlink key l = some l') :
    l.length = l'.length + 1 := by
  induction l generalizing l' with
  | nil => simp [unlink] at h
  | cons p rest ih =>
    by_cases hp : p.1 = key
    · simp only [unlink, hp, if_true, Option.some.injEq] at h
      subst h
      simp
    · simp only [unlink, hp, if_false, Option.map_eq_some'] at h
      obtain ⟨r, hr, rfl⟩ := h
      simp [ih hr]

theorem unlink_sublist {key : K} {l l' : List (K × V)} (h : unlink key l = some l') :
    l'.Sublist l := by
  induction l generalizing l' with
  | nil => simp [unlink] at h
  | cons p rest ih =>
    by_cases hp : p.1 = key
    · simp only [unlink, hp, if_true, Option.some.injEq] at h
      subst h
      exact List.sublist_cons_self _ _
    · simp only [unlink, hp, if_false, Option.map_eq_some'] at h
      obtain ⟨r, hr, rfl⟩ := h
      exact (ih hr).cons₂ p

theorem unlink_mem {key : K} {l l' : List (K × V)}
    (h : unlink key l = some l') (hnd : (l.map Prod.fst).Nodup) (e : K × V) :
    e ∈ l' ↔ e ∈ l ∧ e.1 ≠ key := by
  induction l generalizing l' with
  | nil => simp [unlink] at h
  | cons p rest ih =>
    rw [List.map_cons, List.nodup_cons] at hnd
    by_cases hp : p.1 = key
    · simp only [unlink, hp, if_true, Option.some.injEq] at h
      subst h
      have hrest : ∀ x ∈ rest, x.1 ≠ key := by
        intro x hx hk
        exact hnd.1 (List.mem_map.2 ⟨x, hx, by rw [hk, hp]⟩)
      simp only [List.mem_cons]
      constructor
      · intro h1
        exact ⟨Or.inr h1, hrest e h1⟩
      · rintro ⟨h1 | h1, h2⟩
        · exact absurd (by rw [h1, hp]) h2
        · exact h1
    · simp only [unlink, hp, if_false, Option.map_eq_some'] at h
      obtain ⟨r, hr, rfl⟩ := h
      simp only [List.mem_cons, ih hr hnd.2]
      constructor
      · rintro (h1 | h1)
        · exact ⟨Or.inl h1, by rw [h1]; exact hp⟩
        · exact ⟨Or.inr h1.1, h1.2⟩
      · rintro ⟨h1 | h1, h2⟩
        · exact Or.inl h1
        · exact Or.inr ⟨h1, h2⟩

theorem find?_key_eq_none_iff (key : K) (l : List (K × V)) :
    l.find? (fun pair => pair.1 = key) = none ↔ ∀ e ∈ l, e.1 ≠ key := by
  simp [List.find?_eq_none]

theorem offsetOf_eq_none_iff (key : K) (l : List (K × V)) :
    HashTable.offsetOf key l = none ↔ ∀ e ∈ l, e.1 ≠ key := by
  induction l with
  | nil => simp [HashTable.offsetOf]
  | cons p rest ih =>
    by_cases h : p.1 = key
    · simp [HashTable.offsetOf, h]
    · simp [HashTable.offsetOf, h, ih]

theorem offsetOf_some {key : K} {l : List (K × V)} {i : Nat}
    (h : HashTable.offsetOf key l = some i) :
    i < l.length ∧ l[i]? = l.find? (fun pair => pair.1 = key) ∧
      ∃ v, l[i]? = some (key, v) := by
  induction l generalizing i with
  | nil => simp [HashTable.offsetOf] at h
  | cons p rest ih =>
    by_cases hp : p.1 = key
    · simp only [HashTable.offsetOf, hp, if_true, Option.some.injEq] at h
      subst h
      refine ⟨by simp, by simp [hp], p.2, ?_⟩
      simp [← hp]
    · simp only [HashTable.offsetOf, hp, if_false, Option.map_eq_some'] at h
      obtain ⟨j, hj, rfl⟩ := h
      obtain ⟨h1, h2, v, h3⟩ := ih hj
      refine ⟨by simpa using h1, ?_, v, by simpa using h3⟩
      simp [List.find?_cons, hp, h2]

/-! ## Lookup in a well-formed table -/

theorem find_eq_some_iff {t : HashTable K V} (h : WF t) (key : K) (e : K × V) :
    t.find key = some e ↔ e ∈ t.hashTable.flatten ∧ e.1 = key := by
  unfold HashTable.find
  constructor
  · intro hf
    have h1 := List.find?_some hf
    have h2 := List.mem_of_find?_eq_some hf
    exact ⟨(mem_flatten_iff _ _).2 ⟨_, h2⟩, by simpa using h1⟩
  · rintro ⟨he, hk⟩
    have hb := h.mem_bucket he
    rw [hk] at hb
    cases hf : (bucketAt t.hashTable (t.hashFunction key % t.listCount)).find?
        (fun pair => decide (pair.1 = key)) with
    | none =>
      rw [List.find?_eq_none] at hf
      exact absurd (by simpa using hk) (hf e hb)
    | some e' =>
      have h1 := List.find?_some hf
      have h2 := List.mem_of_find?_eq_some hf
      have h3 : e'.1 = key := by simpa using h1
      have : e' = e := eq_of_key_eq h.nodup ((mem_flatten_iff _ _).2 ⟨_, h2⟩) he (by rw [h3, hk])
      simp [this]

theorem find_eq_none_iff {t : HashTable K V} (h : WF t) (key : K) :
    t.find key = none ↔ ∀ e ∈ t.hashTable.flatten, e.1 ≠ key := by
  constructor
  · intro hf e he hk
    have := (find_eq_some_iff h key e).2 ⟨he, hk⟩
    rw [hf] at this
    cases this
  · intro hall
    cases hf : t.find key with
    | none => rfl
    | some e =>
      have := (find_eq_some_iff h key e).1 hf
      exact absurd this.2 (hall e this.1)

theorem find_none_iff_bucket (t : HashTable K V) (key : K) :
    t.find key = none ↔
      ∀ e ∈ bucketAt t.hashTable (t.hashFunction key % t.listCount), e.1 ≠ key := by
  unfold HashTable.find
  exact find?_key_eq_none_iff key _

/-- Two lookups agree when the stored pairs with that key agree. -/
theorem find_congr {t t' : HashTable K V} (h : WF t) (h' : WF t') (key : K)
    (hmem : ∀ e : K × V, e.1 = key → (e ∈ t'.hashTable.flatten ↔ e ∈ t.hashTable.flatten)) :
    t'.find key = t.find key := by
  apply Option.ext
  intro e
  rw [Option.mem_def, Option.mem_def, find_eq_some_iff h, find_eq_some_iff h']
  constructor
  · rintro ⟨h1, h2⟩; exact ⟨(hmem e h2).1 h1, h2⟩
  · rintro ⟨h1, h2⟩; exact ⟨(hmem e h2).2 h1, h2⟩

/-! ## insert -/

theorem insert_of_some {t : HashTable K V} {key : K} {value : V} {b : List (K × V)}
    (h : overwrite key value (bucketAt t.hashTable (t.hashFunction key % t.listCount)) = some b) :
    t.insert key value =
      { t with hashTable := t.hashTable.set (t.hashFunction key % t.listCount) b } := by
  simp only [HashTable.insert, h]

theorem insert_of_none {t : HashTable K V} {key : K} {value : V}
    (h : overwrite key value (bucketAt t.hashTable (t.hashFunction key % t.listCount)) = none) :
    t.insert key value =
      if t.loadFactorThreshold (t.size + 1) t.listCount then
        Rehash { t with hashTable := pushFront t.hashTable
                          (t.hashFunction key % t.listCount) (key, value),
                        size := t.size + 1 }
      else { t with hashTable := pushFront t.hashTable
                          (t.hashFunction key % t.listCount) (key, value),
                    size := t.size + 1 } := by
  simp only [HashTable.insert, h]

omit [DecidableEq K] in
/-- The table between `size++` and the load-factor test of `insert`, for an absent key. -/
theorem pushed_spec {t : HashTable K V} (h : WF t) {key : K} (value : V)
    (habs : ∀ e ∈ t.hashTable.flatten, e.1 ≠ key) :
    WF { t with hashTable := pushFront t.hashTable (t.hashFunction key % t.listCount) (key, value),
                size := t.size + 1 } ∧
    List.Perm (pushFront t.hashTable (t.hashFunction key % t.listCount) (key, value)).flatten
      ((key, value) :: t.hashTable.flatten) := by
  have hlt := h.index_lt key
  have hperm := pushFront_perm t.hashTable hlt (key, value)
  refine ⟨⟨?_, h.pos, ?_, ?_, ?_⟩, hperm⟩
  · simp only [length_pushFront]; exact h.length_eq
  · simp only [hperm.length_eq, List.length_cons, h.size_eq]
  · intro i e he
    simp only [pushFront, bucketAt_set] at he
    split at he
    · rename_i hc
      rcases List.mem_cons.1 he with h1 | h1
      · rw [h1]; exact hc.1
      · exact h.placed i e (hc.1 ▸ h1)
    · exact h.placed i e he
  · refine ((hperm.map Prod.fst).nodup_iff).2 ?_
    rw [List.map_cons, List.nodup_cons]
    refine ⟨?_, h.nodup⟩
    intro hmem
    obtain ⟨e, he, hk⟩ := List.mem_map.1 hmem
    exact habs e he hk

theorem insert_spec {t : HashTable K V} (h : WF t) (key : K) (value : V) :
    WF (t.insert key value) ∧
    (∀ e, e ∈ (t.insert key value).hashTable.flatten ↔
      e = (key, value) ∨ (e ∈ t.hashTable.flatten ∧ e.1 ≠ key)) ∧
    (t.insert key value).size = (if (t.find key).isSome then t.size else t.size + 1) ∧
    (t.insert key value).hashFunction = t.hashFunction ∧
    (t.insert key value).loadFactorThreshold = t.loadFactorThreshold := by
  have hlt := h.index_lt key
  cases hov : overwrite key value (bucketAt t.hashTable (t.hashFunction key % t.listCount)) with
  | some b =>
    rw [insert_of_some hov]
    obtain ⟨rest, hp1, hp2⟩ := flatten_set_perm t.hashTable hlt b
    have hkeys := overwrite_keys hov
    have hnd : ((bucketAt t.hashTable (t.hashFunction key % t.listCount) ++ rest).map
        Prod.fst).Nodup := ((hp1.map Prod.fst).nodup_iff).1 h.nodup
    have hndb : ((bucketAt t.hashTable (t.hashFunction key % t.listCount)).map Prod.fst).Nodup := by
      rw [List.map_append] at hnd
      exact (List.nodup_append.1 hnd).1
    have hex : ∃ e0 ∈ bucketAt t.hashTable (t.hashFunction key % t.listCount), e0.1 = key := by
      by_contra hne
      push_neg at hne
      rw [(overwrite_eq_none_iff key value _).2 hne] at hov
      cases hov
    obtain ⟨e0, he0, hk0⟩ := hex
    have hfind : (t.find key).isSome := by
      cases hf : t.find key with
      | some _ => rfl
      | none => exact absurd hk0 ((find_none_iff_bucket t key).1 hf e0 he0)
    refine ⟨⟨?_, h.pos, ?_, ?_, ?_⟩, ?_, ?_, rfl, rfl⟩
    · simp only [List.length_set]; exact h.length_eq
    · simp only [h.size_eq, hp1.length_eq, hp2.length_eq, List.length_append,
        overwrite_length hov]
    · intro i e he
      simp only [bucketAt_set] at he
      split at he
      · rename_i hc
        have : e.1 ∈ (bucketAt t.hashTable (t.hashFunction key % t.listCount)).map Prod.fst := by
          rw [← hkeys]; exact List.mem_map.2 ⟨e, he, rfl⟩
        obtain ⟨e', he', hk'⟩ := List.mem_map.1 this
        rw [← hk']
        exact h.placed i e' (hc.1 ▸ he')
      · exact h.placed i e he
    · refine ((hp2.map Prod.fst).nodup_iff).2 ?_
      rw [List.map_append, hkeys, ← List.map_append]
      exact hnd
    · intro e
      simp only
      rw [hp2.mem_iff, hp1.mem_iff, List.mem_append, List.mem_append, overwrite_mem hov hndb]
      have hrest : e ∈ rest → e.1 ≠ key := by
        intro her hk
        rw [List.map_append] at hnd
        have := (List.nodup_append.1 hnd).2.2
        exact this (List.mem_map.2 ⟨e0, he0, rfl⟩) (List.mem_map.2 ⟨e, her, by rw [hk, hk0]⟩)
      constructor
      · rintro ((h1 | h1) | h1)
        · exact Or.inl h1
        · exact Or.inr ⟨Or.inl h1.1, h1.2⟩
        · exact Or.inr ⟨Or.inr h1, hrest h1⟩
      · rintro (h1 | ⟨h1 | h1, h2⟩)
        · exact Or.inl (Or.inl h1)
        · exact Or.inl (Or.inr ⟨h1, h2⟩)
        · exact Or.inr h1
    · simp [hfind]
  | none =>
    have hbk := (overwrite_eq_none_iff key value _).1 hov
    have habs : ∀ e ∈ t.hashTable.flatten, e.1 ≠ key := by
      intro e he hk
      have := h.mem_bucket he
      rw [hk] at this
      exact hbk e this hk
    have hfind : t.find key = none := (find_eq_none_iff h key).2 habs
    obtain ⟨hwf, hperm⟩ := pushed_spec h value habs
    have hmem : ∀ e, e ∈ (key, value) :: t.hashTable.flatten ↔
        e = (key, value) ∨ (e ∈ t.hashTable.flatten ∧ e.1 ≠ key) := by
      intro e
      rw [List.mem_cons]
      constructor
      · rintro (h1 | h1)
        · exact Or.inl h1
        · exact Or.inr ⟨h1, habs e h1⟩
      · rintro (h1 | h1)
        · exact Or.inl h1
        · exact Or.inr h1.1
    rw [insert_of_none hov]
    split
    · refine ⟨WF_Rehash hwf, ?_, ?_, rfl, rfl⟩
      · intro e
        rw [(Rehash_spec _ hwf.pos).2.1.mem_iff, hperm.mem_iff]
        exact hmem e
      · simp [Rehash_size, hfind]
    · refine ⟨hwf, ?_, ?_, rfl, rfl⟩
      · intro e
        simp only
        rw [hperm.mem_iff]
        exact hmem e
      · simp [hfind]

/-! ## erase, clear and the index operator -/

theorem erase_of_some {t : HashTable K V} {key : K} {b : List (K × V)}
    (h : unlink key (bucketAt t.hashTable (t.hashFunction key % t.listCount)) = some b) :
    t.erase key =
      { t with hashTable := t.hashTable.set (t.hashFunction key % t.listCount) b,
               size := t.size - 1 } := by
  simp only [HashTable.erase, h]

theorem erase_of_none {t : HashTable K V} {key : K}
    (h : unlink key (bucketAt t.hashTable (t.hashFunction key % t.listCount)) = none) :
    t.erase key = t := by
  simp only [HashTable.erase, h]

theorem erase_of_find_none {t : HashTable K V} {key : K} (h : t.find key = none) :
    t.erase key = t :=
  erase_of_none ((unlink_eq_none_iff key _).2 ((find_none_iff_bucket t key).1 h))

theorem erase_listCount (t : HashTable K V) (key : K) : (t.erase key).listCount = t.listCount := by
  cases hun : unlink key (bucketAt t.hashTable (t.hashFunction key % t.listCount)) with
  | none => rw [erase_of_none hun]
  | some b => rw [erase_of_some hun]

theorem erase_length (t : HashTable K V) (key : K) :
    (t.erase key).hashTable.length = t.hashTable.length := by
  cases hun : unlink key (bucketAt t.hashTable (t.hashFunction key % t.listCount)) with
  | none => rw [erase_of_none hun]
  | some b => rw [erase_of_some hun]; simp

theorem erase_spec {t : HashTable K V} (h : WF t) (key : K) :
    WF (t.erase key) ∧
    (∀ e, e ∈ (t.erase key).hashTable.flatten ↔ e ∈ t.hashTable.flatten ∧ e.1 ≠ key) ∧
    ((t.find key).isSome → t.size = (t.erase key).size + 1) ∧
    (t.erase key).hashFunction = t.hashFunction ∧
    (t.erase key).loadFactorThreshold = t.loadFactorThreshold := by
  have hlt := h.index_lt key
  cases hun : unlink key (bucketAt t.hashTable (t.hashFunction key % t.listCount)) with
  | none =>
    rw [erase_of_none hun]
    have hbk := (unlink_eq_none_iff key _).1 hun
    have hfind : t.find key = none := (find_none_iff_bucket t key).2 hbk
    refine ⟨h, ?_, by simp [hfind], rfl, rfl⟩
    intro e
    constructor
    · intro he
      exact ⟨he, (find_eq_none_iff h key).1 hfind e he⟩
    · exact fun he => he.1
  | some b =>
    rw [erase_of_some hun]
    obtain ⟨rest, hp1, hp2⟩ := flatten_set_perm t.hashTable hlt b
    have hlen := unlink_length hun
    have hsub := unlink_sublist hun
    have hnd : ((bucketAt t.hashTable (t.hashFunction key % t.listCount) ++ rest).map
        Prod.fst).Nodup := ((hp1.map Prod.fst).nodup_iff).1 h.nodup
    have hndb : ((bucketAt t.hashTable (t.hashFunction key % t.listCount)).map Prod.fst).Nodup := by
      rw [List.map_append] at hnd
      exact (List.nodup_append.1 hnd).1
    have hex : ∃ e0 ∈ bucketAt t.hashTable (t.hashFunction key % t.listCount), e0.1 = key := by
      by_contra hne
      push_neg at hne
      rw [(unlink_eq_none_iff key _).2 hne] at hun
      cases hun
    obtain ⟨e0, he0, hk0⟩ := hex
    have hsize : t.size = (b ++ rest).length + 1 := by
      rw [h.size_eq, hp1.length_eq, List.length_append, List.length_append, hlen]
      omega
    refine ⟨⟨?_, h.pos, ?_, ?_, ?_⟩, ?_, ?_, rfl, rfl⟩
    · simp only [List.length_set]; exact h.length_eq
    · simp only [hp2.length_eq, hsize]
      omega
    · intro i e he
      simp only [bucketAt_set] at he
      split at he
      · rename_i hc
        exact h.placed i e (hc.1 ▸ hsub.subset he)
      · exact h.placed i e he
    · refine ((hp2.map Prod.fst).nodup_iff).2 ?_
      exact hnd.sublist ((hsub.append_right rest).map Prod.fst)
    · intro e
      simp only
      rw [hp2.mem_iff, hp1.mem_iff, List.mem_append, List.mem_append, unlink_mem hun hndb]
      have hrest : e ∈ rest → e.1 ≠ key := by
        intro her hk
        rw [List.map_append] at hnd
        have := (List.nodup_append.1 hnd).2.2
        exact this (List.mem_map.2 ⟨e0, he0, rfl⟩) (List.mem_map.2 ⟨e, her, by rw [hk, hk0]⟩)
      constructor
      · rintro (h1 | h1)
        · exact ⟨Or.inl h1.1, h1.2⟩
        · exact ⟨Or.inr h1, hrest h1⟩
      · rintro ⟨h1 | h1, h2⟩
        · exact Or.inl ⟨h1, h2⟩
        · exact Or.inr h1
    · intro _
      simp only [hp2.length_eq, hsize]
      omega

omit [DecidableEq K] in
theorem WF_clear {t : HashTable K V} (h : WF t) : WF t.clear := by
  have hb : ∀ i, bucketAt (t.hashTable.map (fun _ => ([] : List (K × V)))) i = [] := by
    intro i
    unfold bucketAt
    rw [List.getD_eq_getElem?_getD, List.getElem?_map]
    cases t.hashTable[i]? <;> rfl
  have hfl : (t.hashTable.map (fun _ => ([] : List (K × V)))).flatten = [] := by
    apply List.eq_nil_iff_forall_not_mem.2
    intro e he
    obtain ⟨i, hi⟩ := (mem_flatten_iff _ _).1 he
    rw [hb] at hi
    cases hi
  refine ⟨?_, h.pos, ?_, ?_, ?_⟩
  · simp only [HashTable.clear, List.length_map]; exact h.length_eq
  · simp only [HashTable.clear, hfl, List.length_nil]
  · intro i e he
    simp only [HashTable.clear, hb] at he
    cases he
  · simp only [HashTable.clear, hfl, List.map_nil, List.nodup_nil]

/-! ## The index operator and assignment through a reference -/

omit [DecidableEq K] in
theorem modify_keys (l : List (K × V)) (n : Nat) (value : V) :
    (List.modify (fun pair => (pair.1, value)) n l).map Prod.fst = l.map Prod.fst := by
  apply List.ext_getElem?
  intro m
  simp only [List.getElem?_map, List.getElem?_modify]
  cases l[m]? with
  | none => rfl
  | some p => by_cases h : n = m <;> simp [h]

omit [DecidableEq K] in
/-- Replacing a bucket by one with the same keys in the same order keeps the invariant. -/
theorem WF_set_of_keys {t : HashTable K V} (h : WF t) (i : Nat) (b : List (K × V))
    (hkeys : b.map Prod.fst = (bucketAt t.hashTable i).map Prod.fst) :
    WF { t with hashTable := t.hashTable.set i b } := by
  by_cases hlt : i < t.hashTable.length
  · obtain ⟨rest, hp1, hp2⟩ := flatten_set_perm t.hashTable hlt b
    have hlen : b.length = (bucketAt t.hashTable i).length := by
      simpa using congrArg List.length hkeys
    refine ⟨?_, h.pos, ?_, ?_, ?_⟩
    · simp only [List.length_set]; exact h.length_eq
    · simp only [h.size_eq, hp1.length_eq, hp2.length_eq, List.length_append, hlen]
    · intro j e he
      simp only [bucketAt_set] at he
      split at he
      · rename_i hc
        have : e.1 ∈ (bucketAt t.hashTable i).map Prod.fst := by
          rw [← hkeys]; exact List.mem_map.2 ⟨e, he, rfl⟩
        obtain ⟨e', he', hk'⟩ := List.mem_map.1 this
        rw [← hk']
        exact h.placed j e' (hc.1 ▸ he')
      · exact h.placed j e he
    · refine ((hp2.map Prod.fst).nodup_iff).2 ?_
      rw [List.map_append, hkeys, ← List.map_append]
      exact ((hp1.map Prod.fst).nodup_iff).1 h.nodup
  · have : t.hashTable.set i b = t.hashTable := by
      rw [List.set_eq_take_append_cons_drop, if_neg hlt]
    rw [this]
    exact h

omit [DecidableEq K] in
theorem WF_assign {t : HashTable K V} (h : WF t) (s : Slot) (value : V) :
    WF (t.assign s value) :=
  WF_set_of_keys h s.listIndex _ (modify_keys _ _ _)

theorem index_of_some [Inhabited V] {t : HashTable K V} {key : K} {i : Nat}
    (h : offsetOf key (bucketAt t.hashTable (t.hashFunction key % t.listCount)) = some i) :
    t.index key = (t, some ⟨t.hashFunction key % t.listCount, i⟩) := by
  simp only [HashTable.index, h]

theorem index_of_none [Inhabited V] {t : HashTable K V} {key : K}
    (h : offsetOf key (bucketAt t.hashTable (t.hashFunction key % t.listCount)) = none) :
    t.index key = (t.insert key default, (t.insert key default).findSlot key) := by
  simp only [HashTable.index, h]

theorem offsetOf_isSome_iff_find (t : HashTable K V) (key : K) :
    (offsetOf key (bucketAt t.hashTable (t.hashFunction key % t.listCount))).isSome =
      (t.find key).isSome := by
  cases ho : offsetOf key (bucketAt t.hashTable (t.hashFunction key % t.listCount)) with
  | none =>
    have := (find_none_iff_bucket t key).2 ((offsetOf_eq_none_iff key _).1 ho)
    simp [this]
  | some i =>
    obtain ⟨_, h2, v, h3⟩ := offsetOf_some ho
    have : t.find key = some (key, v) := by
      unfold HashTable.find
      rw [← h2, h3]
    simp [this]

theorem index_fst [Inhabited V] (t : HashTable K V) (key : K) :
    (t.index key).1 = if (t.find key).isSome then t else t.insert key default := by
  cases ho : offsetOf key (bucketAt t.hashTable (t.hashFunction key % t.listCount)) with
  | none =>
    have := offsetOf_isSome_iff_find t key
    rw [ho] at this
    rw [index_of_none ho, ← this]
    simp
  | some i =>
    have := offsetOf_isSome_iff_find t key
    rw [ho] at this
    rw [index_of_some ho, ← this]
    simp

theorem WF_index [Inhabited V] {t : HashTable K V} (h : WF t) (key : K) :
    WF (t.index key).1 := by
  rw [index_fst]
  split
  · exact h
  · exact (insert_spec h key default).1

theorem WF_indexAssign [Inhabited V] {t : HashTable K V} (h : WF t) (key : K) (value : V) :
    WF (t.indexAssign key value) := by
  unfold HashTable.indexAssign
  split
  · exact WF_assign (WF_index h key) _ _
  · exact WF_index h key

theorem Reachable.wf [Inhabited V] {t : HashTable K V} (h : Reachable t) : WF t := by
  induction h with
  | new loadFactor hashFunc initialSize hpos => exact WF_new loadFactor hashFunc hpos
  | insert key value _ ih => exact (insert_spec ih key value).1
  | erase key _ ih => exact (erase_spec ih key).1
  | index key _ ih => exact WF_index ih key
  | indexAssign key value _ ih => exact WF_indexAssign ih key value
  | clear _ ih => exact WF_clear ih

/-! ## Sequences of inserts -/

theorem find_insert {t : HashTable K V} (h : WF t) (key : K) (value : V) (k : K) :
    (t.insert key value).find k = if k = key then some (key, value) else t.find k := by
  obtain ⟨hwf, hmem, _⟩ := insert_spec h key value
  apply Option.ext
  intro e
  rw [Option.mem_def, Option.mem_def, find_eq_some_iff hwf, hmem]
  by_cases hk : k = key
  · rw [if_pos hk]
    subst hk
    constructor
    · rintro ⟨h1 | h1, h2⟩
      · rw [h1]
      · exact absurd h2 h1.2
    · intro h1
      have h2 : e = (k, value) := (Option.some.inj h1).symm
      exact ⟨Or.inl h2, by rw [h2]⟩
  · rw [if_neg hk, find_eq_some_iff h]
    constructor
    · rintro ⟨h1 | h1, h2⟩
      · rw [h1] at h2; exact absurd h2.symm hk
      · exact ⟨h1.1, h2⟩
    · rintro ⟨h1, h2⟩
      exact ⟨Or.inr ⟨h1, by rw [h2]; exact hk⟩, h2⟩

theorem find_erase {t : HashTable K V} (h : WF t) (key : K) (k : K) :
    (t.erase key).find k = if k = key then none else t.find k := by
  obtain ⟨hwf, hmem, _⟩ := erase_spec h key
  by_cases hk : k = key
  · rw [if_pos hk, find_eq_none_iff hwf]
    intro e he
    rw [hk]
    exact ((hmem e).1 he).2
  · rw [if_neg hk]
    apply find_congr h hwf
    intro e he
    rw [hmem]
    constructor
    · exact fun h1 => h1.1
    · exact fun h1 => ⟨h1, by rw [he]; exact hk⟩

theorem insertAll_cons (t : HashTable K V) (p : K × V) (xs : List (K × V)) :
    insertAll t (p :: xs) = insertAll (t.insert p.1 p.2) xs := rfl

theorem insertAll_wf {t : HashTable K V} (h : WF t) (xs : List (K × V)) :
    WF (insertAll t xs) := by
  induction xs generalizing t with
  | nil => exact h
  | cons p xs ih => exact ih (insert_spec h p.1 p.2).1

theorem find_insertAll {t : HashTable K V} (h : WF t) (xs : List (K × V)) (k : K) :
    (insertAll t xs).find k =
      ((xs.reverse.find? (fun p => p.1 = k)).or (t.find k)) := by
  induction xs generalizing t with
  | nil => simp [insertAll]
  | cons p xs ih =>
    rw [insertAll_cons, ih (insert_spec h p.1 p.2).1, find_insert h, List.reverse_cons,
      List.find?_append]
    cases hx : xs.reverse.find? (fun p => decide (p.1 = k)) with
    | some e => simp
    | none =>
      by_cases hk : k = p.1
      · simp [hk]
      · have : ¬ p.1 = k := fun h1 => hk h1.symm
        simp [hk, this]

theorem find_new (loadFactor : Threshold) (hashFunc : K → Nat) (initialSize : Nat) (k : K) :
    (HashTable.new loadFactor hashFunc initialSize : HashTable K V).find k = none := by
  simp [HashTable.find, HashTable.new, bucketAt_replicate]

theorem keys_insert {t : HashTable K V} (h : WF t) (key : K) (value : V) :
    ((t.insert key value).hashTable.flatten.map Prod.fst).toFinset =
      Insert.insert key (t.hashTable.flatten.map Prod.fst).toFinset := by
  obtain ⟨_, hmem, _⟩ := insert_spec h key value
  ext k
  simp only [List.mem_toFinset, List.mem_map, Finset.mem_insert, hmem]
  constructor
  · rintro ⟨e, h1 | h1, h2⟩
    · left; rw [← h2, h1]
    · right; exact ⟨e, h1.1, h2⟩
  · rintro (h1 | ⟨e, h1, h2⟩)
    · exact ⟨(key, value), Or.inl rfl, h1.symm⟩
    · by_cases hk : k = key
      · exact ⟨(key, value), Or.inl rfl, hk.symm⟩
      · exact ⟨e, Or.inr ⟨h1, by rw [h2]; exact hk⟩, h2⟩

theorem keys_insertAll {t : HashTable K V} (h : WF t) (xs : List (K × V)) :
    ((insertAll t xs).hashTable.flatten.map Prod.fst).toFinset =
      (t.hashTable.flatten.map Prod.fst).toFinset ∪ (xs.map Prod.fst).toFinset := by
  induction xs generalizing t with
  | nil => simp [insertAll]
  | cons p xs ih =>
    rw [insertAll_cons, ih (insert_spec h p.1 p.2).1, keys_insert h]
    ext k
    simp only [Finset.mem_union, Finset.mem_insert, List.map_cons, List.toFinset_cons]
    tauto

theorem WF.size_eq_card {t : HashTable K V} (h : WF t) :
    t.size = (t.hashTable.flatten.map Prod.fst).toFinset.card := by
  rw [List.toFinset_card_of_nodup h.nodup, List.length_map]
  exact h.size_eq

theorem size_insertAll_new (loadFactor : Threshold) (hashFunc : K → Nat) {initialSize : Nat}
    (h : 1 ≤ initialSize) (xs : List (K × V)) :
    (insertAll (HashTable.new loadFactor hashFunc initialSize) xs).size =
      (xs.map Prod.fst).toFinset.card := by
  have hwf : WF (HashTable.new loadFactor hashFunc initialSize : HashTable K V) :=
    WF_new loadFactor hashFunc h
  rw [(insertAll_wf hwf xs).size_eq_card, keys_insertAll hwf]
  simp [HashTable.new, List.flatten_replicate_nil]

/-! ## Size, bucket count and the rehash trigger of insert -/

theorem overwrite_isSome_iff_find (t : HashTable K V) (key : K) (value : V) :
    (overwrite key value (bucketAt t.hashTable (t.hashFunction key % t.listCount))).isSome =
      (t.find key).isSome := by
  cases ho : overwrite key value (bucketAt t.hashTable (t.hashFunction key % t.listCount)) with
  | none =>
    have := (find_none_iff_bucket t key).2 ((overwrite_eq_none_iff key value _).1 ho)
    simp [this]
  | some b =>
    cases hf : t.find key with
    | some _ => rfl
    | none =>
      have := (overwrite_eq_none_iff key value _).2 ((find_none_iff_bucket t key).1 hf)
      rw [this] at ho
      cases ho

theorem insert_counters (t : HashTable K V) (key : K) (value : V) :
    (t.insert key value).size = (if (t.find key).isSome then t.size else t.size + 1) ∧
    (t.insert key value).listCount =
      (if (t.find key).isSome then t.listCount
       else if t.loadFactorThreshold (t.size + 1) t.listCount then t.listCount * 2
       else t.listCount) ∧
    (t.insert key value).loadFactorThreshold = t.loadFactorThreshold ∧
    (t.insert key value).hashFunction = t.hashFunction ∧
    rehashesOnInsert t key value =
      (if (t.find key).isSome then false else t.loadFactorThreshold (t.size + 1) t.listCount) := by
  have hiff := overwrite_isSome_iff_find t key value
  cases ho : overwrite key value (bucketAt t.hashTable (t.hashFunction key % t.listCount)) with
  | some b =>
    rw [ho] at hiff
    rw [insert_of_some ho]
    simp only [rehashesOnInsert, ho, ← hiff, Option.isSome_some, if_true, and_self]
  | none =>
    rw [ho] at hiff
    rw [insert_of_none ho]
    simp only [rehashesOnInsert, ho, ← hiff, Option.isSome_none, Bool.false_eq_true, if_false]
    by_cases hthr : t.loadFactorThreshold (t.size + 1) t.listCount = true
    · simp only [hthr, if_true, Rehash_size, Rehash_listCount, Rehash_threshold,
        Rehash_hashFunction, and_self]
    · have hthr' : t.loadFactorThreshold (t.size + 1) t.listCount = false := by
        simpa using hthr
      simp only [hthr', Bool.false_eq_true, if_false, and_self]

theorem Threshold.exact_eq_true_iff (r : ℚ) (size listCount : Nat) (h : 1 ≤ listCount) :
    Threshold.exact r size listCount = true ↔ r * listCount ≤ size := by
  have hpos : (0 : ℚ) < listCount := by exact_mod_cast h
  simp only [Threshold.exact, decide_eq_true_eq]
  exact le_div_iff₀ hpos

theorem Threshold.exact_eq_false_iff (r : ℚ) (size listCount : Nat) (h : 1 ≤ listCount) :
    Threshold.exact r size listCount = false ↔ (size : ℚ) < r * listCount := by
  rw [← not_le, ← Threshold.exact_eq_true_iff r size listCount h]
  simp

/-! ## Counting rehashes -/

theorem insertAll_append (t : HashTable K V) (xs ys : List (K × V)) :
    insertAll t (xs ++ ys) = insertAll (insertAll t xs) ys := by
  simp only [insertAll, List.foldl_append]

theorem rehashCount_append (xs ys : List (K × V)) :
    ∀ t : HashTable K V,
      rehashCount t (xs ++ ys) = rehashCount t xs + rehashCount (insertAll t xs) ys := by
  induction xs with
  | nil => intro t; simp [rehashCount, insertAll]
  | cons p xs ih =>
    intro t
    rw [List.cons_append]
    simp only [rehashCount, insertAll_cons]
    rw [ih]
    omega

/-- Fresh keys inserted while the threshold test stays false: no rehash happens. -/
theorem insertAll_no_rehash (xs : List (K × V)) :
    ∀ t : HashTable K V, WF t → (xs.map Prod.fst).Nodup → (∀ p ∈ xs, t.find p.1 = none) →
      (∀ j, j < xs.length → t.loadFactorThreshold (t.size + j + 1) t.listCount = false) →
      (insertAll t xs).listCount = t.listCount ∧
      (insertAll t xs).size = t.size + xs.length ∧
      (insertAll t xs).loadFactorThreshold = t.loadFactorThreshold ∧
      rehashCount t xs = 0 := by
  induction xs with
  | nil => intro t _ _ _ _; simp [insertAll, rehashCount]
  | cons p xs ih =>
    intro t hwf hnd habs hthr
    rw [List.map_cons, List.nodup_cons] at hnd
    obtain ⟨c1, c2, c3, _, c5⟩ := insert_counters t p.1 p.2
    have hf : t.find p.1 = none := habs p (List.mem_cons_self _ _)
    have h0 := hthr 0 (by simp)
    rw [Nat.add_zero] at h0
    simp only [hf, Option.isSome_none, Bool.false_eq_true, if_false, h0] at c1 c2 c5
    have hwf1 := (insert_spec hwf p.1 p.2).1
    obtain ⟨i1, i2, i3, i4⟩ := ih (t.insert p.1 p.2) hwf1 hnd.2
      (by
        intro q hq
        rw [find_insert hwf]
        have hne : q.1 ≠ p.1 := by
          intro he
          exact hnd.1 (he ▸ List.mem_map.2 ⟨q, hq, rfl⟩)
        rw [if_neg hne]
        exact habs q (List.mem_cons_of_mem _ hq))
      (by
        intro j hj
        rw [c1, c2, c3]
        have := hthr (j + 1) (by simpa using hj)
        rw [← this]
        congr 1
        omega)
    rw [insertAll_cons, i1, i2, i3, c1, c2, c3]
    refine ⟨rfl, by simp only [List.length_cons]; omega, rfl, ?_⟩
    simp only [rehashCount, c5, i4, Bool.false_eq_true, if_false]

theorem Threshold.exact_four_fifths (size listCount : Nat) (h : 1 ≤ listCount) :
    Threshold.exact (4 / 5) size listCount = decide (4 * listCount ≤ 5 * size) := by
  have hiff : Threshold.exact (4 / 5) size listCount = true ↔ 4 * listCount ≤ 5 * size := by
    rw [Threshold.exact_eq_true_iff _ _ _ h]
    constructor
    · intro h1
      have h2 : (4 : ℚ) * listCount ≤ 5 * size := by linarith
      exact_mod_cast h2
    · intro h1
      have h2 : (4 : ℚ) * listCount ≤ 5 * size := by exact_mod_cast h1
      linarith
  cases hx : Threshold.exact (4 / 5) size listCount with
  | true => exact (decide_eq_true (hiff.1 hx)).symm
  | false =>
    symm
    apply decide_eq_false
    intro h1
    rw [hiff.2 h1] at hx
    cases hx

/-! ## Lookups after a sequence of inserts on the new table -/

theorem find_insertAll_new_none (loadFactor : Threshold) (hashFunc : K → Nat)
    {initialSize : Nat} (hsize : 1 ≤ initialSize) (xs : List (K × V)) (k : K)
    (hall : ∀ p ∈ xs, p.1 ≠ k) :
    (insertAll (HashTable.new loadFactor hashFunc initialSize) xs).find k = none := by
  rw [find_insertAll (WF_new loadFactor hashFunc hsize), find_new]
  have : xs.reverse.find? (fun p => decide (p.1 = k)) = none := by
    rw [List.find?_eq_none]
    intro p hp
    simpa using hall p (List.mem_reverse.1 hp)
  simp [this]

theorem find_insertAll_new_some (loadFactor : Threshold) (hashFunc : K → Nat)
    {initialSize : Nat} (hsize : 1 ≤ initialSize) (pre post : List (K × V)) (k : K) (v : V)
    (hpost : ∀ p ∈ post, p.1 ≠ k) :
    (insertAll (HashTable.new loadFactor hashFunc initialSize) (pre ++ (k, v) :: post)).find k =
      some (k, v) := by
  rw [find_insertAll (WF_new loadFactor hashFunc hsize), List.reverse_append, List.reverse_cons,
    List.find?_append, List.find?_append]
  have : post.reverse.find? (fun p => decide (p.1 = k)) = none := by
    rw [List.find?_eq_none]
    intro p hp
    simpa using hpost p (List.mem_reverse.1 hp)
  simp [this]

theorem nine_inserts_counters (hashFunc : K → Nat) (l7 : List (K × V)) (a b : K × V)
    (hlen : l7.length = 7) (hnd : ((l7 ++ [a, b]).map Prod.fst).Nodup) :
    rehashCount (HashTable.new (Threshold.exact (4 / 5)) hashFunc 10) (l7 ++ [a, b]) = 1 ∧
    (insertAll (HashTable.new (Threshold.exact (4 / 5)) hashFunc 10) (l7 ++ [a, b])).listCount
      = 20 := by
  have hwf0 : WF (HashTable.new (Threshold.exact (4 / 5)) hashFunc 10 : HashTable K V) :=
    WF_new _ _ (by decide)
  rw [List.map_append, List.nodup_append] at hnd
  obtain ⟨hnd7, hndab, hdisj⟩ := hnd
  have ha7 : ∀ p ∈ l7, p.1 ≠ a.1 := by
    intro p hp he
    exact hdisj (List.mem_map.2 ⟨p, hp, he⟩) (by simp)
  have hb7 : ∀ p ∈ l7, p.1 ≠ b.1 := by
    intro p hp he
    exact hdisj (List.mem_map.2 ⟨p, hp, he⟩) (by simp)
  have hab : b.1 ≠ a.1 := by
    intro he
    simp [he] at hndab
  -- the first seven inserts
  obtain ⟨s1, s2, s3, s4⟩ := insertAll_no_rehash l7
    (HashTable.new (Threshold.exact (4 / 5)) hashFunc 10) hwf0 hnd7
    (fun p _ => find_new _ _ _ _)
    (by
      intro j hj
      show Threshold.exact (4 / 5) (0 + j + 1) 10 = false
      rw [Threshold.exact_four_fifths _ _ (by decide)]
      apply decide_eq_false
      omega)
  have hl0 : (HashTable.new (Threshold.exact (4 / 5)) hashFunc 10 : HashTable K V).listCount =
      10 := rfl
  have hs0 : (HashTable.new (Threshold.exact (4 / 5)) hashFunc 10 : HashTable K V).size =
      0 := rfl
  have ht0 : (HashTable.new (Threshold.exact (4 / 5)) hashFunc 10 :
      HashTable K V).loadFactorThreshold = Threshold.exact (4 / 5) := rfl
  rw [hl0] at s1
  rw [hs0, hlen] at s2
  rw [ht0] at s3
  have hwf7 := insertAll_wf hwf0 l7
  -- the eighth insert
  have hfa : (insertAll (HashTable.new (Threshold.exact (4 / 5)) hashFunc 10) l7).find a.1 =
      none := find_insertAll_new_none _ _ (by decide) l7 a.1 ha7
  obtain ⟨a1, a2, a3, _, a5⟩ := insert_counters
    (insertAll (HashTable.new (Threshold.exact (4 / 5)) hashFunc 10) l7) a.1 a.2
  have h8 : Threshold.exact (4 / 5) 8 10 = true := by
    rw [Threshold.exact_four_fifths _ _ (by decide)]; rfl
  simp only [hfa, s1, s2, s3, h8, Option.isSome_none, Bool.false_eq_true, if_false,
    if_true] at a1 a2 a3 a5
  -- the ninth insert
  have hfb : ((insertAll (HashTable.new (Threshold.exact (4 / 5)) hashFunc 10) l7).insert
      a.1 a.2).find b.1 = none := by
    rw [find_insert hwf7, if_neg hab]
    exact find_insertAll_new_none _ _ (by decide) l7 b.1 hb7
  obtain ⟨b1, b2, _, _, b5⟩ := insert_counters
    ((insertAll (HashTable.new (Threshold.exact (4 / 5)) hashFunc 10) l7).insert a.1 a.2)
    b.1 b.2
  have h9 : Threshold.exact (4 / 5) 9 20 = false := by
    rw [Threshold.exact_four_fifths _ _ (by decide)]; rfl
  simp only [hfb, a1, a2, a3, h9, Option.isSome_none, Bool.false_eq_true, if_false]
    at b1 b2 b5
  constructor
  · rw [rehashCount_append, s4]
    simp only [rehashCount, a5, b5, if_true, Bool.false_eq_true, if_false]
  · rw [insertAll_append]
    exact b2

/-! ## The overwrite branch of insert, pair by pair -/

section Calls

variable [Inhabited V]

theorem run_cons (t : HashTable K V) (op : Op K V) (ops : List (Op K V)) :
    run t (op :: ops) = run (Op.apply t op) ops := rfl

theorem run_append (t : HashTable K V) (ops ops' : List (Op K V)) :
    run t (ops ++ ops') = run (run t ops) ops' := by
  simp only [run, List.foldl_append]

theorem Reachable.apply {t : HashTable K V} (h : Reachable t) (op : Op K V) :
    Reachable (Op.apply t op) := by
  cases op with
  | insert key value => exact Reachable.insert key value h
  | erase key => exact Reachable.erase key h
  | index key => exact Reachable.index key h
  | indexAssign key value => exact Reachable.indexAssign key value h
  | clear => exact Reachable.clear h

theorem Reachable.run {t : HashTable K V} (h : Reachable t) (ops : List (Op K V)) :
    Reachable (run t ops) := by
  induction ops generalizing t with
  | nil => exact h
  | cons op ops ih => exact ih (h.apply op)

theorem reachable_iff_run (t : HashTable K V) :
    Reachable t ↔ ∃ (loadFactor : Threshold) (hashFunc : K → Nat) (initialSize : Nat)
      (ops : List (Op K V)), 1 ≤ initialSize ∧
        t = run (HashTable.new loadFactor hashFunc initialSize) ops := by
  constructor
  · intro h
    induction h with
    | new loadFactor hashFunc initialSize hpos =>
      exact ⟨loadFactor, hashFunc, initialSize, [], hpos, rfl⟩
    | insert key value _ ih =>
      obtain ⟨lf, hf, n, ops, hn, rfl⟩ := ih
      exact ⟨lf, hf, n, ops ++ [Op.insert key value], hn, by rw [run_append]; rfl⟩
    | erase key _ ih =>
      obtain ⟨lf, hf, n, ops, hn, rfl⟩ := ih
      exact ⟨lf, hf, n, ops ++ [Op.erase key], hn, by rw [run_append]; rfl⟩
    | index key _ ih =>
      obtain ⟨lf, hf, n, ops, hn, rfl⟩ := ih
      exact ⟨lf, hf, n, ops ++ [Op.index key], hn, by rw [run_append]; rfl⟩
    | indexAssign key value _ ih =>
      obtain ⟨lf, hf, n, ops, hn, rfl⟩ := ih
      exact ⟨lf, hf, n, ops ++ [Op.indexAssign key value], hn, by rw [run_append]; rfl⟩
    | clear _ ih =>
      obtain ⟨lf, hf, n, ops, hn, rfl⟩ := ih
      exact ⟨lf, hf, n, ops ++ [Op.clear], hn, by rw [run_append]; rfl⟩
  · rintro ⟨lf, hf, n, ops, hn, rfl⟩
    exact (Reachable.new lf hf n hn).run ops

omit [Inhabited V] in
theorem erase_counters (t : HashTable K V) (key : K) :
    (t.erase key).size ≤ t.size ∧
    (t.erase key).loadFactorThreshold = t.loadFactorThreshold ∧
    (t.erase key).hashFunction = t.hashFunction := by
  cases hun : unlink key (bucketAt t.hashTable (t.hashFunction key % t.listCount)) with
  | none => rw [erase_of_none hun]; exact ⟨le_refl _, rfl, rfl⟩
  | some b => rw [erase_of_some hun]; exact ⟨Nat.sub_le _ _, rfl, rfl⟩

theorem indexAssign_counters (t : HashTable K V) (key : K) (value : V) :
    (t.indexAssign key value).size = (t.index key).1.size ∧
    (t.indexAssign key value).listCount = (t.index key).1.listCount ∧
    (t.indexAssign key value).loadFactorThreshold = (t.index key).1.loadFactorThreshold ∧
    (t.indexAssign key value).hashFunction = (t.index key).1.hashFunction := by
  unfold HashTable.indexAssign
  split <;> exact ⟨rfl, rfl, rfl, rfl⟩

theorem index_rehashes (t : HashTable K V) (key : K) :
    (match HashTable.offsetOf key (bucketAt t.hashTable (t.hashFunction key % t.listCount)) with
      | some _ => 0
      | none => if rehashesOnInsert t key (default : V) then 1 else 0) =
    if (t.find key).isSome then 0
    else if t.loadFactorThreshold (t.size + 1) t.listCount then 1 else 0 := by
  have hiff := offsetOf_isSome_iff_find t key
  have c5 := (insert_counters t key (default : V)).2.2.2.2
  cases ho : HashTable.offsetOf key (bucketAt t.hashTable (t.hashFunction key % t.listCount)) with
  | some i =>
    rw [ho] at hiff
    simp [← hiff]
  | none =>
    rw [ho] at hiff
    simp only [← hiff, Option.isSome_none, Bool.false_eq_true, if_false] at c5 ⊢
    rw [c5]

/-- Every call multiplies the bucket count by two to the number of its rehashes, keeps the
threshold test and the hash function, and grows `size` by at most one. -/
theorem apply_counters (t : HashTable K V) (op : Op K V) :
    (Op.apply t op).listCount = t.listCount * 2 ^ Op.rehashes t op ∧
    Op.rehashes t op ≤ 1 ∧
    (Op.apply t op).loadFactorThreshold = t.loadFactorThreshold ∧
    (Op.apply t op).hashFunction = t.hashFunction ∧
    ((Op.apply t op).size ≤ t.size ∧ Op.rehashes t op = 0 ∨
     (Op.apply t op).size = t.size + 1 ∧
       Op.rehashes t op = (if t.loadFactorThreshold (t.size + 1) t.listCount then 1 else 0)) := by
  have hins : ∀ (key : K) (value : V),
      (t.insert key value).listCount =
        t.listCount * 2 ^ (if rehashesOnInsert t key value then 1 else 0) ∧
      (if rehashesOnInsert t key value then 1 else 0) ≤ 1 ∧
      (t.insert key value).loadFactorThreshold = t.loadFactorThreshold ∧
      (t.insert key value).hashFunction = t.hashFunction ∧
      ((t.insert key value).size ≤ t.size ∧
          (if rehashesOnInsert t key value then 1 else 0) = 0 ∨
       (t.insert key value).size = t.size + 1 ∧
         (if rehashesOnInsert t key value then 1 else 0) =
           (if t.loadFactorThreshold (t.size + 1) t.listCount then 1 else 0)) := by
    intro key value
    obtain ⟨c1, c2, c3, c4, c5⟩ := insert_counters t key value
    refine ⟨?_, by split <;> omega, c3, c4, ?_⟩
    · rw [c2, c5]
      by_cases hf : (t.find key).isSome = true
      · simp [hf]
      · by_cases hthr : t.loadFactorThreshold (t.size + 1) t.listCount = true
        · simp [hf, hthr]
        · simp [hf, hthr]
    · rw [c1, c5]
      by_cases hf : (t.find key).isSome = true
      · left; simp [hf]
      · right; simp [hf]
  cases op with
  | insert key value => exact hins key value
  | erase key =>
    obtain ⟨e1, e2, e3⟩ := erase_counters t key
    exact ⟨by simp [Op.apply, Op.rehashes, erase_listCount], by simp [Op.rehashes], e2, e3,
      Or.inl ⟨e1, rfl⟩⟩
  | clear =>
    exact ⟨by simp [Op.apply, Op.rehashes, HashTable.clear], by simp [Op.rehashes], rfl, rfl,
      Or.inl ⟨Nat.zero_le _, rfl⟩⟩
  | index key =>
    have hr : Op.rehashes t (Op.index key) = if (t.find key).isSome then 0
        else if t.loadFactorThreshold (t.size + 1) t.listCount then 1 else 0 :=
      index_rehashes t key
    have ha : Op.apply t (Op.index key) =
        if (t.find key).isSome then t else t.insert key default := index_fst t key
    obtain ⟨i1, i2, i3, i4, i5⟩ := hins key (default : V)
    have c5 := (insert_counters t key (default : V)).2.2.2.2
    rw [hr, ha]
    by_cases hf : (t.find key).isSome = true
    · simp [hf]
    · simp only [hf, Bool.false_eq_true, if_false] at c5 ⊢
      rw [c5] at i1 i2 i5
      refine ⟨i1, i2, i3, i4, ?_⟩
      rcases i5 with i5 | i5
      · exact Or.inl i5
      · exact Or.inr ⟨i5.1, trivial⟩
  | indexAssign key value =>
    have hr : Op.rehashes t (Op.indexAssign key value) = if (t.find key).isSome then 0
        else if t.loadFactorThreshold (t.size + 1) t.listCount then 1 else 0 :=
      index_rehashes t key
    obtain ⟨a1, a2, a3, a4⟩ := indexAssign_counters t key value
    have ha : (t.index key).1 = if (t.find key).isSome then t else t.insert key default :=
      index_fst t key
    obtain ⟨i1, i2, i3, i4, i5⟩ := hins key (default : V)
    have c5 := (insert_counters t key (default : V)).2.2.2.2
    show (t.indexAssign key value).listCount = _ ∧ _ ∧
      (t.indexAssign key value).loadFactorThreshold = _ ∧
      (t.indexAssign key value).hashFunction = _ ∧
      ((t.indexAssign key value).size ≤ _ ∧ _ ∨ (t.indexAssign key value).size = _ ∧ _)
    rw [hr, a1, a2, a3, a4, ha]
    by_cases hf : (t.find key).isSome = true
    · simp [hf]
    · simp only [hf, Bool.false_eq_true, if_false] at c5 ⊢
      rw [c5] at i1 i2 i5
      refine ⟨i1, i2, i3, i4, ?_⟩
      rcases i5 with i5 | i5
      · exact Or.inl i5
      · exact Or.inr ⟨i5.1, trivial⟩

end Calls

/-! ## Begin, end and the backward direction -/

omit [DecidableEq K] in
theorem skipBackward_zero (T : List (List (K × V))) :
    ∀ s, (∀ m, m ≤ s → bucketAt T m = []) → skipBackward T s = 0 := by
  intro s
  induction s with
  | zero => intro _; rfl
  | succ s ih =>
    intro h
    have hemp : (bucketAt T (s + 1)).isEmpty = true := List.isEmpty_iff.2 (h (s + 1) (le_refl _))
    simp only [skipBackward, hemp, if_true]
    exact ih (fun m hm => h m (by omega))

omit [DecidableEq K] in
theorem begin_shape (t : HashTable K V) (hsize : t.size = t.hashTable.flatten.length)
    (hne : t.size ≠ 0) :
    t.begin.listIterator = 0 ∧ t.begin.tableIterator < t.hashTable.length ∧
    bucketAt t.hashTable t.begin.tableIterator ≠ [] ∧
    (∀ m, m < t.begin.tableIterator → bucketAt t.hashTable m = []) ∧
    t.begin ≠ t.end_ := by
  obtain ⟨hd, hr, hmin⟩ := (begin_spec t hsize).2 hne
  refine ⟨?_, hd.1, List.length_pos.1 (Nat.lt_of_le_of_lt (Nat.zero_le _) hd.2), hmin, ?_⟩
  · unfold rank at hr
    omega
  · intro he
    rw [he] at hd
    exact not_dereferenceable_end t hd

omit [DecidableEq K] in
theorem retreat_begin (t : HashTable K V) (hsize : t.size = t.hashTable.flatten.length)
    (hne : t.size ≠ 0) : t.retreat t.begin = t.begin := by
  obtain ⟨h0, _, hb, hmin, _⟩ := begin_shape t hsize hne
  have hshape : t.begin = ⟨t.begin.tableIterator, 0⟩ := by
    cases hbeg : t.begin with
    | mk i j =>
      rw [hbeg] at h0
      simp only at h0
      rw [h0]
  by_cases hz : t.begin.tableIterator = 0
  · conv_lhs => rw [hshape]
    simp only [HashTable.retreat, ne_eq, not_true_eq_false, if_false, hz, if_true]
    conv_rhs => rw [hshape, hz]
  · have hsk : skipBackward t.hashTable (t.begin.tableIterator - 1) = 0 :=
      skipBackward_zero t.hashTable _ (fun m hm => hmin m (by omega))
    have h0e : (bucketAt t.hashTable 0).isEmpty = true :=
      List.isEmpty_iff.2 (hmin 0 (by omega))
    conv_lhs => rw [hshape]
    simp only [HashTable.retreat, ne_eq, not_true_eq_false, if_false, hz, hsk, h0e, and_self,
      if_true]

omit [DecidableEq K] in
theorem retreat_iterate (t : HashTable K V) (hlen : 1 ≤ t.hashTable.length)
    (hsize : t.size = t.hashTable.flatten.length) :
    ∀ k, k ≤ t.size → (t.retreat)^[k] t.end_ = (t.advance)^[t.size - k] t.begin := by
  intro k
  induction k with
  | zero =>
    intro _
    exact ((traversal_step t hlen hsize t.size (le_refl _)).2 rfl).symm
  | succ k ih =>
    intro hk
    rw [Function.iterate_succ_apply', ih (by omega)]
    have h1 : t.size - k = (t.size - (k + 1)) + 1 := by omega
    rw [h1, Function.iterate_succ_apply']
    exact retreat_advance_of_dereferenceable t _
      ((traversal_step t hlen hsize (t.size - (k + 1)) (by omega)).1 (by omega)).1

/-! ## Rounding to binary32 -/

theorem size_eq_of_bounds {n k : Nat} (h1 : 2 ^ k ≤ n) (h2 : n < 2 ^ (k + 1)) :
    Nat.size n = k + 1 := by
  apply le_antisymm
  · exact Nat.size_le.2 h2
  · exact Nat.lt_size.2 h1

theorem pow_size_pred_le {n : Nat} (h : 0 < n) : 2 ^ (Nat.size n - 1) ≤ n := by
  have hs : 0 < Nat.size n := Nat.size_pos.2 h
  exact Nat.lt_size.1 (by omega)

theorem roundNat_of_lt {n : Nat} (h : n < 16777216) : roundNat n = n := by
  simp only [roundNat, if_pos h]

/-- An integer of 25 or more bits converts to `float` without change when its dropped low
bits are all zero. -/
theorem roundNat_of_dvd {n : Nat} (h : 16777216 ≤ n) (hd : 2 ^ (Nat.size n - 24) ∣ n) :
    roundNat n = n := by
  have hlt : ¬ n < 16777216 := by omega
  have hmod : n % 2 ^ (Nat.size n - 24) = 0 := Nat.mod_eq_zero_of_dvd hd
  have hsz : 24 < Nat.size n := Nat.lt_size.2 (by simpa using h)
  have hhalf : 0 < 2 ^ (Nat.size n - 24 - 1) := Nat.pos_pow_of_pos _ (by decide)
  simp only [roundNat, if_neg hlt, hmod]
  have hc : ¬ (0 > 2 ^ (Nat.size n - 24 - 1) ∨
      (0 = 2 ^ (Nat.size n - 24 - 1) ∧ n / 2 ^ (Nat.size n - 24) % 2 = 1)) := by
    rintro (h1 | h1)
    · omega
    · omega
  rw [if_neg hc]
  exact Nat.div_mul_cancel hd

theorem dvd_of_roundNat_eq {n : Nat} (h : 16777216 ≤ n) (hr : roundNat n = n) :
    2 ^ (Nat.size n - 24) ∣ n := by
  have hlt : ¬ n < 16777216 := by omega
  have hpos : 0 < 2 ^ (Nat.size n - 24) := Nat.pos_pow_of_pos _ (by decide)
  have hdm := Nat.div_add_mod n (2 ^ (Nat.size n - 24))
  have hml := Nat.mod_lt n hpos
  simp only [roundNat, if_neg hlt] at hr
  split at hr
  · exfalso
    rw [Nat.add_mul, Nat.one_mul, Nat.mul_comm] at hr
    omega
  · exact ⟨n / 2 ^ (Nat.size n - 24), by rw [Nat.mul_comm] at hr; exact hr.symm⟩

theorem roundNat_le_pow (n : Nat) (h : n ≤ 16777216) : roundNat n = n := by
  rcases Nat.lt_or_ge n 16777216 with h1 | h1
  · exact roundNat_of_lt h1
  · have : n = 16777216 := by omega
    subst this
    apply roundNat_of_dvd (le_refl _)
    have hs : Nat.size 16777216 = 25 := size_eq_of_bounds (k := 24) (by norm_num) (by norm_num)
    rw [hs]
    norm_num

/-- Doubling keeps an integer exactly convertible to `float`. -/
theorem roundNat_double {n : Nat} (hr : roundNat n = n) : roundNat (n * 2) = n * 2 := by
  rcases Nat.lt_or_ge (n * 2) 16777216 with h1 | h1
  · exact roundNat_of_lt h1
  · apply roundNat_of_dvd h1
    rcases Nat.lt_or_ge n 16777216 with h2 | h2
    · have hs : Nat.size (n * 2) = 25 :=
        size_eq_of_bounds (k := 24) (by norm_num; omega) (by norm_num; omega)
      rw [hs]
      exact ⟨n, by norm_num; omega⟩
    · have hd := dvd_of_roundNat_eq h2 hr
      have hn : 0 < n := by omega
      have hs : Nat.size (n * 2) = Nat.size n + 1 := by
        have h24 : 24 < Nat.size n := Nat.lt_size.2 (by simpa using h2)
        have hlow := pow_size_pred_le hn
        have hup := Nat.lt_size_self n
        have e1 : Nat.size n - 1 + 1 = Nat.size n := by omega
        apply size_eq_of_bounds
        · have : 2 ^ Nat.size n = 2 ^ (Nat.size n - 1) * 2 := by
            rw [← pow_succ, e1]
          omega
        · rw [pow_succ]
          omega
      have h24 : 24 < Nat.size n := Nat.lt_size.2 (by simpa using h2)
      have e2 : Nat.size n + 1 - 24 = (Nat.size n - 24) + 1 := by omega
      rw [hs, e2, pow_succ]
      exact Nat.mul_dvd_mul hd (dvd_refl 2)

/-! ## The rounded quotient -/

theorem roundDiv_nonneg (a b : Nat) : 0 ≤ roundDiv a b := by
  unfold roundDiv
  positivity

/-- The rounded quotient is at least the quotient chopped to 24 significant bits. -/
theorem roundDiv_ge_kept (a b : Nat) :
    ((a * 2 ^ (Nat.size b + 24) / b / 2 ^ (Nat.size (a * 2 ^ (Nat.size b + 24) / b) - 24) : ℕ) : ℚ)
      * 2 ^ (((Nat.size (a * 2 ^ (Nat.size b + 24) / b) - 24 : ℕ) : ℤ) - ((Nat.size b + 24 : ℕ) : ℤ))
      ≤ roundDiv a b := by
  unfold roundDiv
  simp only
  apply mul_le_mul_of_nonneg_right _ (by positivity)
  split
  · push_cast
    linarith
  · exact le_refl _

/-- Rounding the quotient never goes below a binary32 number that the exact quotient has
reached: if `M * 2 ^ X`, with `M` of at most 24 bits, is at most `a / b`, it is at most the
rounded quotient. -/
theorem le_roundDiv {a b M : Nat} {X : ℤ} (hb : 1 ≤ b) (hM : M < 2 ^ 24)
    (h : (M : ℚ) * 2 ^ X ≤ (a : ℚ) / (b : ℚ)) : (M : ℚ) * 2 ^ X ≤ roundDiv a b := by
  rcases Nat.eq_zero_or_pos a with ha | ha
  · subst ha
    have : (M : ℚ) * 2 ^ X ≤ 0 := by simpa using h
    exact le_trans this (roundDiv_nonneg 0 b)
  refine le_trans ?_ (roundDiv_ge_kept a b)
  generalize hc : Nat.size b + 24 = c
  generalize hQ : a * 2 ^ c / b = Q
  generalize hsh : Nat.size Q - 24 = sh
  have hbpos : (0 : ℚ) < b := by exact_mod_cast hb
  have h2c : (0 : ℚ) < 2 ^ c := by positivity
  have h2sh : (0 : ℚ) < 2 ^ sh := by positivity
  -- the integer quotient has at least 25 bits
  have hb2 : b < 2 ^ Nat.size b := Nat.lt_size_self b
  have hQ24 : 2 ^ 24 ≤ Q := by
    rw [← hQ, Nat.le_div_iff_mul_le (by omega), ← hc, pow_add]
    calc 2 ^ 24 * b ≤ 2 ^ 24 * 2 ^ Nat.size b := Nat.mul_le_mul_left _ (le_of_lt hb2)
      _ = 1 * (2 ^ Nat.size b * 2 ^ 24) := by ring
      _ ≤ a * (2 ^ Nat.size b * 2 ^ 24) := Nat.mul_le_mul_right _ ha
  have hQpos : 0 < Q := lt_of_lt_of_le (by norm_num) hQ24
  have hsz : 24 < Nat.size Q := Nat.lt_size.2 hQ24
  have hlow : 2 ^ (sh + 23) ≤ Q := by
    have := pow_size_pred_le hQpos
    have e : Nat.size Q - 1 = sh + 23 := by omega
    rwa [e] at this
  have hup : Q < 2 ^ (sh + 24) := by
    have := Nat.lt_size_self Q
    have e : Nat.size Q = sh + 24 := by omega
    rwa [e] at this
  have hkept : 2 ^ 23 ≤ Q / 2 ^ sh := by
    rw [Nat.le_div_iff_mul_le (Nat.pos_pow_of_pos _ (by decide)), ← pow_add, Nat.add_comm]
    exact hlow
  -- the bound on the scaled quotient
  have hN : (M : ℚ) * 2 ^ X * 2 ^ c * b ≤ ((a * 2 ^ c : ℕ) : ℚ) := by
    have h1 := (le_div_iff₀ hbpos).1 h
    push_cast
    nlinarith
  have hexp : (2 : ℚ) ^ (((sh : ℕ) : ℤ) - ((c : ℕ) : ℤ)) = 2 ^ sh / 2 ^ c := by
    rw [zpow_sub₀ (by norm_num), zpow_natCast, zpow_natCast]
  rw [hexp, ← mul_div_assoc, le_div_iff₀ h2c]
  by_cases hcase : (M : ℚ) * 2 ^ X * 2 ^ c ≤ 2 ^ (sh + 23)
  · refine le_trans hcase ?_
    have : ((2 ^ 23 : ℕ) : ℚ) ≤ ((Q / 2 ^ sh : ℕ) : ℚ) := by exact_mod_cast hkept
    rw [pow_add, mul_comm]
    push_cast at this
    exact mul_le_mul_of_nonneg_right this (le_of_lt h2sh)
  · have hgt : (2 : ℚ) ^ (sh + 23) < (M : ℚ) * 2 ^ X * 2 ^ c := not_le.1 hcase
    have hXc : (M : ℚ) * 2 ^ X * 2 ^ c = (M : ℚ) * 2 ^ (X + (c : ℤ)) := by
      rw [zpow_add₀ (by norm_num), zpow_natCast, mul_assoc]
    have hMlt : (M : ℚ) < 2 ^ (24 : ℕ) := by exact_mod_cast hM
    have hpowpos : (0 : ℚ) < 2 ^ (X + (c : ℤ)) := zpow_pos (by norm_num) _
    have hXge : ((sh : ℕ) : ℤ) ≤ X + (c : ℤ) := by
      by_contra hlt
      have hle : X + (c : ℤ) ≤ (sh : ℤ) - 1 := by omega
      have h1 : (2 : ℚ) ^ (X + (c : ℤ)) ≤ 2 ^ ((sh : ℤ) - 1) :=
        zpow_le_zpow_right₀ (by norm_num) hle
      have h2 : (M : ℚ) * 2 ^ (X + (c : ℤ)) < 2 ^ (24 : ℕ) * 2 ^ ((sh : ℤ) - 1) := by
        calc (M : ℚ) * 2 ^ (X + (c : ℤ)) ≤ (M : ℚ) * 2 ^ ((sh : ℤ) - 1) :=
              mul_le_mul_of_nonneg_left h1 (Nat.cast_nonneg M)
          _ < 2 ^ (24 : ℕ) * 2 ^ ((sh : ℤ) - 1) :=
              mul_lt_mul_of_pos_right hMlt (zpow_pos (by norm_num) _)
      have h3 : (2 : ℚ) ^ (24 : ℕ) * 2 ^ ((sh : ℤ) - 1) = 2 ^ (sh + 23) := by
        rw [← zpow_natCast (2 : ℚ) 24, ← zpow_add₀ (by norm_num), ← zpow_natCast (2 : ℚ) (sh + 23)]
        congr 1
        push_cast
        ring
      rw [hXc] at hgt
      rw [h3] at h2
      exact absurd hgt (not_lt.2 (le_of_lt h2))
    obtain ⟨d, hd⟩ : ∃ d : ℕ, X + (c : ℤ) = (sh : ℤ) + (d : ℤ) :=
      ⟨(X + (c : ℤ) - (sh : ℤ)).toNat, by rw [Int.toNat_of_nonneg (by omega)]; ring⟩
    have hZ : (M : ℚ) * 2 ^ X * 2 ^ c = ((M * 2 ^ d * 2 ^ sh : ℕ) : ℚ) := by
      rw [hXc, hd, zpow_add₀ (by norm_num), zpow_natCast, zpow_natCast]
      push_cast
      ring
    have hnat : M * 2 ^ d * 2 ^ sh * b ≤ a * 2 ^ c := by
      have : ((M * 2 ^ d * 2 ^ sh * b : ℕ) : ℚ) ≤ ((a * 2 ^ c : ℕ) : ℚ) := by
        rw [Nat.cast_mul (M * 2 ^ d * 2 ^ sh) b, ← hZ]
        exact hN
      exact_mod_cast this
    have hZQ : M * 2 ^ d * 2 ^ sh ≤ Q := by
      rw [← hQ]
      exact (Nat.le_div_iff_mul_le (by omega)).2 hnat
    have hZk : M * 2 ^ d ≤ Q / 2 ^ sh :=
      (Nat.le_div_iff_mul_le (Nat.pos_pow_of_pos _ (by decide))).2 hZQ
    rw [hZ]
    have : ((M * 2 ^ d : ℕ) : ℚ) ≤ ((Q / 2 ^ sh : ℕ) : ℚ) := by exact_mod_cast hZk
    push_cast at this ⊢
    exact mul_le_mul_of_nonneg_right this (le_of_lt h2sh)

/-! ## The binary32 test and the exact ratio -/

/-- A finite `float` that is not negative is a 24-bit integer times a power of two. -/
theorem Binary32.toRat_eq (x : Binary32) (hs : x.sign = false) :
    ∃ (M : Nat) (X : ℤ), M < 2 ^ 24 ∧ x.toRat = (M : ℚ) * 2 ^ X := by
  have hf : x.fraction.val < 8388608 := x.fraction.isLt
  by_cases he : x.exponent.val = 0
  · refine ⟨x.fraction.val, -149, by omega, ?_⟩
    simp only [Binary32.toRat, hs, he, if_true, Bool.false_eq_true, if_false]
  · refine ⟨8388608 + x.fraction.val, (x.exponent.val : ℤ) - 150, by omega, ?_⟩
    simp only [Binary32.toRat, hs, he, if_false, Bool.false_eq_true]

theorem Binary32.toRat_nonpos (x : Binary32) (hs : x.sign = true) : x.toRat ≤ 0 := by
  simp only [Binary32.toRat, hs, if_true]
  rw [neg_nonpos]
  split <;> positivity

/-- A finite threshold that the exact ratio has reached is reached by the rounded quotient. -/
theorem Binary32.toRat_le_roundDiv (x : Binary32) {a b : Nat} (hb : 1 ≤ b)
    (h : x.toRat ≤ (a : ℚ) / (b : ℚ)) : x.toRat ≤ roundDiv a b := by
  cases hs : x.sign with
  | true => exact le_trans (x.toRat_nonpos hs) (roundDiv_nonneg a b)
  | false =>
    obtain ⟨M, X, hM, hx⟩ := x.toRat_eq hs
    rw [hx] at h ⊢
    exact HashTableModel.le_roundDiv hb hM h

/-- When both operands convert to `float` without change and the threshold is not a NaN, a
test that fails shows that the exact ratio is below the threshold. -/
theorem exceeds_of_not_reached (thr : Binary32) {size listCount : Nat} (hl : 1 ≤ listCount)
    (hsize : roundNat size = size) (hcount : roundNat listCount = listCount)
    (hnan : thr.isNaN = false)
    (h : loadFactorReached thr size (listCount : Int) = false) :
    thr.exceeds ((size : ℚ) / (listCount : ℚ)) := by
  have hne : ¬ ((listCount : Int) = 0) := by omega
  have hnn : ¬ ((listCount : Int) < 0) := by omega
  simp only [loadFactorReached, if_neg hne, Int.natAbs_ofNat, hsize, hcount, if_neg hnn, hnan,
    Bool.false_eq_true, if_false] at h
  refine ⟨hnan, ?_⟩
  by_cases hinf : thr.isInf = true
  · rw [if_pos hinf] at h ⊢
    exact h
  · rw [if_neg hinf] at h ⊢
    have hlt : ¬ thr.toRat ≤ roundDiv size listCount := by simpa using h
    by_contra hcon
    exact hlt (thr.toRat_le_roundDiv hl (not_lt.1 hcon))

theorem Threshold.binary32_apply (thr : Binary32) (size listCount : Nat) :
    Threshold.binary32 thr size listCount = loadFactorReached thr size (listCount : Int) := rfl

/-- One step of the load-factor argument on exact ratios: with `s / n < r` and
`1 / (2 n) < r`, one more pair and a doubled count stay below `r`. -/
theorem ratio_after_doubling {r : ℚ} {s n : Nat} (hn : 1 ≤ n)
    (hhalf : 1 / (2 * (n : ℚ)) < r) (hs : (s : ℚ) / (n : ℚ) < r) :
    ((s + 1 : ℕ) : ℚ) / ((n * 2 : ℕ) : ℚ) < r := by
  have hpos : (0 : ℚ) < n := by exact_mod_cast hn
  have h1 : 1 < r * (2 * (n : ℚ)) := (div_lt_iff₀ (by positivity)).1 hhalf
  have h2 : (s : ℚ) < r * n := (div_lt_iff₀ hpos).1 hs
  rw [div_lt_iff₀ (by push_cast; positivity)]
  push_cast
  rcases Nat.eq_zero_or_pos s with h0 | h0
  · subst h0
    push_cast
    linarith
  · have : (1 : ℚ) ≤ s := by exact_mod_cast h0
    linarith

theorem half_after_doubling {r : ℚ} {n : Nat} (hn : 1 ≤ n)
    (hhalf : 1 / (2 * (n : ℚ)) < r) : 1 / (2 * ((n * 2 : ℕ) : ℚ)) < r := by
  have hpos : (0 : ℚ) < n := by exact_mod_cast hn
  have h1 : 1 < r * (2 * (n : ℚ)) := (div_lt_iff₀ (by positivity)).1 hhalf
  have hr : 0 < r := by
    by_contra hneg
    have : r * (2 * (n : ℚ)) ≤ 0 := mul_nonpos_of_nonpos_of_nonneg (not_lt.1 hneg) (by positivity)
    linarith
  rw [div_lt_iff₀ (by push_cast; positivity)]
  push_cast
  nlinarith

/-! ## The load factor under the binary32 test -/

theorem Binary32.exceeds_of_le {x : Binary32} {q q' : ℚ} (h : x.exceeds q) (hle : q' ≤ q) :
    x.exceeds q' := by
  refine ⟨h.1, ?_⟩
  have h2 := h.2
  split at h2
  · rw [if_pos (by assumption)]; exact h2
  · rw [if_neg (by assumption)]; exact lt_of_le_of_lt hle h2

theorem Binary32.exceeds_of_forall {x : Binary32} {q1 q2 q3 : ℚ}
    (hall : ∀ r : ℚ, q1 < r → q2 < r → q3 < r) (h1 : x.exceeds q1) (h2 : x.exceeds q2) :
    x.exceeds q3 := by
  refine ⟨h1.1, ?_⟩
  have a1 := h1.2
  have a2 := h2.2
  split at a1
  · rw [if_pos (by assumption)]; exact a1
  · rename_i hinf
    rw [if_neg hinf] at a2 ⊢
    exact hall _ a1 a2

section Calls

variable [Inhabited V]

theorem run_take_succ (t : HashTable K V) (op : Op K V) (ops : List (Op K V)) (k : Nat) :
    run t ((op :: ops).take (k + 1)) = run (Op.apply t op) (ops.take k) := rfl

/-- Under the binary32 test the load factor, as an exact ratio, stays below the threshold
through every sequence of calls, as long as the bucket count converts to `float` without
change, the threshold is above `1 / (2 * listCount)`, and no size above `2 ^ 24` is reached. -/
theorem run_exceeds (thr : Binary32) (ops : List (Op K V)) :
    ∀ t : HashTable K V, t.loadFactorThreshold = Threshold.binary32 thr →
      1 ≤ t.listCount → roundNat t.listCount = t.listCount →
      thr.exceeds (1 / (2 * (t.listCount : ℚ))) →
      thr.exceeds ((t.size : ℚ) / (t.listCount : ℚ)) →
      (∀ k, (run t (ops.take k)).size ≤ 2 ^ 24) →
      thr.exceeds (((run t ops).size : ℚ) / ((run t ops).listCount : ℚ)) := by
  induction ops with
  | nil => intro t _ _ _ _ h5 _; exact h5
  | cons op ops ih =>
    intro t h1 h2 h3 h4 h5 h6
    obtain ⟨c1, _, c3, _, c5⟩ := apply_counters t op
    have hsz : (Op.apply t op).size ≤ 2 ^ 24 := h6 1
    have hrest : ∀ k, (run (Op.apply t op) (ops.take k)).size ≤ 2 ^ 24 := fun k => h6 (k + 1)
    rw [run_cons]
    rcases c5 with ⟨hs, hk⟩ | ⟨hs, hk⟩
    · rw [hk, pow_zero, Nat.mul_one] at c1
      apply ih _ (by rw [c3]; exact h1) (by rw [c1]; exact h2) (by rw [c1]; exact h3)
        (by rw [c1]; exact h4) _ hrest
      rw [c1]
      refine Binary32.exceeds_of_le h5 ?_
      have hpos : (0 : ℚ) < t.listCount := by exact_mod_cast h2
      have hle : ((Op.apply t op).size : ℚ) ≤ t.size := by exact_mod_cast hs
      exact div_le_div_of_nonneg_right hle (le_of_lt hpos)
    · by_cases hthr : t.loadFactorThreshold (t.size + 1) t.listCount = true
      · rw [hk, if_pos hthr, pow_one] at c1
        apply ih _ (by rw [c3]; exact h1) (by rw [c1]; omega)
          (by rw [c1]; exact roundNat_double h3) _ _ hrest
        · rw [c1]
          exact Binary32.exceeds_of_forall
            (fun r a1 _ => half_after_doubling h2 a1) h4 h5
        · rw [c1, hs]
          exact Binary32.exceeds_of_forall
            (fun r a1 a2 => ratio_after_doubling h2 a1 a2) h4 h5
      · rw [hk, if_neg hthr, pow_zero, Nat.mul_one] at c1
        apply ih _ (by rw [c3]; exact h1) (by rw [c1]; exact h2) (by rw [c1]; exact h3)
          (by rw [c1]; exact h4) _ hrest
        rw [c1, hs]
        have hf : loadFactorReached thr (t.size + 1) (t.listCount : Int) = false := by
          rw [h1, Threshold.binary32_apply] at hthr
          simpa using hthr
        rw [hs] at hsz
        exact exceeds_of_not_reached thr h2 (roundNat_le_pow _ hsz) h3 h4.1 hf

end Calls

/-! ## The machine counters within the range of int -/

theorem widenToSize_natCast {n : Nat} (h : n ≤ 2147483647) : widenToSize (n : Int) = n := by
  unfold widenToSize
  have h1 : ((n : Int)) % 18446744073709551616 = (n : Int) :=
    Int.emod_eq_of_lt (by omega) (by omega)
  rw [h1, Int.toNat_natCast]

theorem narrowToInt_of_le {n : Nat} (h : n ≤ 2147483647) : narrowToInt n = (n : Int) := by
  unfold narrowToInt
  have h1 : n % 4294967296 = n := Nat.mod_eq_of_lt (by omega)
  rw [h1, if_pos (by omega)]

omit [DecidableEq K] in
theorem construct_eq_toMachine (thr : Binary32) (hashFunc : K → Nat) {initialSize : Nat}
    (h : initialSize ≤ 2147483647) :
    (Machine.construct thr hashFunc initialSize : Machine K V) =
      (HashTable.new (Threshold.binary32 thr) hashFunc initialSize).toMachine thr := by
  simp only [Machine.construct, HashTable.toMachine, HashTable.new, narrowToInt_of_le h]

omit [DecidableEq K] in
theorem listIndex_toMachine (thr : Binary32) {t : HashTable K V} (hwf : WF t)
    (hmax : t.listCount ≤ 2147483647) (key : K) :
    (t.toMachine thr).listIndex key = some (t.hashFunction key % t.listCount) := by
  have hpos := hwf.pos
  have hlt := hwf.index_lt key
  simp only [Machine.listIndex, HashTable.toMachine, widenToSize_natCast hmax]
  rw [if_neg (by omega), if_pos hlt]

omit [DecidableEq K] in
theorem Rehash_toMachine (thr : Binary32) (t : HashTable K V) (hpos : 1 ≤ t.listCount) :
    (t.toMachine thr).Rehash =
      if t.listCount * 2 ≤ 2147483647 then some ((Rehash t).toMachine thr) else none := by
  by_cases hmax : t.listCount * 2 ≤ 2147483647
  · rw [if_pos hmax]
    have h1 : ¬ (((t.listCount : Int)) * 2 < -2147483648 ∨ 2147483647 < ((t.listCount : Int)) * 2) := by
      omega
    have h2 : ¬ (((t.listCount : Int)) * 2 < 0) := by omega
    have h3 : ¬ (((t.listCount : Int)) * 2 = 0 ∧ t.hashTable.flatten.isEmpty = false) := by
      omega
    have h4 : (((t.listCount : Int)) * 2).toNat = t.listCount * 2 := by omega
    have h5 : widenToSize (((t.listCount : Int)) * 2) = t.listCount * 2 := by
      have : ((t.listCount : Int)) * 2 = ((t.listCount * 2 : Nat) : Int) := by push_cast; ring
      rw [this, widenToSize_natCast hmax]
    simp only [Machine.Rehash, HashTable.toMachine, if_neg h1, if_neg h2, if_neg h3, h4, h5,
      HashTable.Rehash, Nat.cast_mul, Nat.cast_ofNat]
  · rw [if_neg hmax]
    have h1 : (((t.listCount : Int)) * 2 < -2147483648 ∨ 2147483647 < ((t.listCount : Int)) * 2) := by
      omega
    simp only [Machine.Rehash, HashTable.toMachine, if_pos h1]

theorem insert_toMachine (thr : Binary32) {t : HashTable K V} (hwf : WF t)
    (hthr : t.loadFactorThreshold = Threshold.binary32 thr) (hmax : t.listCount ≤ 2147483647)
    (key : K) (value : V) :
    (t.toMachine thr).insert key value =
      if (t.insert key value).listCount ≤ 2147483647 then
        some ((t.insert key value).toMachine thr)
      else none := by
  have hidx := listIndex_toMachine thr hwf hmax key
  cases hov : overwrite key value (bucketAt t.hashTable (t.hashFunction key % t.listCount)) with
  | some b =>
    rw [insert_of_some hov]
    simp only [Machine.insert, hidx]
    simp only [HashTable.toMachine, hov]
    rw [if_pos hmax]
  | none =>
    rw [insert_of_none hov]
    simp only [Machine.insert, hidx]
    simp only [HashTable.toMachine, hov]
    have htest : loadFactorReached thr (t.size + 1) (t.listCount : Int) =
        t.loadFactorThreshold (t.size + 1) t.listCount := by
      rw [hthr, Threshold.binary32_apply]
    rw [htest]
    by_cases hb : t.loadFactorThreshold (t.size + 1) t.listCount = true
    · rw [if_pos hb, if_pos hb]
      have := Rehash_toMachine thr
        ({ t with hashTable := pushFront t.hashTable (t.hashFunction key % t.listCount)
                    (key, value),
                  size := t.size + 1 } : HashTable K V) hwf.pos
      simp only [HashTable.toMachine] at this
      rw [this, Rehash_listCount]
    · rw [if_neg hb, if_neg hb, if_pos hmax]

theorem erase_toMachine (thr : Binary32) {t : HashTable K V} (hwf : WF t)
    (hmax : t.listCount ≤ 2147483647) (key : K) :
    (t.toMachine thr).erase key = some ((t.erase key).toMachine thr) := by
  have hidx := listIndex_toMachine thr hwf hmax key
  cases hun : unlink key (bucketAt t.hashTable (t.hashFunction key % t.listCount)) with
  | some b =>
    rw [erase_of_some hun]
    simp only [Machine.erase, hidx]
    simp only [HashTable.toMachine, hun]
  | none =>
    rw [erase_of_none hun]
    simp only [Machine.erase, hidx]
    simp only [HashTable.toMachine, hun]

omit [DecidableEq K] in
theorem clear_toMachine (thr : Binary32) (t : HashTable K V) :
    (t.toMachine thr).clear = (t.clear).toMachine thr := rfl

omit [DecidableEq K] in
theorem assign_toMachine (thr : Binary32) (t : HashTable K V) (s : HashTable.Slot) (value : V) :
    (t.toMachine thr).assign s value = (t.assign s value).toMachine thr := rfl

/-! ## Calls on the machine representation -/

section Calls

variable [Inhabited V]

theorem index_snd_isSome {t : HashTable K V} (hwf : WF t) (key : K) :
    ∃ s, (t.index key).2 = some s := by
  cases ho : HashTable.offsetOf key (bucketAt t.hashTable (t.hashFunction key % t.listCount)) with
  | some i => rw [index_of_some ho]; exact ⟨_, rfl⟩
  | none =>
    rw [index_of_none ho]
    have hfind : (t.insert key default).find key = some (key, default) := by
      rw [find_insert hwf, if_pos rfl]
    have hiff := offsetOf_isSome_iff_find (t.insert key default) key
    rw [hfind] at hiff
    obtain ⟨j, hj⟩ := Option.isSome_iff_exists.1 hiff
    simp only [HashTable.findSlot, hj, Option.map_some']
    exact ⟨_, rfl⟩

theorem index_toMachine (thr : Binary32) {t : HashTable K V} (hwf : WF t)
    (hthr : t.loadFactorThreshold = Threshold.binary32 thr) (hmax : t.listCount ≤ 2147483647)
    (key : K) :
    (t.toMachine thr).index key =
      if (t.index key).1.listCount ≤ 2147483647 then
        (t.index key).2.map (fun s => ((t.index key).1.toMachine thr, s))
      else none := by
  have hidx := listIndex_toMachine thr hwf hmax key
  cases ho : HashTable.offsetOf key (bucketAt t.hashTable (t.hashFunction key % t.listCount)) with
  | some i =>
    rw [index_of_some ho]
    simp only [Machine.index, hidx]
    have : HashTable.offsetOf key (bucketAt (t.toMachine thr).hashTable
        (t.hashFunction key % t.listCount)) = some i := ho
    simp only [this]
    rw [if_pos hmax]
    rfl
  | none =>
    rw [index_of_none ho]
    simp only [Machine.index, hidx]
    have : HashTable.offsetOf key (bucketAt (t.toMachine thr).hashTable
        (t.hashFunction key % t.listCount)) = none := ho
    simp only [this, insert_toMachine thr hwf hthr hmax]
    by_cases hm1 : (t.insert key default).listCount ≤ 2147483647
    · rw [if_pos hm1]
      simp only [if_pos hm1]
      have hwf1 := (insert_spec hwf key (default : V)).1
      simp only [listIndex_toMachine thr hwf1 hm1 key]
      simp only [HashTable.findSlot]
      have hc : (insert_spec hwf key (default : V)).1 = hwf1 := rfl
      cases ho1 : HashTable.offsetOf key (bucketAt (t.insert key default).hashTable
          ((t.insert key default).hashFunction key % (t.insert key default).listCount)) with
      | none =>
        have : HashTable.offsetOf key (bucketAt ((t.insert key default).toMachine thr).hashTable
          ((t.insert key default).hashFunction key % (t.insert key default).listCount)) = none :=
          ho1
        simp only [this, Option.map_none']
      | some j =>
        have : HashTable.offsetOf key (bucketAt ((t.insert key default).toMachine thr).hashTable
          ((t.insert key default).hashFunction key % (t.insert key default).listCount)) =
            some j := ho1
        simp only [this, Option.map_some']
    · rw [if_neg hm1]
      simp only [if_neg hm1]

theorem WF_apply {t : HashTable K V} (hwf : WF t) (op : Op K V) : WF (Op.apply t op) := by
  cases op with
  | insert key value => exact (insert_spec hwf key value).1
  | erase key => exact (erase_spec hwf key).1
  | index key => exact WF_index hwf key
  | indexAssign key value => exact WF_indexAssign hwf key value
  | clear => exact WF_clear hwf

theorem WF_run {t : HashTable K V} (hwf : WF t) (ops : List (Op K V)) : WF (run t ops) := by
  induction ops generalizing t with
  | nil => exact hwf
  | cons op ops ih => exact ih (WF_apply hwf op)

/-- One call on the machine representation, within the range of `int`: it returns exactly
when the bucket count afterwards still fits in an `int`, and then its result has the
counters of the result on natural numbers. -/
theorem apply_toMachine (thr : Binary32) {t : HashTable K V} (hwf : WF t)
    (hthr : t.loadFactorThreshold = Threshold.binary32 thr) (hmax : t.listCount ≤ 2147483647)
    (op : Op K V) :
    (t.toMachine thr).apply op =
      if (Op.apply t op).listCount ≤ 2147483647 then some ((Op.apply t op).toMachine thr)
      else none := by
  cases op with
  | insert key value => exact insert_toMachine thr hwf hthr hmax key value
  | erase key =>
    show (t.toMachine thr).erase key = _
    rw [erase_toMachine thr hwf hmax, if_pos]
    · rfl
    · show (t.erase key).listCount ≤ _
      rw [erase_listCount]; exact hmax
  | clear =>
    show some (t.toMachine thr).clear =
      if (t.clear).listCount ≤ 2147483647 then some ((t.clear).toMachine thr) else none
    rw [if_pos (show (t.clear).listCount ≤ 2147483647 from hmax)]
    rfl
  | index key =>
    show ((t.toMachine thr).index key).map Prod.fst = _
    rw [index_toMachine thr hwf hthr hmax]
    obtain ⟨s, hs⟩ := index_snd_isSome hwf key
    show _ = if (t.index key).1.listCount ≤ 2147483647 then
      some ((t.index key).1.toMachine thr) else none
    split
    · rw [hs]; rfl
    · rfl
  | indexAssign key value =>
    show (t.toMachine thr).indexAssign key value = _
    obtain ⟨s, hs⟩ := index_snd_isSome hwf key
    have hia : t.indexAssign key value = (t.index key).1.assign s value := by
      simp only [HashTable.indexAssign, hs]
    show _ = if (t.indexAssign key value).listCount ≤ 2147483647 then
      some ((t.indexAssign key value).toMachine thr) else none
    rw [hia]
    have hl : ((t.index key).1.assign s value).listCount = (t.index key).1.listCount := rfl
    rw [hl]
    simp only [Machine.indexAssign, index_toMachine thr hwf hthr hmax, hs, Option.map_some']
    by_cases hm1 : (t.index key).1.listCount ≤ 2147483647
    · simp only [if_pos hm1]
      rfl
    · simp only [if_neg hm1]

theorem listCount_le_run (ops : List (Op K V)) (t : HashTable K V) :
    t.listCount ≤ (run t ops).listCount := by
  induction ops generalizing t with
  | nil => exact Nat.le_refl _
  | cons op ops ih =>
    rw [run_cons]
    refine Nat.le_trans ?_ (ih (Op.apply t op))
    rw [(apply_counters t op).1]
    exact Nat.le_mul_of_pos_right _ (Nat.pos_pow_of_pos _ (by decide))

/-- A sequence of calls on the machine representation, from a well-formed table within the
range of `int`: all calls return exactly when the final bucket count on natural numbers fits
in an `int`, and then the result has the counters of the result on natural numbers. -/
theorem run_toMachine (thr : Binary32) (ops : List (Op K V)) :
    ∀ t : HashTable K V, WF t → t.loadFactorThreshold = Threshold.binary32 thr →
      t.listCount ≤ 2147483647 →
      (t.toMachine thr).run ops =
        if (run t ops).listCount ≤ 2147483647 then some ((run t ops).toMachine thr)
        else none := by
  induction ops with
  | nil =>
    intro t _ _ hmax
    simp only [Machine.run, HashTableModel.run, List.foldl_nil, if_pos hmax]
  | cons op ops ih =>
    intro t hwf hthr hmax
    simp only [Machine.run, apply_toMachine thr hwf hthr hmax op]
    rw [run_cons]
    by_cases h1 : (Op.apply t op).listCount ≤ 2147483647
    · simp only [if_pos h1]
      exact ih _ (WF_apply hwf op) (by rw [(apply_counters t op).2.2.1]; exact hthr) h1
    · simp only [if_neg h1]
      have := listCount_le_run ops (Op.apply t op)
      rw [if_neg (by omega)]

end Calls

/-! ## Sequences of calls from the constructor on the machine representation -/

section Calls

variable [Inhabited V]

theorem rehashesDuring_le (ops : List (Op K V)) :
    ∀ t : HashTable K V, rehashesDuring t ops ≤ ops.length := by
  induction ops with
  | nil => intro t; exact Nat.le_refl _
  | cons op ops ih =>
    intro t
    have h1 := (apply_counters t op).2.1
    have h2 := ih (Op.apply t op)
    simp only [rehashesDuring, List.length_cons]
    omega

theorem run_size_le (ops : List (Op K V)) :
    ∀ t : HashTable K V, (run t ops).size ≤ t.size + ops.length := by
  induction ops with
  | nil => intro t; exact Nat.le_refl _
  | cons op ops ih =>
    intro t
    rw [run_cons]
    have h2 := ih (Op.apply t op)
    have h1 : (Op.apply t op).size ≤ t.size + 1 := by
      rcases (apply_counters t op).2.2.2.2 with ⟨h, _⟩ | ⟨h, _⟩ <;> omega
    simp only [List.length_cons]
    omega

theorem run_listCount_le (ops : List (Op K V)) :
    ∀ t : HashTable K V, (run t ops).listCount ≤ t.listCount * 2 ^ ops.length := by
  induction ops with
  | nil => intro t; simp [run]
  | cons op ops ih =>
    intro t
    rw [run_cons]
    refine Nat.le_trans (ih (Op.apply t op)) ?_
    obtain ⟨c1, c2, _⟩ := apply_counters t op
    rw [c1, List.length_cons, Nat.mul_assoc, ← Nat.pow_add]
    exact Nat.mul_le_mul_left _ (Nat.pow_le_pow_right (by decide) (by omega))

theorem run_take_listCount_le (t : HashTable K V) (ops : List (Op K V)) (k : Nat) :
    (run t (ops.take k)).listCount ≤ (run t ops).listCount := by
  conv_rhs => rw [← List.take_append_drop k ops, run_append]
  exact listCount_le_run _ _

/-- From the constructor with an initial bucket count between 1 and `INT_MAX`, a sequence of
calls returns exactly when the bucket count `n0 * 2 ^ r` after its `r` rehashes still fits in
an `int`, and the table it leaves has the counters of the run on natural numbers. -/
theorem run_construct (thr : Binary32) (hashFunc : K → Nat) {initialSize : Nat}
    (h1 : 1 ≤ initialSize) (hmax : initialSize ≤ 2147483647) (ops : List (Op K V)) :
    (Machine.construct thr hashFunc initialSize : Machine K V).run ops =
      if (run (HashTable.new (Threshold.binary32 thr) hashFunc initialSize) ops).listCount ≤
          2147483647 then
        some ((run (HashTable.new (Threshold.binary32 thr) hashFunc initialSize) ops).toMachine
          thr)
      else none := by
  rw [construct_eq_toMachine thr hashFunc hmax]
  exact run_toMachine thr ops _ (WF_new _ _ h1) rfl hmax

theorem run_construct_eq_some (thr : Binary32) (hashFunc : K → Nat) {initialSize : Nat}
    (h1 : 1 ≤ initialSize) (hmax : initialSize ≤ 2147483647) {ops : List (Op K V)}
    {m : Machine K V}
    (h : (Machine.construct thr hashFunc initialSize : Machine K V).run ops = some m) :
    m = (run (HashTable.new (Threshold.binary32 thr) hashFunc initialSize) ops).toMachine thr ∧
    (run (HashTable.new (Threshold.binary32 thr) hashFunc initialSize) ops).listCount ≤
      2147483647 := by
  rw [run_construct thr hashFunc h1 hmax] at h
  split at h
  · exact ⟨(Option.some.inj h).symm, by assumption⟩
  · exact absurd h (by simp)

theorem run_construct_of_short (thr : Binary32) (hashFunc : K → Nat) {initialSize : Nat}
    (h1 : 1 ≤ initialSize) (ops : List (Op K V))
    (hshort : initialSize * 2 ^ ops.length ≤ 2147483647) :
    (Machine.construct thr hashFunc initialSize : Machine K V).run ops =
      some ((run (HashTable.new (Threshold.binary32 thr) hashFunc initialSize) ops).toMachine
        thr) := by
  have hmax : initialSize ≤ 2147483647 :=
    Nat.le_trans (Nat.le_mul_of_pos_right _ (Nat.pos_pow_of_pos _ (by decide))) hshort
  rw [run_construct thr hashFunc h1 hmax, if_pos]
  exact Nat.le_trans (run_listCount_le ops _) hshort

omit [DecidableEq K] [Inhabited V] in
theorem getLoadFactor_toMachine (thr : Binary32) (t : HashTable K V) :
    (t.toMachine thr).getLoadFactor = (t.size : ℚ) / (t.listCount : ℚ) := by
  simp only [Machine.getLoadFactor, HashTable.toMachine, Int.cast_natCast]

/-- The load factor of the machine table stays below the `float` threshold, as an exact
ratio, through every sequence of calls from the constructor that return, when the initial
bucket count is between 1 and `INT_MAX` and converts to `float` without change, the threshold
is above `1 / (2 * n0)`, and no size above `2 ^ 24` is reached. -/
theorem machine_run_exceeds (thr : Binary32) (hashFunc : K → Nat) {initialSize : Nat}
    (h1 : 1 ≤ initialSize) (hmax : initialSize ≤ 2147483647)
    (hexact : roundNat initialSize = initialSize)
    (hthr : thr.exceeds (1 / (2 * (initialSize : ℚ)))) (ops : List (Op K V))
    {m : Machine K V}
    (hrun : (Machine.construct thr hashFunc initialSize : Machine K V).run ops = some m)
    (hsize : ∀ k m1,
      (Machine.construct thr hashFunc initialSize : Machine K V).run (ops.take k) = some m1 →
        m1.size ≤ 16777216) :
    thr.exceeds m.getLoadFactor := by
  obtain ⟨hm, hle⟩ := run_construct_eq_some thr hashFunc h1 hmax hrun
  rw [hm, getLoadFactor_toMachine]
  refine run_exceeds thr ops _ rfl h1 hexact hthr ?_ ?_
  · refine Binary32.exceeds_of_le hthr ?_
    show ((0 : Nat) : ℚ) / _ ≤ _
    rw [Nat.cast_zero, zero_div]
    positivity
  · intro k
    have hk : (run (HashTable.new (Threshold.binary32 thr) hashFunc initialSize)
        (ops.take k)).listCount ≤ 2147483647 :=
      Nat.le_trans (run_take_listCount_le _ ops k) hle
    have := hsize k _ (by rw [run_construct thr hashFunc h1 hmax, if_pos hk])
    exact this

end Calls

/-! ## The binary32 test at particular arguments -/

theorem roundDiv_eq (a b sb sq : Nat) (hb : Nat.size b = sb)
    (hq : Nat.size (a * 2 ^ (sb + 24) / b) = sq) :
    roundDiv a b =
      ((if a * 2 ^ (sb + 24) / b % 2 ^ (sq - 24) > 2 ^ (sq - 24 - 1) ∨
            (a * 2 ^ (sb + 24) / b % 2 ^ (sq - 24) = 2 ^ (sq - 24 - 1) ∧
              (a * 2 ^ (sb + 24) % b > 0 ∨ a * 2 ^ (sb + 24) / b / 2 ^ (sq - 24) % 2 = 1)) then
          a * 2 ^ (sb + 24) / b / 2 ^ (sq - 24) + 1
        else a * 2 ^ (sb + 24) / b / 2 ^ (sq - 24) : Nat) : ℚ) *
        2 ^ (((sq - 24 : Nat) : ℤ) - ((sb + 24 : Nat) : ℤ)) := by
  subst hb
  subst hq
  rfl

/-- The threshold 0.25f is reached by one pair in one bucket. -/
theorem reached_quarter : loadFactorReached ⟨false, 125, 0⟩ 1 1 = true := by
  have h1 : roundNat 1 = 1 := roundNat_of_lt (by norm_num)
  have hd : roundDiv 1 1 = 1 := by
    rw [roundDiv_eq 1 1 1 26 (size_eq_of_bounds (k := 0) (by norm_num) (by norm_num))
      (size_eq_of_bounds (k := 25) (by norm_num) (by norm_num))]
    norm_num
  have he : ((125 : Fin 256) : Nat) = 125 := rfl
  have hf : ((0 : Fin 8388608) : Nat) = 0 := rfl
  simp only [loadFactorReached, Binary32.isNaN, Binary32.isInf, Binary32.toRat, he, hf]
  norm_num [h1, hd]

theorem toRat_quarter : (⟨false, 125, 0⟩ : Binary32).toRat = 1 / 4 := by
  have he : ((125 : Fin 256) : Nat) = 125 := rfl
  have hf : ((0 : Fin 8388608) : Nat) = 0 := rfl
  simp only [Binary32.toRat, he, hf]
  norm_num

theorem roundNat_16777219 : roundNat 16777219 = 16777220 := by
  unfold roundNat
  rw [size_eq_of_bounds (k := 24) (by norm_num : 2 ^ 24 ≤ 16777219) (by norm_num)]
  norm_num

theorem toRat_small : (⟨false, 103, 8388605⟩ : Binary32).toRat = 16777213 / 2 ^ 47 := by
  have he : ((103 : Fin 256) : Nat) = 103 := rfl
  have hf : ((8388605 : Fin 8388608) : Nat) = 8388605 := rfl
  simp only [Binary32.toRat, he, hf]
  norm_num

/-- The threshold 16777213 / 2 ^ 47 is not reached, in binary32, by one pair in 16777219
buckets. -/
theorem not_reached_one :
    loadFactorReached ⟨false, 103, 8388605⟩ 1 ((16777219 : Nat) : Int) = false := by
  have h1 : roundNat 1 = 1 := roundNat_of_lt (by norm_num)
  have hd : roundDiv 1 16777220 = 16777212 / 2 ^ 48 := by
    rw [roundDiv_eq 1 16777220 25 25 (size_eq_of_bounds (k := 24) (by norm_num) (by norm_num))
      (size_eq_of_bounds (k := 24) (by norm_num) (by norm_num))]
    norm_num
  have he : ((103 : Fin 256) : Nat) = 103 := rfl
  have hf : ((8388605 : Fin 8388608) : Nat) = 8388605 := rfl
  simp only [loadFactorReached, Binary32.isNaN, Binary32.isInf, Binary32.toRat, he, hf,
    Int.natAbs_ofNat, roundNat_16777219, h1, hd]
  norm_num

/-- The threshold 16777213 / 2 ^ 47 is not reached, in binary32, by two pairs in 16777219
buckets. -/
theorem not_reached_two :
    loadFactorReached ⟨false, 103, 8388605⟩ 2 ((16777219 : Nat) : Int) = false := by
  have h1 : roundNat 2 = 2 := roundNat_of_lt (by norm_num)
  have hd : roundDiv 2 16777220 = 16777212 / 2 ^ 47 := by
    rw [roundDiv_eq 2 16777220 25 26 (size_eq_of_bounds (k := 24) (by norm_num) (by norm_num))
      (size_eq_of_bounds (k := 25) (by norm_num) (by norm_num))]
    norm_num
  have he : ((103 : Fin 256) : Nat) = 103 := rfl
  have hf : ((8388605 : Fin 8388608) : Nat) = 8388605 := rfl
  simp only [loadFactorReached, Binary32.isNaN, Binary32.isInf, Binary32.toRat, he, hf,
    Int.natAbs_ofNat, roundNat_16777219, h1, hd]
  norm_num

theorem roundNat_1073741824 : roundNat 1073741824 = 1073741824 := by
  unfold roundNat
  rw [size_eq_of_bounds (k := 30) (by norm_num : 2 ^ 30 ≤ 1073741824) (by norm_num)]
  norm_num

/-- The threshold 2 ^ (-30) is reached by one pair in 2 ^ 30 buckets. -/
theorem reached_one_of_1073741824 :
    loadFactorReached ⟨false, 97, 0⟩ 1 1073741824 = true := by
  have h1 : roundNat 1 = 1 := roundNat_of_lt (by norm_num)
  have hd : roundDiv 1 1073741824 = 1 / 2 ^ 30 := by
    rw [roundDiv_eq 1 1073741824 31 26
      (size_eq_of_bounds (k := 30) (by norm_num) (by norm_num))
      (size_eq_of_bounds (k := 25) (by norm_num) (by norm_num))]
    norm_num
  have he : ((97 : Fin 256) : Nat) = 97 := rfl
  have hf : ((0 : Fin 8388608) : Nat) = 0 := rfl
  have ha : (1073741824 : Int).natAbs = 1073741824 := rfl
  simp only [loadFactorReached, Binary32.isNaN, Binary32.isInf, Binary32.toRat, he, hf,
    ha, roundNat_1073741824, h1, hd]
  norm_num

theorem exceeds_default (q : ℚ) (h : q < 13421773 / 16777216) :
    Binary32.defaultLoadFactor.exceeds q := by
  have he : ((126 : Fin 256) : Nat) = 126 := rfl
  have hf : ((5033165 : Fin 8388608) : Nat) = 5033165 := rfl
  have ht : Binary32.defaultLoadFactor.toRat = 13421773 / 16777216 := by
    simp only [Binary32.toRat, Binary32.defaultLoadFactor, he, hf]
    norm_num
  refine ⟨?_, ?_⟩
  · simp only [Binary32.isNaN, Binary32.defaultLoadFactor, he, hf]
    rfl
  · have hi : Binary32.defaultLoadFactor.isInf = false := by
      simp only [Binary32.isInf, Binary32.defaultLoadFactor, he, hf]
      rfl
    rw [hi, ht]
    simpa using h

/-! ## Inserts on the machine representation -/

/-- The counters after the first insert into a new table. -/
theorem insert_new_counters (loadFactor : Threshold) (hashFunc : K → Nat) (initialSize : Nat)
    (key : K) (value : V) :
    ((HashTable.new loadFactor hashFunc initialSize : HashTable K V).insert key value).size =
      1 ∧
    ((HashTable.new loadFactor hashFunc initialSize : HashTable K V).insert key
      value).listCount = if loadFactor 1 initialSize then initialSize * 2 else initialSize := by
  obtain ⟨c1, c2, _⟩ := insert_counters
    (HashTable.new loadFactor hashFunc initialSize : HashTable K V) key value
  rw [find_new] at c1 c2
  simp only [Option.isSome_none, Bool.false_eq_true, if_false] at c1 c2
  exact ⟨c1, c2⟩

/-- One insert into a new table of one bucket with the threshold 0.25f: the call returns
with one pair in two buckets. -/
theorem insert_quarter (hashFunc : K → Nat) (key : K) (value : V) :
    ∃ m : Machine K V,
      (Machine.construct ⟨false, 125, 0⟩ hashFunc 1 : Machine K V).insert key value = some m ∧
      m.size = 1 ∧ m.listCount = 2 ∧ m.hashTable.length = 2 := by
  have hc := construct_eq_toMachine (V := V) ⟨false, 125, 0⟩ hashFunc
    (show 1 ≤ 2147483647 by decide)
  have hwf : WF (HashTable.new (Threshold.binary32 ⟨false, 125, 0⟩) hashFunc 1 :
      HashTable K V) := WF_new _ _ (le_refl 1)
  obtain ⟨c1, c2⟩ := insert_new_counters (V := V) (Threshold.binary32 ⟨false, 125, 0⟩)
    hashFunc 1 key value
  have ht : Threshold.binary32 ⟨false, 125, 0⟩ 1 1 = true := reached_quarter
  rw [ht, if_pos rfl] at c2
  have hs := insert_toMachine ⟨false, 125, 0⟩ hwf rfl (show 1 ≤ 2147483647 by decide) key value
  rw [c2, if_pos (by decide)] at hs
  refine ⟨_, by rw [hc]; exact hs, c1, ?_, ?_⟩
  · show ((_ : Nat) : Int) = 2
    rw [c2]; rfl
  · show (HashTable.insert _ key value).hashTable.length = 2
    rw [(insert_spec hwf key value).1.length_eq, c2]

theorem run_insert_insert [Inhabited V] (t : HashTable K V) (k1 k2 : K) (v1 v2 : V) :
    run t [Op.insert k1 v1, Op.insert k2 v2] = (t.insert k1 v1).insert k2 v2 := rfl

/-- Two inserts of distinct keys into a new table of 16777219 buckets with the threshold
16777213 / 2 ^ 47: both calls return, without a rehash. -/
theorem run_two_inserts :
    (Machine.construct ⟨false, 103, 8388605⟩ (fun k : Nat => k) 16777219 : Machine Nat Nat).run
        [Op.insert 0 0, Op.insert 1 0] =
      some ((run (HashTable.new (Threshold.binary32 ⟨false, 103, 8388605⟩)
        (fun k : Nat => k) 16777219 : HashTable Nat Nat)
        [Op.insert 0 0, Op.insert 1 0]).toMachine ⟨false, 103, 8388605⟩) ∧
    (run (HashTable.new (Threshold.binary32 ⟨false, 103, 8388605⟩)
        (fun k : Nat => k) 16777219 : HashTable Nat Nat)
        [Op.insert 0 0, Op.insert 1 0]).size = 2 ∧
    (run (HashTable.new (Threshold.binary32 ⟨false, 103, 8388605⟩)
        (fun k : Nat => k) 16777219 : HashTable Nat Nat)
        [Op.insert 0 0, Op.insert 1 0]).listCount = 16777219 := by
  refine ⟨run_construct_of_short _ _ (by decide) _ (by decide), ?_⟩
  have hwf : WF (HashTable.new (Threshold.binary32 ⟨false, 103, 8388605⟩)
      (fun k : Nat => k) 16777219 : HashTable Nat Nat) := WF_new _ _ (by decide)
  obtain ⟨a1, a2⟩ := insert_new_counters (V := Nat)
    (Threshold.binary32 ⟨false, 103, 8388605⟩) (fun k : Nat => k) 16777219 0 0
  have ht1 : Threshold.binary32 ⟨false, 103, 8388605⟩ 1 16777219 = false := not_reached_one
  rw [ht1] at a2
  simp only [Bool.false_eq_true, if_false] at a2
  obtain ⟨b1, b2, b3, _⟩ := insert_counters
    ((HashTable.new (Threshold.binary32 ⟨false, 103, 8388605⟩)
      (fun k : Nat => k) 16777219 : HashTable Nat Nat).insert 0 0) 1 0
  have hfind : ((HashTable.new (Threshold.binary32 ⟨false, 103, 8388605⟩)
      (fun k : Nat => k) 16777219 : HashTable Nat Nat).insert 0 0).find 1 = none := by
    rw [find_insert hwf, if_neg (by decide), find_new]
  have hthr : ((HashTable.new (Threshold.binary32 ⟨false, 103, 8388605⟩)
      (fun k : Nat => k) 16777219 : HashTable Nat Nat).insert 0 0).loadFactorThreshold =
      Threshold.binary32 ⟨false, 103, 8388605⟩ := (insert_counters _ 0 0).2.2.1
  have ht2 : Threshold.binary32 ⟨false, 103, 8388605⟩ 2 16777219 = false := not_reached_two
  rw [hfind, a1, a2, hthr] at b2
  rw [hfind, a1] at b1
  simp only [Option.isSome_none, Bool.false_eq_true, if_false, ht2] at b1 b2
  rw [run_insert_insert]
  exact ⟨b1, b2⟩

theorem Machine.insertAll_eq_run [Inhabited V] (xs : List (K × V)) :
    ∀ m : Machine K V, m.insertAll xs = m.run (xs.map (fun p => Op.insert p.1 p.2)) := by
  induction xs with
  | nil => intro m; rfl
  | cons p xs ih =>
    intro m
    simp only [Machine.insertAll, List.map_cons, Machine.run, Machine.apply]
    cases m.insert p.1 p.2 with
    | none => rfl
    | some m1 => exact ih m1

theorem run_map_insert [Inhabited V] (xs : List (K × V)) :
    ∀ t : HashTable K V, run t (xs.map (fun p => Op.insert p.1 p.2)) = insertAll t xs := by
  induction xs with
  | nil => intro t; rfl
  | cons p xs ih =>
    intro t
    rw [List.map_cons, run_cons, insertAll_cons]
    exact ih _

theorem size_le_insertAll (xs : List (K × V)) :
    ∀ t : HashTable K V, t.size ≤ (insertAll t xs).size := by
  induction xs with
  | nil => intro t; exact Nat.le_refl _
  | cons p xs ih =>
    intro t
    rw [insertAll_cons]
    refine Nat.le_trans ?_ (ih _)
    rw [(insert_counters t p.1 p.2).1]
    split <;> omega

/-- The load factor of the machine table stays below the `float` threshold, as an exact
ratio, through every sequence of `insert` calls from the constructor that return, when the
initial bucket count is between 1 and `INT_MAX` and converts to `float` without change, the
threshold is above `1 / (2 * n0)`, and the size reached is at most `2 ^ 24`. -/
theorem machine_insertAll_exceeds (thr : Binary32) (hashFunc : K → Nat) {initialSize : Nat}
    (h1 : 1 ≤ initialSize) (hmax : initialSize ≤ 2147483647)
    (hexact : roundNat initialSize = initialSize)
    (hthr : thr.exceeds (1 / (2 * (initialSize : ℚ)))) (xs : List (K × V))
    {m : Machine K V}
    (hrun : (Machine.construct thr hashFunc initialSize : Machine K V).insertAll xs = some m)
    (hsize : m.size ≤ 16777216) :
    thr.exceeds m.getLoadFactor := by
  cases xs with
  | nil =>
    have hm : m = Machine.construct thr hashFunc initialSize := (Option.some.inj hrun).symm
    rw [hm]
    refine Binary32.exceeds_of_le hthr ?_
    show ((0 : Nat) : ℚ) / _ ≤ _
    rw [Nat.cast_zero, zero_div]
    positivity
  | cons p xs =>
    haveI : Inhabited V := ⟨p.2⟩
    rw [Machine.insertAll_eq_run] at hrun
    refine machine_run_exceeds thr hashFunc h1 hmax hexact hthr _ hrun ?_
    intro k m1 hk
    obtain ⟨hm, _⟩ := run_construct_eq_some thr hashFunc h1 hmax hrun
    obtain ⟨hm1, _⟩ := run_construct_eq_some thr hashFunc h1 hmax hk
    rw [hm] at hsize
    rw [hm1]
    rw [← List.map_take, run_map_insert] at *
    refine Nat.le_trans ?_ hsize
    show (insertAll _ ((p :: xs).take k)).size ≤ (insertAll _ (p :: xs)).size
    conv_rhs => rw [← List.take_append_drop k (p :: xs), insertAll_append]
    exact size_le_insertAll _ _

theorem insertAll_of_short (thr : Binary32) (hashFunc : K → Nat) {initialSize : Nat}
    (h1 : 1 ≤ initialSize) (xs : List (K × V))
    (hshort : initialSize * 2 ^ xs.length ≤ 2147483647) :
    ((Machine.construct thr hashFunc initialSize : Machine K V).insertAll xs).isSome = true := by
  cases xs with
  | nil => rfl
  | cons p xs =>
    haveI : Inhabited V := ⟨p.2⟩
    rw [Machine.insertAll_eq_run, run_construct_of_short thr hashFunc h1 _
      (by rw [List.length_map]; exact hshort)]
    rfl

/-! ## The constructor outside the range of int -/

omit [DecidableEq K] in
theorem construct_listCount (thr : Binary32) (hashFunc : K → Nat) (initialSize : Nat) :
    (Machine.construct thr hashFunc initialSize : Machine K V).listCount =
      narrowToInt initialSize := rfl

omit [DecidableEq K] in
theorem construct_length (thr : Binary32) (hashFunc : K → Nat) (initialSize : Nat) :
    (Machine.construct thr hashFunc initialSize : Machine K V).hashTable.length =
      initialSize := List.length_replicate _ _

omit [DecidableEq K] in
theorem listIndex_eq_none (m : Machine K V) (key : K)
    (h : m.hashTable.length ≤ m.hashFunction key % widenToSize m.listCount) :
    m.listIndex key = none := by
  unfold Machine.listIndex
  split
  · rfl
  · rw [if_neg (by omega)]

theorem find_of_listIndex_none {m : Machine K V} {key : K} (h : m.listIndex key = none) :
    m.find key = none := by
  simp only [Machine.find, h]

theorem insert_of_listIndex_none {m : Machine K V} {key : K} (value : V)
    (h : m.listIndex key = none) : m.insert key value = none := by
  simp only [Machine.insert, h]

theorem erase_of_listIndex_none {m : Machine K V} {key : K} (h : m.listIndex key = none) :
    m.erase key = none := by
  simp only [Machine.erase, h]

theorem index_of_listIndex_none [Inhabited V] {m : Machine K V} {key : K}
    (h : m.listIndex key = none) : m.index key = none := by
  simp only [Machine.index, h]

theorem narrowToInt_4294967296 : narrowToInt 4294967296 = 0 := by
  unfold narrowToInt
  norm_num

theorem narrowToInt_2147483648 : narrowToInt 2147483648 = -2147483648 := by
  unfold narrowToInt
  norm_num

theorem widenToSize_neg : widenToSize (-2147483648) = 18446744071562067968 := by
  unfold widenToSize
  norm_num
  rfl

omit [DecidableEq K] in
/-- After the constructor with `initialSize = 2147483648` the index computed for a key whose
hash is 2147483648 lies outside the bucket vector. -/
theorem listIndex_narrowed (thr : Binary32) (hashFunc : K → Nat) (key : K)
    (hkey : hashFunc key = 2147483648) :
    (Machine.construct thr hashFunc 2147483648 : Machine K V).listIndex key = none := by
  apply listIndex_eq_none
  rw [construct_length, construct_listCount, narrowToInt_2147483648, widenToSize_neg]
  show 2147483648 ≤ hashFunc key % 18446744071562067968
  rw [hkey]

/-- An insert of a new key that reaches the threshold in a table of 1073741824 buckets has no
result: `listCount *= 2` overflows the `int`. -/
theorem insert_overflow (thr : Binary32) (hashFunc : K → Nat) (key : K) (value : V)
    (hthr : loadFactorReached thr 1 1073741824 = true) :
    (Machine.construct thr hashFunc 1073741824 : Machine K V).insert key value = none := by
  have hwf : WF (HashTable.new (Threshold.binary32 thr) hashFunc 1073741824 :
      HashTable K V) := WF_new _ _ (by norm_num)
  have ht : (HashTable.new (Threshold.binary32 thr) hashFunc 1073741824 :
      HashTable K V).loadFactorThreshold = Threshold.binary32 thr := rfl
  have hmax : (HashTable.new (Threshold.binary32 thr) hashFunc 1073741824 :
      HashTable K V).listCount ≤ 2147483647 := by
    show 1073741824 ≤ 2147483647
    norm_num
  rw [construct_eq_toMachine thr hashFunc (show 1073741824 ≤ 2147483647 by norm_num),
    insert_toMachine thr hwf ht hmax]
  have hreach : Threshold.binary32 thr 1 1073741824 = true := hthr
  rw [(insert_new_counters (Threshold.binary32 thr) hashFunc 1073741824 key value).2, hreach,
    if_pos rfl, if_neg (by norm_num)]

/-! ## Sequences of inserts from the constructor -/

theorem size_insertAll_le (xs : List (K × V)) :
    ∀ t : HashTable K V, (insertAll t xs).size ≤ t.size + xs.length := by
  induction xs with
  | nil => intro t; exact Nat.le_refl _
  | cons p xs ih =>
    intro t
    rw [insertAll_cons]
    refine Nat.le_trans (ih _) ?_
    rw [(insert_counters t p.1 p.2).1, List.length_cons]
    split <;> omega

theorem insertAll_construct_of_short (thr : Binary32) (hashFunc : K → Nat) {initialSize : Nat}
    (h1 : 1 ≤ initialSize) (xs : List (K × V))
    (hshort : initialSize * 2 ^ xs.length ≤ 2147483647) :
    (Machine.construct thr hashFunc initialSize : Machine K V).insertAll xs =
      some ((insertAll (HashTable.new (Threshold.binary32 thr) hashFunc initialSize)
        xs).toMachine thr) := by
  cases xs with
  | nil =>
    have hmax : initialSize ≤ 2147483647 := by simpa using hshort
    show some _ = _
    rw [construct_eq_toMachine thr hashFunc hmax]
    rfl
  | cons p xs =>
    haveI : Inhabited V := ⟨p.2⟩
    rw [Machine.insertAll_eq_run, run_construct_of_short thr hashFunc h1 _
      (by rw [List.length_map]; exact hshort), run_map_insert]

theorem Binary32.not_exceeds_of_le {x : Binary32} {q : ℚ} (hinf : x.isInf = false)
    (h : x.toRat ≤ q) : ¬ x.exceeds q := by
  intro he
  have h2 := he.2
  rw [hinf] at h2
  simp only [Bool.false_eq_true, if_false] at h2
  exact absurd h (not_le.2 h2)

/-! ## Sizes and load factors after particular sequences -/

theorem Machine.insertAll_singleton (m : Machine K V) (key : K) (value : V) :
    m.insertAll [(key, value)] = m.insert key value := by
  simp only [Machine.insertAll]
  cases m.insert key value <;> rfl

/-- One insert into a new table of one bucket with the threshold 0.25f: the call returns
with one pair in two buckets, at load factor 1/2. -/
theorem insertAll_quarter (hashFunc : K → Nat) (key : K) (value : V) :
    ∃ m : Machine K V,
      (Machine.construct ⟨false, 125, 0⟩ hashFunc 1 : Machine K V).insertAll [(key, value)] =
        some m ∧
      (Machine.construct ⟨false, 125, 0⟩ hashFunc 1 : Machine K V).insert key value =
        some m ∧
      m.size = 1 ∧ m.listCount = 2 ∧ m.getLoadFactor = 1 / 2 := by
  obtain ⟨m, hm, hs, hl, _⟩ := insert_quarter hashFunc key value
  refine ⟨m, by rw [Machine.insertAll_singleton, hm], hm, hs, hl, ?_⟩
  simp only [Machine.getLoadFactor, hs, hl]
  norm_num

theorem not_exceeds_quarter : ¬ (⟨false, 125, 0⟩ : Binary32).exceeds (1 / 2) := by
  have he : ((125 : Fin 256) : Nat) = 125 := rfl
  have hf : ((0 : Fin 8388608) : Nat) = 0 := rfl
  refine Binary32.not_exceeds_of_le ?_ ?_
  · simp only [Binary32.isInf, he, hf]
    rfl
  · rw [toRat_quarter]
    norm_num

theorem size_insertAll_new_toMachine_le (thr : Binary32) (hashFunc : K → Nat)
    (initialSize : Nat) (xs : List (K × V)) :
    ((insertAll (HashTable.new (Threshold.binary32 thr) hashFunc initialSize)
      xs).toMachine thr).size ≤ xs.length := by
  have h := size_insertAll_le xs
    (HashTable.new (Threshold.binary32 thr) hashFunc initialSize : HashTable K V)
  have h0 : (HashTable.new (Threshold.binary32 thr) hashFunc initialSize :
      HashTable K V).size = 0 := rfl
  rw [h0, Nat.zero_add] at h
  exact h

theorem size_run_new_toMachine_le [Inhabited V] (thr : Binary32) (hashFunc : K → Nat)
    (initialSize : Nat) (ops : List (Op K V)) :
    ((run (HashTable.new (Threshold.binary32 thr) hashFunc initialSize)
      ops).toMachine thr).size ≤ ops.length := by
  have h := run_size_le ops
    (HashTable.new (Threshold.binary32 thr) hashFunc initialSize : HashTable K V)
  have h0 : (HashTable.new (Threshold.binary32 thr) hashFunc initialSize :
      HashTable K V).size = 0 := rfl
  rw [h0, Nat.zero_add] at h
  exact h

/-! ## The threshold 16777213 / 2 ^ 47 with 16777219 buckets -/

omit [DecidableEq K] in
theorem toMachine_size (thr : Binary32) (t : HashTable K V) :
    (t.toMachine thr).size = t.size := rfl

omit [DecidableEq K] in
theorem toMachine_listCount (thr : Binary32) (t : HashTable K V) :
    (t.toMachine thr).listCount = (t.listCount : Int) := rfl

theorem not_exceeds_small : ¬ (⟨false, 103, 8388605⟩ : Binary32).exceeds (2 / 16777219) := by
  have he : ((103 : Fin 256) : Nat) = 103 := rfl
  have hf : ((8388605 : Fin 8388608) : Nat) = 8388605 := rfl
  refine Binary32.not_exceeds_of_le ?_ ?_
  · simp only [Binary32.isInf, he, hf]
    rfl
  · rw [toRat_small]
    norm_num

/-- Two inserts of distinct keys into a new table of 16777219 buckets with the threshold
16777213 / 2 ^ 47 leave two pairs in 16777219 buckets. -/
theorem run_two_inserts_counters :
    ∃ m : Machine Nat Nat,
      (Machine.construct ⟨false, 103, 8388605⟩ (fun k : Nat => k) 16777219 :
        Machine Nat Nat).run [Op.insert 0 0, Op.insert 1 0] = some m ∧
      m.size = 2 ∧ m.listCount = 16777219 ∧ m.getLoadFactor = 2 / 16777219 := by
  obtain ⟨hrun, hs, hl⟩ := run_two_inserts
  refine ⟨_, hrun, ?_, ?_, ?_⟩
  · rw [toMachine_size, hs]
  · rw [toMachine_listCount, hl]
    rfl
  · rw [getLoadFactor_toMachine, hs, hl]
    norm_num

/-- A threshold `t` that is not a NaN with `t * n0 ≥ 1` is above `1 / (2 * n0)`. -/
theorem Binary32.exceeds_of_one_le {thr : Binary32} {initialSize : Nat}
    (hnan : thr.isNaN = false) (hsize : 1 ≤ initialSize)
    (hge : 1 ≤ thr.toRat * (initialSize : ℚ)) :
    thr.exceeds (1 / (2 * (initialSize : ℚ))) := by
  refine ⟨hnan, ?_⟩
  have hpos : (0 : ℚ) < initialSize := by exact_mod_cast hsize
  split
  · rename_i hinf
    by_contra hs
    have hs1 : thr.sign = true := by simpa using hs
    have hle := Binary32.toRat_nonpos thr hs1
    have : thr.toRat * (initialSize : ℚ) ≤ 0 :=
      mul_nonpos_of_nonpos_of_nonneg hle (le_of_lt hpos)
    linarith
  · rw [div_lt_iff₀ (by positivity)]
    nlinarith

/-! ## Sizes along a sequence of calls from the constructor -/

section Calls

variable [Inhabited V]

theorem size_le_length_of_run (thr : Binary32) (hashFunc : K → Nat) {initialSize : Nat}
    (h1 : 1 ≤ initialSize) (hmax : initialSize ≤ 2147483647) {ops : List (Op K V)}
    {m : Machine K V}
    (hrun : (Machine.construct thr hashFunc initialSize : Machine K V).run ops = some m) :
    m.size ≤ ops.length := by
  obtain ⟨hm, _⟩ := run_construct_eq_some thr hashFunc h1 hmax hrun
  rw [hm]
  exact size_run_new_toMachine_le thr hashFunc initialSize ops

/-- A sequence of at most `2 ^ 24` calls reaches no size above `2 ^ 24`. -/
theorem prefix_sizes_of_length_le (thr : Binary32) (hashFunc : K → Nat) {initialSize : Nat}
    (h1 : 1 ≤ initialSize) (hmax : initialSize ≤ 2147483647) (ops : List (Op K V))
    (hlen : ops.length ≤ 16777216) :
    ∀ k m1, (Machine.construct thr hashFunc initialSize : Machine K V).run (ops.take k) =
      some m1 → m1.size ≤ 16777216 := by
  intro k m1 hk
  refine Nat.le_trans (size_le_length_of_run thr hashFunc h1 hmax hk) ?_
  rw [List.length_take]
  exact Nat.le_trans (Nat.min_le_right _ _) hlen

end Calls

/-! ## Two inserts as a sequence of calls -/

theorem Machine.insertAll_pair [Inhabited V] (m : Machine K V) (k1 k2 : K) (v1 v2 : V) :
    m.insertAll [(k1, v1), (k2, v2)] = m.run [Op.insert k1 v1, Op.insert k2 v2] :=
  Machine.insertAll_eq_run [(k1, v1), (k2, v2)] m

/-! ## The threshold 16777213 / 2 ^ 47 as a threshold above 1 / (2 * n0) -/

theorem isNaN_small : (⟨false, 103, 8388605⟩ : Binary32).isNaN = false := by
  have he : ((103 : Fin 256) : Nat) = 103 := rfl
  have hf : ((8388605 : Fin 8388608) : Nat) = 8388605 := rfl
  simp only [Binary32.isNaN, he, hf]
  rfl

theorem one_le_small : (1 : ℚ) ≤ (⟨false, 103, 8388605⟩ : Binary32).toRat *
    ((16777219 : Nat) : ℚ) := by
  rw [toRat_small]
  norm_num

theorem exceeds_small :
    (⟨false, 103, 8388605⟩ : Binary32).exceeds (1 / (2 * ((16777219 : Nat) : ℚ))) :=
  Binary32.exceeds_of_one_le isNaN_small (by norm_num) one_le_small

theorem insertAll_two_inserts_counters :
    ∃ m : Machine Nat Nat,
      (Machine.construct ⟨false, 103, 8388605⟩ (fun k : Nat => k) 16777219 :
        Machine Nat Nat).insertAll [(0, 0), (1, 0)] = some m ∧
      m.size = 2 ∧ m.listCount = 16777219 ∧ m.getLoadFactor = 2 / 16777219 := by
  obtain ⟨m, hrun, h⟩ := run_two_inserts_counters
  exact ⟨m, by rw [Machine.insertAll_pair, hrun], h⟩

/-! ## An upper bound on the rounded quotient -/

/-- The rounded quotient is at most the quotient chopped to 24 significant bits, plus one
unit in the last place. -/
theorem roundDiv_le_kept_succ (a b : Nat) :
    roundDiv a b ≤
      ((a * 2 ^ (Nat.size b + 24) / b / 2 ^ (Nat.size (a * 2 ^ (Nat.size b + 24) / b) - 24) + 1
        : ℕ) : ℚ) *
      2 ^ (((Nat.size (a * 2 ^ (Nat.size b + 24) / b) - 24 : ℕ) : ℤ) -
        ((Nat.size b + 24 : ℕ) : ℤ)) := by
  unfold roundDiv
  simp only
  apply mul_le_mul_of_nonneg_right _ (by positivity)
  split
  · exact le_refl _
  · push_cast
    linarith

/-- Rounding the quotient raises it by at most one part in `2 ^ 23`. -/
theorem roundDiv_le_crude {a b : Nat} (hb : 1 ≤ b) :
    roundDiv a b ≤ (a : ℚ) / (b : ℚ) * (1 + 1 / 2 ^ 23) := by
  rcases Nat.eq_zero_or_pos a with ha | ha
  · subst ha
    simp [roundDiv]
  refine le_trans (roundDiv_le_kept_succ a b) ?_
  generalize hc : Nat.size b + 24 = c
  generalize hQ : a * 2 ^ c / b = Q
  generalize hsh : Nat.size Q - 24 = sh
  have hbpos : (0 : ℚ) < b := by exact_mod_cast hb
  have h2c : (0 : ℚ) < 2 ^ c := by positivity
  have h2sh : (0 : ℚ) < 2 ^ sh := by positivity
  have hb2 : b < 2 ^ Nat.size b := Nat.lt_size_self b
  have hQ24 : 2 ^ 24 ≤ Q := by
    rw [← hQ, Nat.le_div_iff_mul_le (by omega), ← hc, pow_add]
    calc 2 ^ 24 * b ≤ 2 ^ 24 * 2 ^ Nat.size b := Nat.mul_le_mul_left _ (le_of_lt hb2)
      _ = 1 * (2 ^ Nat.size b * 2 ^ 24) := by ring
      _ ≤ a * (2 ^ Nat.size b * 2 ^ 24) := Nat.mul_le_mul_right _ ha
  have hQpos : 0 < Q := lt_of_lt_of_le (by norm_num) hQ24
  have hsz : 24 < Nat.size Q := Nat.lt_size.2 hQ24
  have hlow : 2 ^ (sh + 23) ≤ Q := by
    have := pow_size_pred_le hQpos
    have e : Nat.size Q - 1 = sh + 23 := by omega
    rwa [e] at this
  have hexp : (2 : ℚ) ^ (((sh : ℕ) : ℤ) - ((c : ℕ) : ℤ)) = 2 ^ sh / 2 ^ c := by
    rw [zpow_sub₀ (by norm_num), zpow_natCast, zpow_natCast]
  have hk : ((Q / 2 ^ sh : ℕ) : ℚ) * 2 ^ sh ≤ Q := by
    have := Nat.div_mul_le_self Q (2 ^ sh)
    exact_mod_cast this
  have hl : (2 : ℚ) ^ sh * 2 ^ 23 ≤ Q := by
    have : ((2 ^ (sh + 23) : ℕ) : ℚ) ≤ (Q : ℚ) := by exact_mod_cast hlow
    rw [← pow_add]
    exact_mod_cast this
  have hq : (Q : ℚ) * b ≤ (a : ℚ) * 2 ^ c := by
    have := Nat.div_mul_le_self (a * 2 ^ c) b
    rw [hQ] at this
    exact_mod_cast this
  have hQle : (Q : ℚ) ≤ (a : ℚ) * 2 ^ c / b := (le_div_iff₀ hbpos).2 hq
  have hsh23 : (2 : ℚ) ^ sh ≤ Q / 2 ^ 23 := (le_div_iff₀ (by positivity)).2 hl
  rw [hexp]
  calc ((Q / 2 ^ sh + 1 : ℕ) : ℚ) * (2 ^ sh / 2 ^ c)
      = (((Q / 2 ^ sh : ℕ) : ℚ) * 2 ^ sh + 2 ^ sh) / 2 ^ c := by push_cast; ring
    _ ≤ ((Q : ℚ) + Q / 2 ^ 23) / 2 ^ c := by
        apply div_le_div_of_nonneg_right _ (le_of_lt h2c)
        linarith
    _ = (Q : ℚ) * ((1 + 1 / 2 ^ 23) / 2 ^ c) := by ring
    _ ≤ ((a : ℚ) * 2 ^ c / b) * ((1 + 1 / 2 ^ 23) / 2 ^ c) :=
        mul_le_mul_of_nonneg_right hQle (by positivity)
    _ = (a : ℚ) / (b : ℚ) * (1 + 1 / 2 ^ 23) := by field_simp; ring

/-! ## The threshold 5592407 / 2 ^ 20 with 3145728 buckets -/

theorem toRat_large : (⟨false, 129, 2796206⟩ : Binary32).toRat = 5592407 / 2 ^ 20 := by
  have he : ((129 : Fin 256) : Nat) = 129 := rfl
  have hf : ((2796206 : Fin 8388608) : Nat) = 2796206 := rfl
  simp only [Binary32.toRat, he, hf]
  norm_num

theorem isNaN_large : (⟨false, 129, 2796206⟩ : Binary32).isNaN = false := by
  have he : ((129 : Fin 256) : Nat) = 129 := rfl
  have hf : ((2796206 : Fin 8388608) : Nat) = 2796206 := rfl
  simp only [Binary32.isNaN, he, hf]
  rfl

theorem isInf_large : (⟨false, 129, 2796206⟩ : Binary32).isInf = false := by
  have he : ((129 : Fin 256) : Nat) = 129 := rfl
  have hf : ((2796206 : Fin 8388608) : Nat) = 2796206 := rfl
  simp only [Binary32.isInf, he, hf]
  rfl

/-- The conversion to `float` of the sizes up to `2 ^ 24 + 5`. -/
theorem roundNat_upto {s : Nat} (hs : s ≤ 16777221) :
    roundNat s ≤ 16777218 ∨ roundNat s = 16777220 := by
  by_cases hlt : s < 16777216
  · left
    rw [roundNat_of_lt hlt]
    omega
  · have hsz : Nat.size s = 25 :=
      size_eq_of_bounds (k := 24) (by norm_num; omega) (by norm_num; omega)
    have hge : 16777216 ≤ s := by omega
    unfold roundNat
    rw [if_neg hlt, hsz]
    interval_cases s <;> norm_num

theorem roundDiv_16777220 : roundDiv 16777220 3145728 = 11184813 / 2 ^ 21 := by
  rw [roundDiv_eq 16777220 3145728 22 49
    (size_eq_of_bounds (k := 21) (by norm_num) (by norm_num))
    (size_eq_of_bounds (k := 48) (by norm_num) (by norm_num))]
  norm_num

/-- The threshold 5592407 / 2 ^ 20 is not reached, in binary32, by up to `2 ^ 24 + 5` pairs
in 3145728 buckets. -/
theorem not_reached_upto {s : Nat} (hs : s ≤ 16777221) :
    loadFactorReached ⟨false, 129, 2796206⟩ s ((3145728 : Nat) : Int) = false := by
  have hb : roundNat 3145728 = 3145728 := roundNat_of_lt (by norm_num)
  have hlt : roundDiv (roundNat s) 3145728 < 5592407 / 2 ^ 20 := by
    rcases roundNat_upto hs with h | h
    · refine lt_of_le_of_lt (roundDiv_le_crude (by norm_num)) ?_
      have hc : ((roundNat s : ℕ) : ℚ) ≤ 16777218 := by exact_mod_cast h
      have : ((roundNat s : ℕ) : ℚ) / ((3145728 : ℕ) : ℚ) * (1 + 1 / 2 ^ 23) ≤
          16777218 / 3145728 * (1 + 1 / 2 ^ 23) := by
        push_cast
        apply mul_le_mul_of_nonneg_right _ (by norm_num)
        exact div_le_div_of_nonneg_right hc (by norm_num)
      refine lt_of_le_of_lt this ?_
      norm_num
    · rw [h, roundDiv_16777220]
      norm_num
  simp only [loadFactorReached, isNaN_large, isInf_large, toRat_large, Int.natAbs_ofNat, hb,
    Bool.false_eq_true, if_false]
  rw [if_neg (show ¬ ((3145728 : ℕ) : ℤ) = 0 by norm_num),
    if_neg (show ¬ ((3145728 : ℕ) : ℤ) < 0 by norm_num)]
  exact decide_eq_false (not_le.2 hlt)

/-! ## Inserts of distinct keys while the binary32 test stays false -/

theorem insertAll_construct_of_le (thr : Binary32) (hashFunc : K → Nat) {initialSize : Nat}
    (h1 : 1 ≤ initialSize) (hmax : initialSize ≤ 2147483647) (xs : List (K × V))
    (hle : (insertAll (HashTable.new (Threshold.binary32 thr) hashFunc initialSize)
      xs).listCount ≤ 2147483647) :
    (Machine.construct thr hashFunc initialSize : Machine K V).insertAll xs =
      some ((insertAll (HashTable.new (Threshold.binary32 thr) hashFunc initialSize)
        xs).toMachine thr) := by
  cases xs with
  | nil =>
    show some _ = _
    rw [construct_eq_toMachine thr hashFunc hmax]
    rfl
  | cons p xs =>
    haveI : Inhabited V := ⟨p.2⟩
    rw [Machine.insertAll_eq_run, run_construct thr hashFunc h1 hmax, run_map_insert,
      if_pos hle]

/-- The keys `0, ..., n - 1` inserted into a new table whose binary32 test stays false up to
size `n`: all calls return, without a rehash, and leave `n` pairs in the initial buckets. -/
theorem insertAll_range_counters (thr : Binary32) {initialSize : Nat} (n : Nat)
    (h1 : 1 ≤ initialSize) (hmax : initialSize ≤ 2147483647)
    (htest : ∀ s, s ≤ n → loadFactorReached thr s (initialSize : Int) = false) :
    ∃ m : Machine Nat Nat,
      (Machine.construct thr (fun k : Nat => k) initialSize : Machine Nat Nat).insertAll
        ((List.range n).map (fun k => (k, 0))) = some m ∧
      m.size = n ∧ m.listCount = (initialSize : Int) ∧
      m.getLoadFactor = (n : ℚ) / (initialSize : ℚ) := by
  have hwf : WF (HashTable.new (Threshold.binary32 thr) (fun k : Nat => k) initialSize :
      HashTable Nat Nat) := WF_new _ _ h1
  have hnd : (((List.range n).map (fun k => (k, (0 : Nat)))).map Prod.fst).Nodup := by
    rw [List.map_map]
    have : (Prod.fst ∘ fun k : Nat => (k, (0 : Nat))) = id := rfl
    rw [this, List.map_id]
    exact List.nodup_range n
  have hlen : ((List.range n).map (fun k => (k, (0 : Nat)))).length = n := by
    rw [List.length_map, List.length_range]
  obtain ⟨c1, c2, _, _⟩ := insertAll_no_rehash ((List.range n).map (fun k => (k, (0 : Nat))))
    (HashTable.new (Threshold.binary32 thr) (fun k : Nat => k) initialSize) hwf hnd
    (fun p _ => find_new _ _ _ _)
    (fun j hj => by
      rw [hlen] at hj
      exact htest _ (show 0 + j + 1 ≤ n by omega))
  have c1' : (insertAll (HashTable.new (Threshold.binary32 thr) (fun k : Nat => k) initialSize)
      ((List.range n).map (fun k => (k, (0 : Nat))))).listCount = initialSize := c1
  have c2' : (insertAll (HashTable.new (Threshold.binary32 thr) (fun k : Nat => k) initialSize)
      ((List.range n).map (fun k => (k, (0 : Nat))))).size = n := by
    rw [c2, hlen]
    exact Nat.zero_add n
  refine ⟨_, insertAll_construct_of_le thr _ h1 hmax _ (by rw [c1']; exact hmax), ?_, ?_, ?_⟩
  · rw [toMachine_size, c2']
  · rw [toMachine_listCount, c1']
  · rw [getLoadFactor_toMachine, c1', c2']

/-- The keys `0, ..., 2 ^ 24 + 4` inserted into a new table of 3145728 buckets with the
threshold 5592407 / 2 ^ 20: all calls return, without a rehash, at a load factor equal to the
threshold. -/
theorem insertAll_large :
    ∃ m : Machine Nat Nat,
      (Machine.construct ⟨false, 129, 2796206⟩ (fun k : Nat => k) 3145728 :
        Machine Nat Nat).insertAll ((List.range 16777221).map (fun k => (k, 0))) = some m ∧
      m.size = 16777221 ∧ m.listCount = 3145728 ∧ m.getLoadFactor = 5592407 / 2 ^ 20 := by
  obtain ⟨m, hrun, hs, hl, hlf⟩ := insertAll_range_counters ⟨false, 129, 2796206⟩ 16777221
    (show 1 ≤ 3145728 by norm_num) (by norm_num) (fun s hs => not_reached_upto hs)
  refine ⟨m, hrun, hs, hl, ?_⟩
  rw [hlf]
  norm_num

theorem exceeds_large :
    (⟨false, 129, 2796206⟩ : Binary32).exceeds (1 / (2 * ((3145728 : Nat) : ℚ))) :=
  Binary32.exceeds_of_one_le isNaN_large (by norm_num) (by rw [toRat_large]; norm_num)

theorem not_exceeds_large :
    ¬ (⟨false, 129, 2796206⟩ : Binary32).exceeds (5592407 / 2 ^ 20) :=
  Binary32.not_exceeds_of_le isInf_large (by rw [toRat_large])

/-! ## The same inserts as a sequence of calls -/

theorem Machine.run_range_eq_insertAll (m : Machine Nat Nat) (n : Nat) :
    m.run ((List.range n).map (fun k => Op.insert k 0)) =
      m.insertAll ((List.range n).map (fun k => (k, 0))) := by
  rw [Machine.insertAll_eq_run, List.map_map]
  rfl

theorem run_large :
    ∃ m : Machine Nat Nat,
      (Machine.construct ⟨false, 129, 2796206⟩ (fun k : Nat => k) 3145728 :
        Machine Nat Nat).run ((List.range 16777221).map (fun k => Op.insert k 0)) = some m ∧
      m.size = 16777221 ∧ m.listCount = 3145728 ∧ m.getLoadFactor = 5592407 / 2 ^ 20 := by
  obtain ⟨m, hrun, h⟩ := insertAll_large
  exact ⟨m, by rw [Machine.run_range_eq_insertAll, hrun], h⟩

theorem roundNat_3145728 : roundNat 3145728 = 3145728 := roundNat_of_lt (by norm_num)

theorem roundNat_16777219_ne : roundNat 16777219 ≠ 16777219 := by
  rw [roundNat_16777219]
  norm_num

end Lemmas

section Claims

open HashTable

variable {K V : Type} [DecidableEq K]

/-! ## Contract of insert, find and erase -/

/-- C1 (last write wins): for every threshold test, hash function and initial bucket count
of at least one, after any sequence `xs` of `insert` calls on the new table, `find k` is the
pair `(k, v)` of the last insert in `xs` with key `k`, and is `nullptr` when `xs` has no
insert with key `k`; rehashes on the way make no difference. -/
theorem find_after_inserts (loadFactor : Threshold) (hashFunc : K → Nat) (initialSize : Nat)
    (hsize : 1 ≤ initialSize) (xs : List (K × V)) (k : K) :
    (∀ (pre : List (K × V)) (v : V) (post : List (K × V)),
        xs = pre ++ (k, v) :: post → (∀ p ∈ post, p.1 ≠ k) →
        (insertAll (HashTable.new loadFactor hashFunc initialSize) xs).find k = some (k, v)) ∧
    ((∀ p ∈ xs, p.1 ≠ k) →
        (insertAll (HashTable.new loadFactor hashFunc initialSize) xs).find k = none) := by
  have hwf : WF (HashTable.new loadFactor hashFunc initialSize : HashTable K V) :=
    WF_new loadFactor hashFunc hsize
  constructor
  · intro pre v post hxs hpost
    rw [find_insertAll hwf, hxs, List.reverse_append, List.reverse_cons, List.find?_append,
      List.find?_append]
    have : post.reverse.find? (fun p => decide (p.1 = k)) = none := by
      rw [List.find?_eq_none]
      intro p hp
      simpa using hpost p (List.mem_reverse.1 hp)
    simp [this]
  · intro hall
    rw [find_insertAll hwf, find_new]
    have : xs.reverse.find? (fun p => decide (p.1 = k)) = none := by
      rw [List.find?_eq_none]
      intro p hp
      simpa using hall p (List.mem_reverse.1 hp)
    simp [this]

theorem find_after_inserts_witness :
    1 ≤ 2 ∧
    (insertAll (HashTable.new (Threshold.exact (4 / 5)) (fun k : Nat => k) 2)
      [(1, 10), (3, 30), (1, 11), (5, 50)]).find 1 = some (1, 11) ∧
    (insertAll (HashTable.new (Threshold.exact (4 / 5)) (fun k : Nat => k) 2)
      [(1, 10), (3, 30), (1, 11), (5, 50)]).find 7 = none :=
  ⟨by decide,
   (find_after_inserts (Threshold.exact (4 / 5)) (fun k : Nat => k) 2 (by decide)
      [(1, 10), (3, 30), (1, 11), (5, 50)] 1).1 [(1, 10), (3, 30)] 11 [(5, 50)] rfl
      (by decide),
   (find_after_inserts (Threshold.exact (4 / 5)) (fun k : Nat => k) 2 (by decide)
      [(1, 10), (3, 30), (1, 11), (5, 50)] 7).2 (by decide)⟩

/-- C2 (size counts distinct keys): after any sequence `xs` of `insert` calls on the new
table (at least one bucket, any hash function, any threshold test) `size` is the number of
distinct keys of `xs`, and one more `insert` of a key that is present leaves `size` as it is. -/
theorem size_after_inserts (loadFactor : Threshold) (hashFunc : K → Nat) (initialSize : Nat)
    (hsize : 1 ≤ initialSize) (xs : List (K × V)) :
    (insertAll (HashTable.new loadFactor hashFunc initialSize) xs).size =
        (xs.map Prod.fst).toFinset.card ∧
    ∀ (key : K) (value : V),
      (insertAll (HashTable.new loadFactor hashFunc initialSize) xs).contains key = true →
      ((insertAll (HashTable.new loadFactor hashFunc initialSize) xs).insert key value).size =
        (insertAll (HashTable.new loadFactor hashFunc initialSize) xs).size := by
  have hwf : WF (HashTable.new loadFactor hashFunc initialSize : HashTable K V) :=
    WF_new loadFactor hashFunc hsize
  refine ⟨size_insertAll_new loadFactor hashFunc hsize xs, ?_⟩
  intro key value hc
  have h1 := (insert_spec (insertAll_wf hwf xs) key value).2.2.1
  have h2 : ((insertAll (HashTable.new loadFactor hashFunc initialSize) xs).find key).isSome := by
    unfold HashTable.contains at hc
    by_contra hn
    rw [if_neg hn] at hc
    cases hc
  rw [h1, if_pos h2]

theorem size_after_inserts_witness :
    1 ≤ 2 ∧
    (insertAll (HashTable.new (Threshold.exact (4 / 5)) (fun k : Nat => k) 2)
      [(1, 10), (3, 30), (1, 11), (5, 50)]).size =
        (([(1, 10), (3, 30), (1, 11), (5, 50)] : List (Nat × Nat)).map Prod.fst).toFinset.card :=
  ⟨by decide,
   (size_after_inserts (Threshold.exact (4 / 5)) (fun k : Nat => k) 2 (by decide)
      [(1, 10), (3, 30), (1, 11), (5, 50)]).1⟩

/-! ## Contract of erase -/

/-- C3 (erase removes the key): for every reachable table and key, after `erase(key)` the
key is not contained; when it was contained before, `size` is one less than before, and when
it was not, `size` is unchanged. -/
theorem erase_contains_size [Inhabited V] (t : HashTable K V) (ht : Reachable t) (key : K) :
    (t.erase key).contains key = false ∧
    (t.contains key = true → (t.erase key).size + 1 = t.size) ∧
    (t.contains key = false → (t.erase key).size = t.size) := by
  have hwf := ht.wf
  obtain ⟨_, _, hsz, _⟩ := erase_spec hwf key
  refine ⟨?_, ?_, ?_⟩
  · unfold HashTable.contains
    rw [find_erase hwf, if_pos rfl]
    rfl
  · intro hc
    have h2 : (t.find key).isSome := by
      unfold HashTable.contains at hc
      by_contra hn
      rw [if_neg hn] at hc
      cases hc
    exact (hsz h2).symm
  · intro hc
    have h2 : t.find key = none := by
      unfold HashTable.contains at hc
      cases hf : t.find key with
      | none => rfl
      | some e => rw [hf] at hc; simp at hc
    rw [erase_of_find_none h2]

theorem erase_contains_size_witness :
    Reachable ((HashTable.new (Threshold.exact (4 / 5)) (fun k : Nat => k) 2 :
      HashTable Nat Nat).insert 1 10) ∧
    (((HashTable.new (Threshold.exact (4 / 5)) (fun k : Nat => k) 2 :
      HashTable Nat Nat).insert 1 10).erase 1).contains 1 = false :=
  ⟨Reachable.insert 1 10 (Reachable.new _ _ 2 (by decide)),
   (erase_contains_size _ (Reachable.insert 1 10 (Reachable.new _ _ 2 (by decide))) 1).1⟩

/-- C4 (erase touches only its key): for every reachable table and key, `erase(key)` keeps
the bucket count (the cached one and the length of the bucket vector), `find` returns the
same pair as before for every other key, and when the key is not contained the table after
the call is the table before it. -/
theorem erase_frame [Inhabited V] (t : HashTable K V) (ht : Reachable t) (key : K) :
    (t.erase key).listCount = t.listCount ∧
    (t.erase key).hashTable.length = t.hashTable.length ∧
    (∀ k, k ≠ key → (t.erase key).find k = t.find k) ∧
    (t.contains key = false → t.erase key = t) := by
  have hwf := ht.wf
  refine ⟨erase_listCount t key, erase_length t key, ?_, ?_⟩
  · intro k hk
    rw [find_erase hwf, if_neg hk]
  · intro hc
    have h2 : t.find key = none := by
      unfold HashTable.contains at hc
      cases hf : t.find key with
      | none => rfl
      | some e => rw [hf] at hc; simp at hc
    exact erase_of_find_none h2

theorem erase_frame_witness :
    Reachable ((HashTable.new (Threshold.exact (4 / 5)) (fun k : Nat => k) 2 :
      HashTable Nat Nat).insert 1 10) ∧
    (((HashTable.new (Threshold.exact (4 / 5)) (fun k : Nat => k) 2 :
      HashTable Nat Nat).insert 1 10).erase 1).listCount =
      ((HashTable.new (Threshold.exact (4 / 5)) (fun k : Nat => k) 2 :
      HashTable Nat Nat).insert 1 10).listCount :=
  ⟨Reachable.insert 1 10 (Reachable.new _ _ 2 (by decide)),
   (erase_frame _ (Reachable.insert 1 10 (Reachable.new _ _ 2 (by decide))) 1).1⟩

/-! ## References returned by the index operator -/

theorem find?_modify_offsetOf {key : K} {l : List (K × V)} {i : Nat}
    (h : HashTable.offsetOf key l = some i) (value : V) :
    (List.modify (fun pair => (pair.1, value)) i l).find? (fun pair => pair.1 = key) =
      some (key, value) := by
  induction l generalizing i with
  | nil => simp [HashTable.offsetOf] at h
  | cons p rest ih =>
    by_cases hp : p.1 = key
    · simp only [HashTable.offsetOf, hp, if_true, Option.some.injEq] at h
      subst h
      simp [hp]
    · simp only [HashTable.offsetOf, hp, if_false, Option.map_eq_some'] at h
      obtain ⟨j, hj, rfl⟩ := h
      simp [List.find?_cons, hp, ih hj]

theorem find_assign {t : HashTable K V} (h : WF t) {key : K} {i : Nat}
    (ho : HashTable.offsetOf key (bucketAt t.hashTable (t.hashFunction key % t.listCount)) =
      some i) (value : V) :
    (t.assign ⟨t.hashFunction key % t.listCount, i⟩ value).find key = some (key, value) := by
  show (bucketAt (t.hashTable.set _ _) _).find? _ = _
  rw [bucketAt_set, if_pos ⟨rfl, h.index_lt key⟩]
  exact find?_modify_offsetOf ho value

theorem pairAt_of_offsetOf {t : HashTable K V} {key : K} {i : Nat}
    (ho : HashTable.offsetOf key (bucketAt t.hashTable (t.hashFunction key % t.listCount)) =
      some i) :
    t.pairAt ⟨t.hashFunction key % t.listCount, i⟩ = t.find key := by
  unfold HashTable.pairAt HashTable.find
  exact (offsetOf_some ho).2.1

theorem find_eq_pairAt_findSlot (t : HashTable K V) (key : K) :
    t.find key = (t.findSlot key).bind t.pairAt := by
  show _ = (Option.map _ (HashTable.offsetOf key
    (bucketAt t.hashTable (t.hashFunction key % t.listCount)))).bind _
  cases ho : HashTable.offsetOf key (bucketAt t.hashTable (t.hashFunction key % t.listCount)) with
  | none =>
    simp only [Option.map_none', Option.none_bind]
    exact (find_none_iff_bucket t key).2 ((offsetOf_eq_none_iff key _).1 ho)
  | some i =>
    simp only [Option.map_some', Option.some_bind]
    exact (pairAt_of_offsetOf ho).symm

/-- C5 (index operator): for every reachable table and key. When the key is contained,
`operator[]` leaves the table as it is and returns a reference into the pair that `find`
returns. When the key is not contained, the table afterwards is the table after
`insert(key, ValueType())`, its size is one more, the reference is into the pair that
`find(key)` locates in that final table, that pair is `(key, ValueType())`, and an
assignment of `v` through the reference makes `find(key)` return `(key, v)`. -/
theorem index_contract [Inhabited V] (t : HashTable K V) (ht : Reachable t) (key : K) :
    (t.contains key = true →
      (t.index key).1 = t ∧
      ∃ s, (t.index key).2 = some s ∧ t.findSlot key = some s ∧ t.pairAt s = t.find key ∧
        ∀ v, ((t.index key).1.assign s v).find key = some (key, v)) ∧
    (t.contains key = false →
      (t.index key).1 = t.insert key default ∧
      (t.index key).1.size = t.size + 1 ∧
      (t.index key).2 = (t.index key).1.findSlot key ∧
      ∃ s, (t.index key).2 = some s ∧
        (t.index key).1.pairAt s = some (key, default) ∧
        (t.index key).1.find key = some (key, default) ∧
        ∀ v, ((t.index key).1.assign s v).find key = some (key, v)) := by
  have hwf := ht.wf
  have hiff := offsetOf_isSome_iff_find t key
  constructor
  · intro hc
    have h2 : (t.find key).isSome := by
      unfold HashTable.contains at hc
      by_contra hn
      rw [if_neg hn] at hc
      cases hc
    rw [h2] at hiff
    obtain ⟨i, ho⟩ := Option.isSome_iff_exists.1 hiff
    rw [index_of_some ho]
    refine ⟨rfl, _, rfl, ?_, pairAt_of_offsetOf ho, fun v => find_assign hwf ho v⟩
    simp only [HashTable.findSlot, ho, Option.map_some']
  · intro hc
    have h2 : t.find key = none := by
      unfold HashTable.contains at hc
      cases hf : t.find key with
      | none => rfl
      | some e => rw [hf] at hc; simp at hc
    rw [h2] at hiff
    have ho : HashTable.offsetOf key
        (bucketAt t.hashTable (t.hashFunction key % t.listCount)) = none := by
      cases hx : HashTable.offsetOf key
          (bucketAt t.hashTable (t.hashFunction key % t.listCount)) with
      | none => rfl
      | some i => rw [hx] at hiff; simp at hiff
    obtain ⟨hwf1, _, hsz, _⟩ := insert_spec hwf key (default : V)
    have hfind : (t.insert key default).find key = some (key, default) := by
      rw [find_insert hwf, if_pos rfl]
    have hiff1 := offsetOf_isSome_iff_find (t.insert key default) key
    rw [hfind] at hiff1
    obtain ⟨j, hj⟩ := Option.isSome_iff_exists.1 hiff1
    rw [index_of_none ho]
    refine ⟨rfl, ?_, rfl, ⟨_, j⟩, ?_, ?_, hfind, fun v => find_assign hwf1 hj v⟩
    · simp only [hsz, h2]
      rfl
    · simp only [HashTable.findSlot, hj, Option.map_some']
    · rw [pairAt_of_offsetOf hj, hfind]

theorem index_contract_witness :
    Reachable ((HashTable.new (Threshold.exact (4 / 5)) (fun k : Nat => k) 2 :
      HashTable Nat Nat).insert 1 10) ∧
    ((HashTable.new (Threshold.exact (4 / 5)) (fun k : Nat => k) 2 :
      HashTable Nat Nat).insert 1 10).contains 1 = true ∧
    (((HashTable.new (Threshold.exact (4 / 5)) (fun k : Nat => k) 2 :
      HashTable Nat Nat).insert 1 10).index 1).1 =
      (HashTable.new (Threshold.exact (4 / 5)) (fun k : Nat => k) 2 :
      HashTable Nat Nat).insert 1 10 := by
  have hr : Reachable ((HashTable.new (Threshold.exact (4 / 5)) (fun k : Nat => k) 2 :
      HashTable Nat Nat).insert 1 10) :=
    Reachable.insert 1 10 (Reachable.new _ _ 2 (by decide))
  have hc : ((HashTable.new (Threshold.exact (4 / 5)) (fun k : Nat => k) 2 :
      HashTable Nat Nat).insert 1 10).contains 1 = true := by
    simp [HashTable.contains, HashTable.find, HashTable.insert, HashTable.new, bucketAt,
      overwrite, pushFront, Threshold.exact]
    norm_num
  exact ⟨hr, hc, ((index_contract _ hr 1).1 hc).1⟩

/-! ## Rehash and traversal -/

omit [DecidableEq K] in
/-- C6 (Rehash preserves the contents): for every table state with a bucket count of at
least one (unique keys or not), the multiset of stored pairs over all buckets after
`Rehash()` is the multiset before it, and `size` is unchanged. -/
theorem Rehash_preserves_contents (t : HashTable K V) (hcount : 1 ≤ t.listCount) :
    ((Rehash t).hashTable.flatten : Multiset (K × V)) = (t.hashTable.flatten : Multiset (K × V)) ∧
    (Rehash t).size = t.size :=
  ⟨Multiset.coe_eq_coe.2 (Rehash_spec t hcount).2.1, rfl⟩

theorem Rehash_preserves_contents_witness :
    1 ≤ 2 ∧
    ((Rehash ⟨[[(2, 20), (4, 40)], [(1, 10)]], fun k : Nat => k, 3, 2,
        Threshold.exact (4 / 5)⟩).hashTable.flatten : Multiset (Nat × Nat)) =
      ([(2, 20), (4, 40), (1, 10)] : List (Nat × Nat)) :=
  ⟨by decide,
   (Rehash_preserves_contents (⟨[[(2, 20), (4, 40)], [(1, 10)]], fun k : Nat => k, 3, 2,
        Threshold.exact (4 / 5)⟩ : HashTable Nat Nat) (by decide)).1⟩

/-- C8 (forward traversal): for every reachable table, `size` applications of `operator++`
to `begin()` give `end()` and no fewer do; the iterator after `k < size` steps denotes a
stored pair (it is not an end-of-bucket position) and dereferences to the `k`-th pair of the
concatenation of the buckets in increasing index, each bucket front to back; so the pairs
visited are exactly the stored pairs, each once. -/
theorem forward_traversal [Inhabited V] (t : HashTable K V) (ht : Reachable t) :
    (t.advance)^[t.size] t.begin = t.end_ ∧
    (∀ k, k < t.size →
      (t.advance)^[k] t.begin ≠ t.end_ ∧
      Dereferenceable t ((t.advance)^[k] t.begin) ∧
      t.deref ((t.advance)^[k] t.begin) = t.hashTable.flatten[k]?) ∧
    (List.range t.size).map (fun k => t.deref ((t.advance)^[k] t.begin)) =
      t.hashTable.flatten.map some := by
  have hwf := ht.wf
  have hlen : 1 ≤ t.hashTable.length := by rw [hwf.length_eq]; exact hwf.pos
  have hstep := traversal_step t hlen hwf.size_eq
  have hpt : ∀ k, k < t.size →
      (t.advance)^[k] t.begin ≠ t.end_ ∧
      Dereferenceable t ((t.advance)^[k] t.begin) ∧
      t.deref ((t.advance)^[k] t.begin) = t.hashTable.flatten[k]? := by
    intro k hk
    obtain ⟨hd, hr⟩ := (hstep k (by omega)).1 hk
    refine ⟨?_, hd, ?_⟩
    · intro he
      rw [he] at hd
      exact not_dereferenceable_end t hd
    · rw [deref_eq t _ hd, hr]
  refine ⟨(hstep t.size (le_refl _)).2 rfl, hpt, ?_⟩
  apply List.ext_getElem?
  intro k
  rw [List.getElem?_map, List.getElem?_map]
  by_cases hk : k < t.size
  · rw [List.getElem?_range hk]
    simp only [Option.map_some']
    rw [(hpt k hk).2.2]
    have : k < t.hashTable.flatten.length := by rw [← hwf.size_eq]; exact hk
    rw [List.getElem?_eq_getElem this]
    rfl
  · have h1 : (List.range t.size)[k]? = none :=
      List.getElem?_eq_none (by rw [List.length_range]; omega)
    have h2 : t.hashTable.flatten[k]? = none :=
      List.getElem?_eq_none (by rw [← hwf.size_eq]; omega)
    rw [h1, h2]
    rfl

theorem forward_traversal_witness :
    Reachable ((HashTable.new (Threshold.exact (4 / 5)) (fun k : Nat => k) 2 :
      HashTable Nat Nat).insert 1 10) ∧
    (((HashTable.new (Threshold.exact (4 / 5)) (fun k : Nat => k) 2 :
      HashTable Nat Nat).insert 1 10).advance)^[((HashTable.new (Threshold.exact (4 / 5))
        (fun k : Nat => k) 2 : HashTable Nat Nat).insert 1 10).size]
      ((HashTable.new (Threshold.exact (4 / 5)) (fun k : Nat => k) 2 :
      HashTable Nat Nat).insert 1 10).begin =
      ((HashTable.new (Threshold.exact (4 / 5)) (fun k : Nat => k) 2 :
      HashTable Nat Nat).insert 1 10).end_ :=
  ⟨Reachable.insert 1 10 (Reachable.new _ _ 2 (by decide)),
   (forward_traversal _ (Reachable.insert 1 10 (Reachable.new _ _ 2 (by decide)))).1⟩

/-- C9 (forward then backward): for every reachable table, `operator++` followed by
`operator--` brings every iterator that denotes a stored pair back to itself, whether the
step stayed in its bucket, crossed empty buckets or arrived at `end()`; in particular this
holds for every iterator reached from `begin()` in fewer than `size` steps. -/
theorem retreat_after_advance [Inhabited V] (t : HashTable K V) (ht : Reachable t) :
    (∀ it, Dereferenceable t it → t.retreat (t.advance it) = it) ∧
    (∀ k, k < t.size →
      t.retreat (t.advance ((t.advance)^[k] t.begin)) = (t.advance)^[k] t.begin) := by
  have hwf := ht.wf
  have hlen : 1 ≤ t.hashTable.length := by rw [hwf.length_eq]; exact hwf.pos
  refine ⟨fun it hd => retreat_advance_of_dereferenceable t it hd, fun k hk => ?_⟩
  exact retreat_advance_of_dereferenceable t _
    ((traversal_step t hlen hwf.size_eq k (by omega)).1 hk).1

theorem retreat_after_advance_witness :
    Reachable ((HashTable.new (Threshold.exact (4 / 5)) (fun k : Nat => k) 2 :
      HashTable Nat Nat).insert 1 10) ∧
    ∀ it, Dereferenceable ((HashTable.new (Threshold.exact (4 / 5)) (fun k : Nat => k) 2 :
      HashTable Nat Nat).insert 1 10) it →
      ((HashTable.new (Threshold.exact (4 / 5)) (fun k : Nat => k) 2 :
        HashTable Nat Nat).insert 1 10).retreat
        (((HashTable.new (Threshold.exact (4 / 5)) (fun k : Nat => k) 2 :
        HashTable Nat Nat).insert 1 10).advance it) = it :=
  ⟨Reachable.insert 1 10 (Reachable.new _ _ 2 (by decide)),
   (retreat_after_advance _ (Reachable.insert 1 10 (Reachable.new _ _ 2 (by decide)))).1⟩

/-! ## Load factor after insert -/

/-- C7, as stated, fails, in three ways. With the threshold 0.25f and one initial bucket, the
first `insert` makes the load factor 1/1, `Rehash()` doubles the bucket count once, and
`insert` returns with one pair in two buckets: the load factor 1/2 is not below 1/4. With
16777219 initial buckets, which `float` cannot represent, and the threshold
`16777213 / 2 ^ 47`, which is above `1 / (2 * 16777219)`, two inserts of distinct keys return
without a rehash, since the binary32 quotient is below the threshold, and the exact ratio
`2 / 16777219` is not below it. With 3145728 initial buckets and the threshold
`5592407 / 2 ^ 20`, the inserts of the keys `0, ..., 2 ^ 24 + 4` return without a rehash,
since `float` cannot represent the last sizes, and the load factor equals the threshold. -/
theorem load_factor_not_below_threshold :
    (((Machine.construct ⟨false, 125, 0⟩ (fun k : Nat => k) 1 : Machine Nat Nat).insertAll
        [((0 : Nat), (0 : Nat))]).map Machine.size = some 1 ∧
      ((Machine.construct ⟨false, 125, 0⟩ (fun k : Nat => k) 1 : Machine Nat Nat).insertAll
        [((0 : Nat), (0 : Nat))]).map Machine.listCount = some 2 ∧
      ((Machine.construct ⟨false, 125, 0⟩ (fun k : Nat => k) 1 : Machine Nat Nat).insertAll
        [((0 : Nat), (0 : Nat))]).map Machine.getLoadFactor = some (1 / 2) ∧
      (⟨false, 125, 0⟩ : Binary32).toRat = 1 / 4 ∧
      ¬ (⟨false, 125, 0⟩ : Binary32).exceeds (1 / 2)) ∧
    (roundNat 16777219 ≠ 16777219 ∧
      (⟨false, 103, 8388605⟩ : Binary32).exceeds (1 / (2 * ((16777219 : Nat) : ℚ))) ∧
      ((Machine.construct ⟨false, 103, 8388605⟩ (fun k : Nat => k) 16777219 :
        Machine Nat Nat).insertAll [(0, 0), (1, 0)]).map Machine.size = some 2 ∧
      ((Machine.construct ⟨false, 103, 8388605⟩ (fun k : Nat => k) 16777219 :
        Machine Nat Nat).insertAll [(0, 0), (1, 0)]).map Machine.listCount = some 16777219 ∧
      ((Machine.construct ⟨false, 103, 8388605⟩ (fun k : Nat => k) 16777219 :
        Machine Nat Nat).insertAll [(0, 0), (1, 0)]).map Machine.getLoadFactor =
        some (2 / 16777219) ∧
      ¬ (⟨false, 103, 8388605⟩ : Binary32).exceeds (2 / 16777219)) ∧
    (roundNat 3145728 = 3145728 ∧
      (⟨false, 129, 2796206⟩ : Binary32).exceeds (1 / (2 * ((3145728 : Nat) : ℚ))) ∧
      ((Machine.construct ⟨false, 129, 2796206⟩ (fun k : Nat => k) 3145728 :
        Machine Nat Nat).insertAll ((List.range 16777221).map (fun k => (k, 0)))).map
        Machine.size = some 16777221 ∧
      ((Machine.construct ⟨false, 129, 2796206⟩ (fun k : Nat => k) 3145728 :
        Machine Nat Nat).insertAll ((List.range 16777221).map (fun k => (k, 0)))).map
        Machine.listCount = some 3145728 ∧
      ((Machine.construct ⟨false, 129, 2796206⟩ (fun k : Nat => k) 3145728 :
        Machine Nat Nat).insertAll ((List.range 16777221).map (fun k => (k, 0)))).map
        Machine.getLoadFactor = some (5592407 / 2 ^ 20) ∧
      ¬ (⟨false, 129, 2796206⟩ : Binary32).exceeds (5592407 / 2 ^ 20)) := by
  obtain ⟨m, hrun, _, hs, hl, hlf⟩ := insertAll_quarter (fun k : Nat => k) (0 : Nat) (0 : Nat)
  obtain ⟨m2, hrun2, hs2, hl2, hlf2⟩ := insertAll_two_inserts_counters
  obtain ⟨m3, hrun3, hs3, hl3, hlf3⟩ := insertAll_large
  rw [hrun, hrun2, hrun3]
  exact ⟨⟨by rw [Option.map_some', hs], by rw [Option.map_some', hl],
      by rw [Option.map_some', hlf], toRat_quarter, not_exceeds_quarter⟩,
    ⟨roundNat_16777219_ne, exceeds_small, by rw [Option.map_some', hs2],
      by rw [Option.map_some', hl2], by rw [Option.map_some', hlf2], not_exceeds_small⟩,
    ⟨roundNat_3145728, exceeds_large, by rw [Option.map_some', hs3],
      by rw [Option.map_some', hl3], by rw [Option.map_some', hlf3], not_exceeds_large⟩⟩

/-- C7, amended: for every initial bucket count `n0` with `1 ≤ n0 ≤ INT_MAX` that converts to
`float` without change, every `float` threshold `t` that is not a NaN and is above
`1 / (2 * n0)`, and every hash function: a sequence of `insert` calls on the new table
returns when `n0 * 2 ^ (number of calls)` fits in an `int`, and whenever it returns with a
size of at most `2 ^ 24`, the load factor `size / listCount`, as an exact ratio, is below
`t`. -/
theorem load_factor_below_threshold (thr : Binary32) (hashFunc : K → Nat) (initialSize : Nat)
    (hsize : 1 ≤ initialSize) (hmax : initialSize ≤ 2147483647)
    (hexact : roundNat initialSize = initialSize)
    (hthr : thr.exceeds (1 / (2 * (initialSize : ℚ)))) (xs : List (K × V)) :
    (initialSize * 2 ^ xs.length ≤ 2147483647 →
      ((Machine.construct thr hashFunc initialSize : Machine K V).insertAll xs).isSome =
        true) ∧
    ∀ m : Machine K V,
      (Machine.construct thr hashFunc initialSize : Machine K V).insertAll xs = some m →
      m.size ≤ 16777216 → thr.exceeds m.getLoadFactor := by
  refine ⟨fun hshort => ?_, fun m hrun hm => ?_⟩
  · rw [insertAll_construct_of_short thr hashFunc hsize xs hshort]
    rfl
  · exact machine_insertAll_exceeds thr hashFunc hsize hmax hexact hthr xs hrun hm

theorem load_factor_below_threshold_witness :
    1 ≤ 10 ∧ 10 ≤ 2147483647 ∧ roundNat 10 = 10 ∧
    Binary32.defaultLoadFactor.exceeds (1 / (2 * ((10 : Nat) : ℚ))) ∧
    ((Machine.construct Binary32.defaultLoadFactor (fun k : Nat => k) 10 :
      Machine Nat Nat).insertAll [((1 : Nat), (10 : Nat)), (2, 20), (1, 11)]).isSome = true ∧
    (Machine.construct Binary32.defaultLoadFactor (fun k : Nat => k) 10 :
      Machine Nat Nat).insertAll [((1 : Nat), (10 : Nat)), (2, 20), (1, 11)] =
      some ((insertAll (HashTable.new (Threshold.binary32 Binary32.defaultLoadFactor)
        (fun k : Nat => k) 10) [((1 : Nat), (10 : Nat)), (2, 20), (1, 11)]).toMachine
          Binary32.defaultLoadFactor) ∧
    Binary32.defaultLoadFactor.exceeds
      ((insertAll (HashTable.new (Threshold.binary32 Binary32.defaultLoadFactor)
        (fun k : Nat => k) 10) [((1 : Nat), (10 : Nat)), (2, 20), (1, 11)]).toMachine
          Binary32.defaultLoadFactor).getLoadFactor :=
  have h3 : roundNat 10 = 10 := roundNat_of_lt (by norm_num)
  have h4 : Binary32.defaultLoadFactor.exceeds (1 / (2 * ((10 : Nat) : ℚ))) :=
    exceeds_default _ (by norm_num)
  have hrun := insertAll_construct_of_short Binary32.defaultLoadFactor (fun k : Nat => k)
    (show 1 ≤ 10 by norm_num) [((1 : Nat), (10 : Nat)), (2, 20), (1, 11)] (by norm_num)
  ⟨by norm_num, by norm_num, h3, h4,
   (load_factor_below_threshold Binary32.defaultLoadFactor (fun k : Nat => k) 10
      (by norm_num) (by norm_num) h3 h4 [((1 : Nat), (10 : Nat)), (2, 20), (1, 11)]).1
      (by norm_num),
   hrun,
   (load_factor_below_threshold Binary32.defaultLoadFactor (fun k : Nat => k) 10
      (by norm_num) (by norm_num) h3 h4 [((1 : Nat), (10 : Nat)), (2, 20), (1, 11)]).2 _ hrun
      (Nat.le_trans (size_insertAll_new_toMachine_le _ _ _ _) (by decide))⟩

/-! ## Nine distinct keys in the default table -/

/-- C10 (nine distinct keys): for every hash function, the `insert` calls of any 9 pairs
with pairwise distinct keys on the new table with 10 buckets and threshold 0.8 call
`Rehash()` exactly once in total, leave the bucket count at 20, and afterwards `find`
returns every one of the 9 keys with the value it was inserted with. -/
theorem nine_distinct_inserts (hashFunc : K → Nat) (xs : List (K × V))
    (hlen : xs.length = 9) (hnd : (xs.map Prod.fst).Nodup) :
    rehashCount (HashTable.new (Threshold.exact (4 / 5)) hashFunc 10) xs = 1 ∧
    (insertAll (HashTable.new (Threshold.exact (4 / 5)) hashFunc 10) xs).listCount = 20 ∧
    ∀ p ∈ xs,
      (insertAll (HashTable.new (Threshold.exact (4 / 5)) hashFunc 10) xs).find p.1 = some p := by
  have hsplit : xs.take 7 ++ xs.drop 7 = xs := List.take_append_drop 7 xs
  have h7 : (xs.take 7).length = 7 := by rw [List.length_take, hlen]; rfl
  have h2 : (xs.drop 7).length = 2 := by rw [List.length_drop, hlen]
  obtain ⟨a, b, hab⟩ := List.length_eq_two.1 h2
  rw [hab] at hsplit
  have hc := nine_inserts_counters hashFunc (xs.take 7) a b h7 (by rw [hsplit]; exact hnd)
  rw [hsplit] at hc
  refine ⟨hc.1, hc.2, ?_⟩
  intro p hp
  obtain ⟨pre, post, hpp⟩ := List.append_of_mem hp
  have hpost : ∀ q ∈ post, q.1 ≠ p.1 := by
    intro q hq he
    rw [hpp, List.map_append, List.map_cons, List.nodup_append] at hnd
    have := (List.nodup_cons.1 hnd.2.1).1
    exact this (he ▸ List.mem_map.2 ⟨q, hq, rfl⟩)
  have := find_insertAll_new_some (Threshold.exact (4 / 5)) hashFunc
    (by decide : 1 ≤ 10) pre post p.1 p.2 hpost
  rw [Prod.mk.eta, ← hpp] at this
  exact this

theorem nine_distinct_inserts_witness :
    ([((1 : Nat), (10 : Nat)), (2, 20), (3, 30), (4, 40), (5, 50), (6, 60), (7, 70), (8, 80),
      (9, 90)] : List (Nat × Nat)).length = 9 ∧
    (([((1 : Nat), (10 : Nat)), (2, 20), (3, 30), (4, 40), (5, 50), (6, 60), (7, 70), (8, 80),
      (9, 90)] : List (Nat × Nat)).map Prod.fst).Nodup ∧
    rehashCount (HashTable.new (Threshold.exact (4 / 5)) (fun k : Nat => k) 10)
      [((1 : Nat), (10 : Nat)), (2, 20), (3, 30), (4, 40), (5, 50), (6, 60), (7, 70), (8, 80),
      (9, 90)] = 1 ∧
    (insertAll (HashTable.new (Threshold.exact (4 / 5)) (fun k : Nat => k) 10)
      [((1 : Nat), (10 : Nat)), (2, 20), (3, 30), (4, 40), (5, 50), (6, 60), (7, 70), (8, 80),
      (9, 90)]).listCount = 20 :=
  ⟨by decide, by decide,
   (nine_distinct_inserts (fun k : Nat => k) _ (by decide) (by decide)).1,
   (nine_distinct_inserts (fun k : Nat => k)
      [((1 : Nat), (10 : Nat)), (2, 20), (3, 30), (4, 40), (5, 50), (6, 60), (7, 70), (8, 80),
      (9, 90)] (by decide) (by decide)).2.1⟩

/-! ## The two branches of insert -/

theorem run_listCount [Inhabited V] (ops : List (Op K V)) :
    ∀ t : HashTable K V, (run t ops).listCount = t.listCount * 2 ^ rehashesDuring t ops := by
  induction ops with
  | nil => intro t; simp [run, rehashesDuring]
  | cons op ops ih =>
    intro t
    rw [run_cons, ih, (apply_counters t op).1]
    simp only [rehashesDuring]
    rw [Nat.mul_assoc, ← Nat.pow_add]

/-- C12 (unique keys): in every reachable table the keys of the stored pairs, taken over all
buckets, are pairwise distinct: no key occurs in more than one stored pair. -/
theorem keys_unique [Inhabited V] (t : HashTable K V) (ht : Reachable t) :
    (t.hashTable.flatten.map Prod.fst).Nodup ∧
    ∀ key, (t.hashTable.flatten.map Prod.fst).count key ≤ 1 := by
  have hnd := ht.wf.nodup
  exact ⟨hnd, fun key => List.nodup_iff_count_le_one.1 hnd key⟩

theorem keys_unique_witness :
    Reachable ((HashTable.new (Threshold.exact (4 / 5)) (fun k : Nat => k) 2 :
      HashTable Nat Nat).insert 1 10) ∧
    (((HashTable.new (Threshold.exact (4 / 5)) (fun k : Nat => k) 2 :
      HashTable Nat Nat).insert 1 10).hashTable.flatten.map Prod.fst).Nodup :=
  ⟨Reachable.insert 1 10 (Reachable.new _ _ 2 (by decide)),
   (keys_unique _ (Reachable.insert 1 10 (Reachable.new _ _ 2 (by decide)))).1⟩

/-- C13 (size counter): in every reachable table `size` is the sum of the lengths of the
buckets, and `empty()` is true exactly when every bucket is empty. -/
theorem size_is_sum_of_buckets [Inhabited V] (t : HashTable K V) (ht : Reachable t) :
    t.size = (t.hashTable.map List.length).sum ∧
    (t.empty = true ↔ ∀ b ∈ t.hashTable, b = []) := by
  have hsz := ht.wf.size_eq
  refine ⟨by rw [hsz, List.length_flatten], ?_⟩
  unfold HashTable.empty
  rw [beq_iff_eq, hsz, List.length_eq_zero]
  constructor
  · intro h b hb
    apply List.eq_nil_iff_forall_not_mem.2
    intro e he
    have : e ∈ t.hashTable.flatten := List.mem_flatten.2 ⟨b, hb, he⟩
    rw [h] at this
    cases this
  · intro h
    apply List.eq_nil_iff_forall_not_mem.2
    intro e he
    obtain ⟨b, hb, heb⟩ := List.mem_flatten.1 he
    rw [h b hb] at heb
    cases heb

theorem size_is_sum_of_buckets_witness :
    Reachable ((HashTable.new (Threshold.exact (4 / 5)) (fun k : Nat => k) 2 :
      HashTable Nat Nat).insert 1 10) ∧
    ((HashTable.new (Threshold.exact (4 / 5)) (fun k : Nat => k) 2 :
      HashTable Nat Nat).insert 1 10).size =
      (((HashTable.new (Threshold.exact (4 / 5)) (fun k : Nat => k) 2 :
      HashTable Nat Nat).insert 1 10).hashTable.map List.length).sum :=
  ⟨Reachable.insert 1 10 (Reachable.new _ _ 2 (by decide)),
   (size_is_sum_of_buckets _ (Reachable.insert 1 10 (Reachable.new _ _ 2 (by decide)))).1⟩

/-- C16 (placement): in every reachable table every stored pair is in the bucket whose index
is the hash of its key modulo the current bucket count; and `Rehash()`, run on any table
with at least one bucket, leaves every pair in the bucket given by the doubled count. -/
theorem pairs_placed [Inhabited V] (t : HashTable K V) (ht : Reachable t) :
    (∀ i e, e ∈ bucketAt t.hashTable i → i = t.hashFunction e.1 % t.listCount) ∧
    (∀ t0 : HashTable K V, 1 ≤ t0.listCount →
      (Rehash t0).listCount = 2 * t0.listCount ∧
      ∀ i e, e ∈ bucketAt (Rehash t0).hashTable i →
        i = (Rehash t0).hashFunction e.1 % (Rehash t0).listCount) := by
  refine ⟨fun i e he => (ht.wf.placed i e he).symm, ?_⟩
  intro t0 h0
  refine ⟨by rw [Rehash_listCount, Nat.mul_comm], ?_⟩
  intro i e he
  rw [Rehash_listCount, Rehash_hashFunction]
  exact ((Rehash_spec t0 h0).2.2 i e he).symm

theorem pairs_placed_witness :
    Reachable ((HashTable.new (Threshold.exact (4 / 5)) (fun k : Nat => k) 2 :
      HashTable Nat Nat).insert 1 10) ∧
    ∀ i e, e ∈ bucketAt ((HashTable.new (Threshold.exact (4 / 5)) (fun k : Nat => k) 2 :
      HashTable Nat Nat).insert 1 10).hashTable i →
      i = ((HashTable.new (Threshold.exact (4 / 5)) (fun k : Nat => k) 2 :
      HashTable Nat Nat).insert 1 10).hashFunction e.1 %
        ((HashTable.new (Threshold.exact (4 / 5)) (fun k : Nat => k) 2 :
      HashTable Nat Nat).insert 1 10).listCount :=
  ⟨Reachable.insert 1 10 (Reachable.new _ _ 2 (by decide)),
   (pairs_placed _ (Reachable.insert 1 10 (Reachable.new _ _ 2 (by decide)))).1⟩

/-- C17, as stated, fails: the constructor stores its `initialSize` argument as the bucket
count without a check, so constructing with `initialSize = 0` gives a bucket count of 0,
before any call and after the empty sequence of calls. The bucket count is also below one
after the constructor has narrowed `initialSize = 4294967296` to the `int` 0 and
`initialSize = 2147483648` to the `int` -2147483648. -/
theorem listCount_zero_after_construction :
    (Machine.construct Binary32.defaultLoadFactor (fun k : Nat => k) 0 :
      Machine Nat Nat).listCount = 0 ∧
    ((Machine.construct Binary32.defaultLoadFactor (fun k : Nat => k) 0 :
      Machine Nat Nat).run []).map Machine.listCount = some 0 ∧
    ¬ 1 ≤ (Machine.construct Binary32.defaultLoadFactor (fun k : Nat => k) 0 :
      Machine Nat Nat).listCount ∧
    (Machine.construct Binary32.defaultLoadFactor (fun k : Nat => k) 4294967296 :
      Machine Nat Nat).listCount = 0 ∧
    (Machine.construct Binary32.defaultLoadFactor (fun k : Nat => k) 2147483648 :
      Machine Nat Nat).listCount = -2147483648 :=
  ⟨rfl, rfl, by decide, (construct_listCount _ _ _).trans narrowToInt_4294967296,
   (construct_listCount _ _ _).trans narrowToInt_2147483648⟩

/-- C17, amended: for every table produced by the constructor with any `float` threshold, any
hash function and an initial bucket count `n0` with `1 ≤ n0 ≤ INT_MAX`, and every sequence of
calls of `insert`, `erase`, `operator[]` and `clear` (the other public members change no data
member): the calls return when `n0 * 2 ^ (number of calls)` fits in an `int`, and whenever
they return, the bucket count `listCount` is at least one. -/
theorem listCount_pos [Inhabited V] (thr : Binary32) (hashFunc : K → Nat) (initialSize : Nat)
    (hsize : 1 ≤ initialSize) (hmax : initialSize ≤ 2147483647) (ops : List (Op K V)) :
    (initialSize * 2 ^ ops.length ≤ 2147483647 →
      ((Machine.construct thr hashFunc initialSize : Machine K V).run ops).isSome = true) ∧
    ∀ m : Machine K V,
      (Machine.construct thr hashFunc initialSize : Machine K V).run ops = some m →
      1 ≤ m.listCount := by
  refine ⟨fun hshort => ?_, fun m hrun => ?_⟩
  · rw [run_construct_of_short thr hashFunc hsize ops hshort]
    rfl
  · obtain ⟨hm, _⟩ := run_construct_eq_some thr hashFunc hsize hmax hrun
    rw [hm]
    show (1 : Int) ≤ ((run (HashTable.new (Threshold.binary32 thr) hashFunc initialSize)
      ops).listCount : Int)
    have hpos := (WF_run (WF_new (Threshold.binary32 thr) hashFunc hsize) ops).pos
    exact_mod_cast hpos

theorem listCount_pos_witness :
    1 ≤ 10 ∧ 10 ≤ 2147483647 ∧
    ((Machine.construct Binary32.defaultLoadFactor (fun k : Nat => k) 10 :
      Machine Nat Nat).run [Op.insert 1 10, Op.erase 1, Op.index 2, Op.clear]).isSome = true ∧
    (Machine.construct Binary32.defaultLoadFactor (fun k : Nat => k) 10 :
      Machine Nat Nat).run [Op.insert 1 10, Op.erase 1, Op.index 2, Op.clear] =
      some ((run (HashTable.new (Threshold.binary32 Binary32.defaultLoadFactor)
        (fun k : Nat => k) 10) [Op.insert 1 10, Op.erase 1, Op.index 2, Op.clear]).toMachine
          Binary32.defaultLoadFactor) ∧
    1 ≤ ((run (HashTable.new (Threshold.binary32 Binary32.defaultLoadFactor)
        (fun k : Nat => k) 10) [Op.insert 1 10, Op.erase 1, Op.index 2, Op.clear]).toMachine
          Binary32.defaultLoadFactor : Machine Nat Nat).listCount :=
  have hrun := run_construct_of_short Binary32.defaultLoadFactor (fun k : Nat => k)
    (show 1 ≤ 10 by decide) [Op.insert (1 : Nat) (10 : Nat), Op.erase 1, Op.index 2, Op.clear]
    (by decide)
  ⟨by decide, by decide,
   (listCount_pos Binary32.defaultLoadFactor (fun k : Nat => k) 10 (by decide) (by decide)
      [Op.insert (1 : Nat) (10 : Nat), Op.erase 1, Op.index 2, Op.clear]).1 (by decide),
   hrun,
   (listCount_pos Binary32.defaultLoadFactor (fun k : Nat => k) 10 (by decide) (by decide)
      [Op.insert (1 : Nat) (10 : Nat), Op.erase 1, Op.index 2, Op.clear]).2 _ hrun⟩

/-- C18, at a failing input: after the constructor with `initialSize = 2147483648` the cached
`listCount` is -2147483648 while the bucket vector has 2147483648 buckets, so `listCount` is
not the length of the vector, and for a key whose hash is 2147483648 the index
`hash % listCount`, computed in `size_t`, is 2147483648, outside the vector: `find`,
`insert`, `erase` and `operator[]` have no defined result. Likewise, from
`initialSize = 1073741824` with the threshold `2 ^ (-30)`, the first `insert` reaches the
threshold and the doubling `listCount *= 2` in `Rehash()` overflows the `int`. -/
theorem listCount_differs_from_vector_length :
    (Machine.construct Binary32.defaultLoadFactor (fun k : Nat => k) 2147483648 :
      Machine Nat Nat).listCount = -2147483648 ∧
    (Machine.construct Binary32.defaultLoadFactor (fun k : Nat => k) 2147483648 :
      Machine Nat Nat).hashTable.length = 2147483648 ∧
    (Machine.construct Binary32.defaultLoadFactor (fun k : Nat => k) 2147483648 :
      Machine Nat Nat).listIndex 2147483648 = none ∧
    (Machine.construct Binary32.defaultLoadFactor (fun k : Nat => k) 2147483648 :
      Machine Nat Nat).find 2147483648 = none ∧
    (Machine.construct Binary32.defaultLoadFactor (fun k : Nat => k) 2147483648 :
      Machine Nat Nat).insert 2147483648 0 = none ∧
    (Machine.construct Binary32.defaultLoadFactor (fun k : Nat => k) 2147483648 :
      Machine Nat Nat).erase 2147483648 = none ∧
    (Machine.construct Binary32.defaultLoadFactor (fun k : Nat => k) 2147483648 :
      Machine Nat Nat).index 2147483648 = none ∧
    (Machine.construct ⟨false, 97, 0⟩ (fun k : Nat => k) 1073741824 :
      Machine Nat Nat).insert 0 0 = none :=
  have hidx := listIndex_narrowed (V := Nat) Binary32.defaultLoadFactor (fun k : Nat => k)
    2147483648 rfl
  ⟨(construct_listCount _ _ _).trans narrowToInt_2147483648, construct_length _ _ _, hidx,
   find_of_listIndex_none hidx, insert_of_listIndex_none 0 hidx, erase_of_listIndex_none hidx,
   index_of_listIndex_none hidx,
   insert_overflow ⟨false, 97, 0⟩ (fun k : Nat => k) 0 0 reached_one_of_1073741824⟩

/-- Within the range of `int` the cached bucket count is the length of the bucket vector: for
every table made by the constructor with `1 ≤ n0 ≤ INT_MAX` initial buckets and then any
sequence of calls that return, `listCount` is the length of the vector and is `n0 * 2 ^ r`
for the number `r` of `Rehash()` calls made, and `hash(key) % listCount` is a valid index of
the vector for every key. -/
theorem listCount_eq_length_of_run [Inhabited V] (thr : Binary32) (hashFunc : K → Nat)
    (initialSize : Nat) (hsize : 1 ≤ initialSize) (hmax : initialSize ≤ 2147483647)
    (ops : List (Op K V)) (m : Machine K V)
    (hrun : (Machine.construct thr hashFunc initialSize : Machine K V).run ops = some m) :
    m.listCount = (m.hashTable.length : Int) ∧
    m.listCount = ((initialSize * 2 ^ rehashesDuring
      (HashTable.new (Threshold.binary32 thr) hashFunc initialSize) ops : Nat) : Int) ∧
    ∀ key, ∃ i, m.listIndex key = some i ∧ i < m.hashTable.length ∧
      (i : Int) = (hashFunc key : Int) % m.listCount := by
  obtain ⟨hm, hle⟩ := run_construct_eq_some thr hashFunc hsize hmax hrun
  have hwf := WF_run (WF_new (Threshold.binary32 thr) hashFunc hsize) ops
  have hcount := run_listCount ops (HashTable.new (Threshold.binary32 thr) hashFunc initialSize)
  have hhash : (run (HashTable.new (Threshold.binary32 thr) hashFunc initialSize)
      ops).hashFunction = hashFunc := by
    clear hrun hm hle hwf hcount
    induction ops using List.reverseRecOn with
    | nil => rfl
    | append_singleton ops op ih =>
      rw [run_append, run_cons]
      show (Op.apply _ op).hashFunction = _
      rw [(apply_counters _ op).2.2.2.1]
      exact ih
  rw [hm]
  refine ⟨?_, ?_, ?_⟩
  · rw [toMachine_listCount]
    show _ = (((run _ ops).hashTable.length : Nat) : Int)
    rw [hwf.length_eq]
  · rw [toMachine_listCount, hcount]
    rfl
  · intro key
    refine ⟨_, listIndex_toMachine thr hwf hle key, ?_, ?_⟩
    · exact hwf.index_lt key
    · rw [toMachine_listCount, hhash]
      exact Int.natCast_mod _ _

/-! ## Positions of begin and end, and backward traversal -/

omit [DecidableEq K] in
theorem empty_eq_false_iff (t : HashTable K V) : t.empty = false ↔ t.size ≠ 0 := by
  unfold HashTable.empty
  simp

/-- C14 (begin and end): for every reachable table, `end()` is the iterator at the last
bucket index with that bucket's end marker, whether the bucket is empty or not; when the
table is empty `begin()` is `end()`; otherwise `begin()` is at offset 0 of a non-empty bucket
inside the bucket vector, every bucket before it is empty, it dereferences to the first pair
of that bucket, and it differs from `end()`. -/
theorem begin_end_positions [Inhabited V] (t : HashTable K V) (ht : Reachable t) :
    t.end_ = ⟨t.hashTable.length - 1, (bucketAt t.hashTable (t.hashTable.length - 1)).length⟩ ∧
    t.end_.tableIterator < t.hashTable.length ∧
    (t.empty = true → t.begin = t.end_) ∧
    (t.empty = false →
      t.begin.listIterator = 0 ∧
      t.begin.tableIterator < t.hashTable.length ∧
      bucketAt t.hashTable t.begin.tableIterator ≠ [] ∧
      (∀ m, m < t.begin.tableIterator → bucketAt t.hashTable m = []) ∧
      t.deref t.begin = (bucketAt t.hashTable t.begin.tableIterator).head? ∧
      t.begin ≠ t.end_) := by
  have hwf := ht.wf
  have hlen : 1 ≤ t.hashTable.length := by rw [hwf.length_eq]; exact hwf.pos
  refine ⟨rfl, ?_, ?_, ?_⟩
  · show t.hashTable.length - 1 < t.hashTable.length
    omega
  · intro he
    have h0 : t.size = 0 := by
      unfold HashTable.empty at he
      exact beq_iff_eq.1 he
    exact (begin_spec t hwf.size_eq).1 h0
  · intro he
    have hne := (empty_eq_false_iff t).1 he
    obtain ⟨h1, h2, h3, h4, h5⟩ := begin_shape t hwf.size_eq hne
    refine ⟨h1, h2, h3, h4, ?_, h5⟩
    unfold HashTable.deref
    rw [h1]
    cases bucketAt t.hashTable t.begin.tableIterator <;> simp

theorem begin_end_positions_witness :
    Reachable ((HashTable.new (Threshold.exact (4 / 5)) (fun k : Nat => k) 2 :
      HashTable Nat Nat).insert 1 10) ∧
    ((HashTable.new (Threshold.exact (4 / 5)) (fun k : Nat => k) 2 :
      HashTable Nat Nat).insert 1 10).end_.tableIterator <
    ((HashTable.new (Threshold.exact (4 / 5)) (fun k : Nat => k) 2 :
      HashTable Nat Nat).insert 1 10).hashTable.length :=
  ⟨Reachable.insert 1 10 (Reachable.new _ _ 2 (by decide)),
   (begin_end_positions _ (Reachable.insert 1 10 (Reachable.new _ _ 2 (by decide)))).2.1⟩

/-- C15 (retreat at the start): for every reachable table that is not empty, `operator--`
applied to `begin()` gives `begin()`. When the first non-empty bucket is bucket 0 the
iterator is set to the front of that bucket, where it already is; otherwise the backward scan
runs over empty buckets down to bucket 0, which is empty, and the iterator is reset to the
recomputed `begin()`. -/
theorem retreat_at_begin [Inhabited V] (t : HashTable K V) (ht : Reachable t)
    (hne : t.empty = false) :
    t.retreat t.begin = t.begin ∧
    (t.begin.tableIterator ≠ 0 →
      skipBackward t.hashTable (t.begin.tableIterator - 1) = 0 ∧
      bucketAt t.hashTable 0 = []) := by
  have hwf := ht.wf
  have hn := (empty_eq_false_iff t).1 hne
  refine ⟨retreat_begin t hwf.size_eq hn, ?_⟩
  intro hz
  obtain ⟨_, _, _, hmin, _⟩ := begin_shape t hwf.size_eq hn
  exact ⟨skipBackward_zero t.hashTable _ (fun m hm => hmin m (by omega)), hmin 0 (by omega)⟩

theorem retreat_at_begin_witness :
    Reachable ((HashTable.new (Threshold.exact (4 / 5)) (fun k : Nat => k) 2 :
      HashTable Nat Nat).insert 1 10) ∧
    ((HashTable.new (Threshold.exact (4 / 5)) (fun k : Nat => k) 2 :
      HashTable Nat Nat).insert 1 10).empty = false ∧
    ((HashTable.new (Threshold.exact (4 / 5)) (fun k : Nat => k) 2 :
      HashTable Nat Nat).insert 1 10).retreat
      ((HashTable.new (Threshold.exact (4 / 5)) (fun k : Nat => k) 2 :
      HashTable Nat Nat).insert 1 10).begin =
      ((HashTable.new (Threshold.exact (4 / 5)) (fun k : Nat => k) 2 :
      HashTable Nat Nat).insert 1 10).begin := by
  have hr : Reachable ((HashTable.new (Threshold.exact (4 / 5)) (fun k : Nat => k) 2 :
      HashTable Nat Nat).insert 1 10) :=
    Reachable.insert 1 10 (Reachable.new _ _ 2 (by decide))
  have he : ((HashTable.new (Threshold.exact (4 / 5)) (fun k : Nat => k) 2 :
      HashTable Nat Nat).insert 1 10).empty = false := by
    rw [empty_eq_false_iff, (insert_counters _ 1 10).1, find_new]
    simp
  exact ⟨hr, he, (retreat_at_begin _ hr he).1⟩

/-- C19 (backward traversal): for every reachable table, empty or not, `k ≤ size`
applications of `operator--` to `end()` give the iterator that `size - k` applications of
`operator++` to `begin()` give, so `size` of them give `begin()`; the pairs dereferenced
after the first, second, ... application are the stored pairs in the reverse of the forward
order; and for every iterator reached from `begin()` by one to `size` steps, `end()`
included, `operator--` followed by `operator++` gives that iterator back. -/
theorem backward_traversal [Inhabited V] (t : HashTable K V) (ht : Reachable t) :
    (∀ k, k ≤ t.size → (t.retreat)^[k] t.end_ = (t.advance)^[t.size - k] t.begin) ∧
    (t.retreat)^[t.size] t.end_ = t.begin ∧
    (List.range t.size).map (fun k => t.deref ((t.retreat)^[k + 1] t.end_)) =
      t.hashTable.flatten.reverse.map some ∧
    (∀ j, j < t.size →
      t.advance (t.retreat ((t.advance)^[j + 1] t.begin)) = (t.advance)^[j + 1] t.begin) := by
  have hwf := ht.wf
  have hlen : 1 ≤ t.hashTable.length := by rw [hwf.length_eq]; exact hwf.pos
  have hit := retreat_iterate t hlen hwf.size_eq
  have hstep := traversal_step t hlen hwf.size_eq
  refine ⟨hit, ?_, ?_, ?_⟩
  · rw [hit t.size (le_refl _), Nat.sub_self]
    rfl
  · apply List.ext_getElem?
    intro k
    rw [List.getElem?_map, List.getElem?_map]
    by_cases hk : k < t.size
    · rw [List.getElem?_range hk]
      simp only [Option.map_some']
      rw [hit (k + 1) (by omega)]
      obtain ⟨hd, hr⟩ := (hstep (t.size - (k + 1)) (by omega)).1 (by omega)
      rw [deref_eq t _ hd, hr]
      have hkl : k < t.hashTable.flatten.length := by rw [← hwf.size_eq]; exact hk
      rw [List.getElem?_reverse hkl, ← hwf.size_eq]
      have hidx : t.size - (k + 1) < t.hashTable.flatten.length := by
        rw [← hwf.size_eq]; omega
      have : t.size - 1 - k = t.size - (k + 1) := by omega
      rw [this, List.getElem?_eq_getElem hidx]
      rfl
    · have h1 : (List.range t.size)[k]? = none :=
        List.getElem?_eq_none (by rw [List.length_range]; omega)
      have h2 : t.hashTable.flatten.reverse[k]? = none :=
        List.getElem?_eq_none (by rw [List.length_reverse, ← hwf.size_eq]; omega)
      rw [h1, h2]
      rfl
  · intro j hj
    rw [Function.iterate_succ_apply',
      retreat_advance_of_dereferenceable t _ ((hstep j (by omega)).1 hj).1]

theorem backward_traversal_witness :
    Reachable ((HashTable.new (Threshold.exact (4 / 5)) (fun k : Nat => k) 2 :
      HashTable Nat Nat).insert 1 10) ∧
    ((HashTable.new (Threshold.exact (4 / 5)) (fun k : Nat => k) 2 :
      HashTable Nat Nat).insert 1 10).empty = false ∧
    (((HashTable.new (Threshold.exact (4 / 5)) (fun k : Nat => k) 2 :
      HashTable Nat Nat).insert 1 10).retreat)^[((HashTable.new (Threshold.exact (4 / 5))
        (fun k : Nat => k) 2 : HashTable Nat Nat).insert 1 10).size]
      ((HashTable.new (Threshold.exact (4 / 5)) (fun k : Nat => k) 2 :
      HashTable Nat Nat).insert 1 10).end_ =
      ((HashTable.new (Threshold.exact (4 / 5)) (fun k : Nat => k) 2 :
      HashTable Nat Nat).insert 1 10).begin := by
  have hr : Reachable ((HashTable.new (Threshold.exact (4 / 5)) (fun k : Nat => k) 2 :
      HashTable Nat Nat).insert 1 10) :=
    Reachable.insert 1 10 (Reachable.new _ _ 2 (by decide))
  have he : ((HashTable.new (Threshold.exact (4 / 5)) (fun k : Nat => k) 2 :
      HashTable Nat Nat).insert 1 10).empty = false := by
    rw [empty_eq_false_iff, (insert_counters _ 1 10).1, find_new]
    simp
  exact ⟨hr, he, (backward_traversal _ hr).2.1⟩

/-! ## Load factor under all calls -/

/-- C20, as stated, fails in its first half, in two ways. With 16777219 initial buckets and
the `float` threshold `t = 16777213 / 2 ^ 47`, for which `t * n0 ≥ 1`, two inserts of distinct
keys return without a rehash, because `(float)size / listCount` is computed as `2 / 16777220`
rounded to `16777212 / 2 ^ 47`, which is below `t`; the exact ratio `2 / 16777219` after the
second insert is not below `t`. With 3145728 initial buckets and the threshold
`t = 5592407 / 2 ^ 20`, for which `t * n0 ≥ 1`, the inserts of the keys `0, ..., 2 ^ 24 + 4`
return without a rehash, because `(float)size` is at most 16777220 and the quotient is
rounded to at most `11184813 / 2 ^ 21`; the exact ratio after the last insert equals `t`. -/
theorem rounded_quotient_below_threshold :
    ((1 : ℚ) ≤ (⟨false, 103, 8388605⟩ : Binary32).toRat * ((16777219 : Nat) : ℚ) ∧
      1 ≤ 16777219 ∧
      ((Machine.construct ⟨false, 103, 8388605⟩ (fun k : Nat => k) 16777219 :
        Machine Nat Nat).run [Op.insert 0 0, Op.insert 1 0]).map Machine.size = some 2 ∧
      ((Machine.construct ⟨false, 103, 8388605⟩ (fun k : Nat => k) 16777219 :
        Machine Nat Nat).run [Op.insert 0 0, Op.insert 1 0]).map Machine.listCount =
        some 16777219 ∧
      ((Machine.construct ⟨false, 103, 8388605⟩ (fun k : Nat => k) 16777219 :
        Machine Nat Nat).run [Op.insert 0 0, Op.insert 1 0]).map Machine.getLoadFactor =
        some (2 / 16777219) ∧
      (⟨false, 103, 8388605⟩ : Binary32).toRat ≤ 2 / 16777219 ∧
      ¬ (⟨false, 103, 8388605⟩ : Binary32).exceeds (2 / 16777219)) ∧
    ((1 : ℚ) ≤ (⟨false, 129, 2796206⟩ : Binary32).toRat * ((3145728 : Nat) : ℚ) ∧
      1 ≤ 3145728 ∧
      ((Machine.construct ⟨false, 129, 2796206⟩ (fun k : Nat => k) 3145728 :
        Machine Nat Nat).run ((List.range 16777221).map (fun k => Op.insert k 0))).map
        Machine.size = some 16777221 ∧
      ((Machine.construct ⟨false, 129, 2796206⟩ (fun k : Nat => k) 3145728 :
        Machine Nat Nat).run ((List.range 16777221).map (fun k => Op.insert k 0))).map
        Machine.listCount = some 3145728 ∧
      ((Machine.construct ⟨false, 129, 2796206⟩ (fun k : Nat => k) 3145728 :
        Machine Nat Nat).run ((List.range 16777221).map (fun k => Op.insert k 0))).map
        Machine.getLoadFactor = some (5592407 / 2 ^ 20) ∧
      (⟨false, 129, 2796206⟩ : Binary32).toRat ≤ 5592407 / 2 ^ 20 ∧
      ¬ (⟨false, 129, 2796206⟩ : Binary32).exceeds (5592407 / 2 ^ 20)) := by
  obtain ⟨m, hrun, hs, hl, hlf⟩ := run_two_inserts_counters
  obtain ⟨m3, hrun3, hs3, hl3, hlf3⟩ := run_large
  rw [hrun, hrun3]
  exact ⟨⟨by rw [toRat_small]; norm_num, by decide, by rw [Option.map_some', hs],
      by rw [Option.map_some', hl], by rw [Option.map_some', hlf],
      by rw [toRat_small]; norm_num, not_exceeds_small⟩,
    ⟨by rw [toRat_large]; norm_num, by decide, by rw [Option.map_some', hs3],
      by rw [Option.map_some', hl3], by rw [Option.map_some', hlf3],
      by rw [toRat_large], not_exceeds_large⟩⟩

/-- C20, amended: for every initial bucket count `n0` with `1 ≤ n0 ≤ INT_MAX` that converts
to `float` without change, every `float` threshold `t` that is not a NaN and is above
`1 / (2 * n0)` (in particular when `t * n0 ≥ 1`, as for the defaults 0.8f and 10), and every
hash function: a sequence of calls of `insert`, `erase`, `operator[]` (and `clear`) on the
new table returns when `n0 * 2 ^ (number of calls)` fits in an `int`, and whenever it returns
and no size above `2 ^ 24` was reached on the way, the load factor `size / listCount`, as an
exact ratio, is below `t`; whereas for the threshold `t = 0.25f > 0` and `n0 = 1`, where
`t * n0 < 1`, the first `insert` of any key returns with a load factor of at least `t`. -/
theorem one_doubling_enough [Inhabited V] :
    (∀ (thr : Binary32) (hashFunc : K → Nat) (initialSize : Nat) (ops : List (Op K V)),
      1 ≤ initialSize → initialSize ≤ 2147483647 → roundNat initialSize = initialSize →
      thr.exceeds (1 / (2 * (initialSize : ℚ))) →
      (initialSize * 2 ^ ops.length ≤ 2147483647 →
        ((Machine.construct thr hashFunc initialSize : Machine K V).run ops).isSome = true) ∧
      ∀ m : Machine K V,
        (Machine.construct thr hashFunc initialSize : Machine K V).run ops = some m →
        (∀ k m1, (Machine.construct thr hashFunc initialSize : Machine K V).run (ops.take k) =
          some m1 → m1.size ≤ 16777216) →
        thr.exceeds m.getLoadFactor) ∧
    (∀ (thr : Binary32) (initialSize : Nat), thr.isNaN = false → 1 ≤ initialSize →
      1 ≤ thr.toRat * (initialSize : ℚ) → thr.exceeds (1 / (2 * (initialSize : ℚ)))) ∧
    (∃ (thr : Binary32) (initialSize : Nat), 0 < thr.toRat ∧ 1 ≤ initialSize ∧
      thr.toRat * (initialSize : ℚ) < 1 ∧
      ∀ (hashFunc : K → Nat) (key : K) (value : V),
        ∃ m : Machine K V,
          (Machine.construct thr hashFunc initialSize : Machine K V).insert key value =
            some m ∧
          thr.toRat ≤ m.getLoadFactor) := by
  refine ⟨?_, ?_, ?_⟩
  · intro thr hashFunc initialSize ops hsize hmax hexact hthr
    refine ⟨fun hshort => ?_, fun m hrun hall => ?_⟩
    · rw [run_construct_of_short thr hashFunc hsize ops hshort]
      rfl
    · exact machine_run_exceeds thr hashFunc hsize hmax hexact hthr ops hrun hall
  · intro thr initialSize hnan hsize hge
    exact Binary32.exceeds_of_one_le hnan hsize hge
  · refine ⟨⟨false, 125, 0⟩, 1, by rw [toRat_quarter]; norm_num, le_refl 1,
      by rw [toRat_quarter]; norm_num, ?_⟩
    intro hashFunc key value
    obtain ⟨m, _, hm, _, _, hlf⟩ := insertAll_quarter hashFunc key value
    exact ⟨m, hm, by rw [toRat_quarter, hlf]; norm_num⟩

theorem one_doubling_enough_witness :
    1 ≤ 10 ∧ 10 ≤ 2147483647 ∧ roundNat 10 = 10 ∧
    Binary32.defaultLoadFactor.exceeds (1 / (2 * ((10 : Nat) : ℚ))) ∧
    ((Machine.construct Binary32.defaultLoadFactor (fun k : Nat => k) 10 :
      Machine Nat Nat).run
      [Op.insert 1 10, Op.insert 2 20, Op.erase 1, Op.index 3, Op.indexAssign 4 40]).isSome =
      true ∧
    (Machine.construct Binary32.defaultLoadFactor (fun k : Nat => k) 10 :
      Machine Nat Nat).run
      [Op.insert 1 10, Op.insert 2 20, Op.erase 1, Op.index 3, Op.indexAssign 4 40] =
      some ((run (HashTable.new (Threshold.binary32 Binary32.defaultLoadFactor)
        (fun k : Nat => k) 10)
        [Op.insert 1 10, Op.insert 2 20, Op.erase 1, Op.index 3, Op.indexAssign 4 40]).toMachine
          Binary32.defaultLoadFactor) ∧
    Binary32.defaultLoadFactor.exceeds
      ((run (HashTable.new (Threshold.binary32 Binary32.defaultLoadFactor)
        (fun k : Nat => k) 10)
        [Op.insert 1 10, Op.insert 2 20, Op.erase 1, Op.index 3, Op.indexAssign 4 40]).toMachine
          Binary32.defaultLoadFactor : Machine Nat Nat).getLoadFactor :=
  have h3 : roundNat 10 = 10 := roundNat_of_lt (by norm_num)
  have h4 : Binary32.defaultLoadFactor.exceeds (1 / (2 * ((10 : Nat) : ℚ))) :=
    exceeds_default _ (by norm_num)
  have hrun := run_construct_of_short Binary32.defaultLoadFactor (fun k : Nat => k)
    (show 1 ≤ 10 by decide)
    [Op.insert (1 : Nat) (10 : Nat), Op.insert 2 20, Op.erase 1, Op.index 3,
      Op.indexAssign 4 40] (by decide)
  ⟨by decide, by decide, h3, h4,
   ((@one_doubling_enough Nat Nat _ _).1 Binary32.defaultLoadFactor (fun k : Nat => k) 10
     [Op.insert 1 10, Op.insert 2 20, Op.erase 1, Op.index 3, Op.indexAssign 4 40]
     (by decide) (by decide) h3 h4).1 (by decide),
   hrun,
   ((@one_doubling_enough Nat Nat _ _).1 Binary32.defaultLoadFactor (fun k : Nat => k) 10
     [Op.insert 1 10, Op.insert 2 20, Op.erase 1, Op.index 3, Op.indexAssign 4 40]
     (by decide) (by decide) h3 h4).2 _ hrun
     (prefix_sizes_of_length_le _ _ (by decide) (by decide) _ (by decide))⟩

end Claims

end HashTableModel
